import Mathlib

/-!
Shallow embedding of Dugy/serialisable (`serialisable.hpp`, the file given as
`src/unnamed/part_001`) and verification of the frozen claims about it.

Modelling conventions:
* Byte strings (`std::string`, `std::vector<uint8_t>`) are `List Nat`, each
  entry a byte value `< 256`.
* `double` values are modelled by their IEEE-754 bit pattern (a `Nat < 2^64`),
  because the source manipulates doubles through
  `*reinterpret_cast<const uint64_t*>(&_value)`.  Comparisons between a
  nonnegative finite double and a positive finite constant are reflected as
  comparisons of bit patterns, which is exact for finite values (the claims
  under verification only ever quantify over finite doubles).
* `std::unordered_map<std::string, ...>` is modelled as an association list in
  some iteration order; the source itself never relies on a particular order
  except where it sorts (`getOrdered`), which is modelled by insertion sort.
  `std::sort` is unstable, but all key lists sorted here have distinct keys,
  for which every correct sort yields the same result.
* Exceptions become explicit error results; the decoder additionally carries a
  fuel counter, with a distinguished `out` result for fuel exhaustion (the C++
  decoder has no fuel; totality with generous fuel is proved separately).
-/

namespace Serialisable

-- Tag constants from `Serialisable::CondensedInfo::CondensedPrefix`.
namespace CondensedInfo

def HALF_PRECISION_FLOAT : Nat := 0x80
def SHORT_STRING : Nat := 0x60
def RESERVED_1 : Nat := 0x7e
def LONG_STRING : Nat := 0x7f
def MINIMAL_INTEGER : Nat := 0x40
def COMMON_OBJECT : Nat := 0x38
def RESERVED_2 : Nat := 0x3d
def UNCOMMON_OBJECT : Nat := 0x3e
def RARE_OBJECT : Nat := 0x3f
def SMALL_UNIQUE_OBJECT : Nat := 0x30
def LARGE_UNIQUE_OBJECT : Nat := 0x36
def HASHTABLE : Nat := 0x37
def SHORT_ARRAY : Nat := 0x20
def LONG_ARRAY : Nat := 0x2f
def VERY_SHORT_INTEGER : Nat := 0x10
def DOUBLE : Nat := 0x0f
def FLOAT : Nat := 0x0e
def SIGNED_LONG_INTEGER : Nat := 0x0d
def UNSIGNED_LONG_INTEGER : Nat := 0x0c
def SIGNED_INTEGER : Nat := 0x0b
def UNSIGNED_INTEGER : Nat := 0x0a
def SIGNED_SHORT_INTEGER : Nat := 0x09
def UNSIGNED_SHORT_INTEGER : Nat := 0x08
def TRUE : Nat := 0x03
def FALSE : Nat := 0x02
def NIL : Nat := 0x01
def TERMINATOR : Nat := 0x00

def MAX_SHORT_STRING_SIZE : Nat := 30
def MAX_SHORT_ARRAY_SIZE : Nat := 14
def MAX_COMMON_OBJECT_ID : Nat := 5
def MAX_UNCOMMON_OBJECT_ID : Nat := 261
def MAX_SMALL_UNIQUE_OBJECT_SIZE : Nat := 6
def STRING_FINAL_BIT_FLIP : Nat := 0x80

end CondensedInfo

/-- `Serialisable::JSONdouble::Hint`. -/
inductive Hint where
  | ABSENT
  | HALF_PRECISION
  | SINGLE_PRECISION
  | DOUBLE_PRECISION
deriving DecidableEq, Repr

/-- The in-memory JSON value model: `Serialisable::JSON` and its subclasses
`JSONstring`, `JSONdouble`, `JSONint` (also covering `JSONdoubleOrInt`, whose
`type()` and integer payload coincide with `JSONint`), `JSONbool`,
`JSONobject`, `JSONarray`.  A double is carried as its bit pattern together
with its `_hint` field. -/
inductive JSON where
  | nil
  | bool (b : Bool)
  | int (v : Int)
  | double (bits : Nat) (hint : Hint)
  | str (s : List Nat)
  | arr (elems : List JSON)
  | obj (entries : List (List Nat × JSON))
deriving Repr

/-- Lexicographic comparison of byte strings: `std::string::operator<`
(`char_traits<char>` compares as unsigned char). -/
def keyLt : List Nat → List Nat → Bool
  | [], [] => false
  | [], _ :: _ => true
  | _ :: _, [] => false
  | a :: as, b :: bs => if a < b then true else if b < a then false else keyLt as bs

/-- One insertion step of the insertion sort modelling `std::sort`. -/
def insertBy (cmp : α → α → Bool) (p : α) : List α → List α
  | [] => [p]
  | q :: rest => if cmp p q then p :: q :: rest else q :: insertBy cmp p rest

/-- Insertion sort modelling `std::sort` with a strict-order comparator. -/
def sortBy (cmp : α → α → Bool) : List α → List α
  | [] => []
  | p :: rest => insertBy cmp p (sortBy cmp rest)

/-- `JSONobject::getOrdered`: entries sorted by key
(`first.first < second.first`). -/
def sortPairs (l : List (List Nat × α)) : List (List Nat × α) :=
  sortBy (fun p q => keyLt p.1 q.1) l

/-- A key is representable in the shape-descriptor grammar iff every byte is a
positive signed char, i.e. in `1..127` (`it.first[i] > 0` in
`JSONobject::getDescriptor`). -/
def keyValid (k : List Nat) : Bool :=
  k.all fun b => decide (1 ≤ b) && decide (b ≤ 127)

/-- Descriptor bytes of one nonempty key: all bytes verbatim, final byte OR-ed
with `STRING_FINAL_BIT_FLIP`. -/
def markLast : List Nat → List Nat
  | [] => []
  | [b] => [b ||| 0x80]
  | b :: rest => b :: markLast rest

/-- Descriptor contribution of a single key; the empty key contributes a lone
`0x80` (`JSONobject::getDescriptor`). -/
def descOfKey (k : List Nat) : List Nat :=
  match k with
  | [] => [0x80]
  | _ => markLast k

/-- Shape descriptor of a sorted key list: concatenation of per-key bytes. -/
def descOf (ks : List (List Nat)) : List Nat :=
  ks.flatMap descOfKey

/-- `JSONobject::getDescriptor`: the composed descriptor of the key-sorted
entries, or `none` when some key byte is not a positive signed char. -/
def getDescriptor (entries : List (List Nat × JSON)) : Option (List Nat) :=
  let ordered := sortPairs entries
  if ordered.all fun kv => keyValid kv.1 then some (descOf (ordered.map Prod.fst))
  else none

/-- Little-endian byte serialisation of the low `n` bytes of `x`; the
`writeBinary` lambda in `JSONint::writeCondensed` and the float/double loops in
`JSONdouble::writeCondensed`. -/
def leBytes : Nat → Nat → List Nat
  | 0, _ => []
  | n + 1, x => (x &&& 0xff) :: leBytes n (x >>> 8)

/-- Little-endian byte deserialisation: the `parseInt` lambda of
`parseCondensed` (`made |= uint64_t(*source) << i`). -/
def leVal : List Nat → Nat
  | [] => 0
  | b :: rest => b ||| (leVal rest <<< 8)

/-- Two's-complement reading of a `w`-bit unsigned value as signed. -/
def toSigned (w : Nat) (x : Nat) : Int :=
  if x < 2 ^ (w - 1) then (x : Int) else (x : Int) - 2 ^ w

/-- `JSONint::writeCondensed` (the `_value` is an `int64_t`).  All range tests
are strict exactly as in the source; note that `INT64_MIN` and `INT64_MAX`
satisfy none of the branches and emit nothing. -/
def encInt (v : Int) : List Nat :=
  if v ≤ 15 ∧ -16 ≤ v then
    [((v.emod 32).toNat &&& 0x1f) ||| CondensedInfo.MINIMAL_INTEGER]
  else if v ≤ 2047 ∧ -2048 ≤ v then
    [CondensedInfo.VERY_SHORT_INTEGER ||| (((v.emod 4096).toNat &&& 0xf00) >>> 8),
      (v.emod 256).toNat]
  else if v < 32767 ∧ -32768 < v then
    CondensedInfo.SIGNED_SHORT_INTEGER :: leBytes 2 (v.emod (2 ^ 16)).toNat
  else if v < 65535 ∧ 0 < v then
    CondensedInfo.UNSIGNED_SHORT_INTEGER :: leBytes 2 (v.emod (2 ^ 16)).toNat
  else if v < 2147483647 ∧ -2147483648 < v then
    CondensedInfo.SIGNED_INTEGER :: leBytes 4 (v.emod (2 ^ 32)).toNat
  else if v < 4294967295 ∧ 0 < v then
    CondensedInfo.UNSIGNED_INTEGER :: leBytes 4 (v.emod (2 ^ 32)).toNat
  else if v < 9223372036854775807 ∧ -9223372036854775808 < v then
    CondensedInfo.SIGNED_LONG_INTEGER :: leBytes 8 (v.emod (2 ^ 64)).toNat
  else []

/-- `JSONstring::writeCondensed`. -/
def encStr (s : List Nat) : List Nat :=
  if s.length < CondensedInfo.MAX_SHORT_STRING_SIZE then
    (CondensedInfo.SHORT_STRING + s.length) :: s
  else
    CondensedInfo.LONG_STRING :: (s ++ [CondensedInfo.TERMINATOR])

/-- Base-2 logarithm (index of most significant bit), defined structurally on
a 64-step bound so that terms reduce; all uses have `n < 2^64`. -/
def log2Aux : Nat → Nat → Nat
  | 0, _ => 0
  | f + 1, n => if n ≤ 1 then 0 else 1 + log2Aux f (n / 2)

def natLog2 (n : Nat) : Nat := log2Aux 64 n

/-- Round-to-nearest, ties-to-even of `n / 2^k`. -/
def rne (n k : Nat) : Nat :=
  let q := n >>> k
  let r := n &&& (2 ^ k - 1)
  let half := 2 ^ (k - 1)
  if 0 < k ∧ (half < r ∨ (r = half ∧ q % 2 = 1)) then q + 1 else q

/-- Conversion of a double (by bits) to a float (by bits): the C++ cast
`float(_value)`, round-to-nearest-even. -/
def doubleToFloatBits (bits : Nat) : Nat :=
  let s := bits >>> 63
  let e := (bits >>> 52) &&& 0x7ff
  let m := bits &&& (2 ^ 52 - 1)
  if e = 0x7ff then
    -- infinity or NaN
    if m = 0 then (s <<< 31) ||| 0x7f800000 else (s <<< 31) ||| 0x7fc00000
  else
    let sig : Nat := if e = 0 then m else 2 ^ 52 + m
    if sig = 0 then s <<< 31
    else
      let eLsb : Int := (if e = 0 then 1 else (e : Int)) - 1075
      let msb := natLog2 sig
      let eAbs : Int := eLsb + msb
      if eAbs < -126 then
        -- subnormal float (or rounds to zero / to the normal minimum)
        let k : Int := -149 - eLsb
        let sub := if k ≤ 0 then sig <<< (-k).toNat else rne sig k.toNat
        (s <<< 31) ||| sub
      else
        let rounded := if msb ≤ 23 then sig <<< (23 - msb) else rne sig (msb - 23)
        let (rounded, eAbs) :=
          if 2 ^ 24 ≤ rounded then (2 ^ 23, eAbs + 1) else (rounded, eAbs)
        if 127 < eAbs then (s <<< 31) ||| 0x7f800000
        else (s <<< 31) ||| ((eAbs + 127).toNat <<< 23) ||| (rounded - 2 ^ 23)

/-- Conversion of a float (by bits) to a double (by bits): the implicit widening
in `JSONdouble(float, ...)`, always exact. -/
def floatToDoubleBits (b : Nat) : Nat :=
  let s := b >>> 31
  let ef := (b >>> 23) &&& 0xff
  let mf := b &&& (2 ^ 23 - 1)
  if ef = 0 then
    if mf = 0 then s <<< 63
    else
      -- subnormal float: normalise
      let msb := natLog2 mf
      (s <<< 63) ||| ((874 + msb) <<< 52) ||| ((mf - 2 ^ msb) <<< (52 - msb))
  else if ef = 0xff then
    (s <<< 63) ||| (0x7ff <<< 52) ||| (mf <<< 29)
  else
    (s <<< 63) ||| ((ef + 896) <<< 52) ||| (mf <<< 29)

/-- `float(tried) == tried` for the nonnegative double `tried` given by
`absBits`: exact representability as a float. -/
def fitsFloat (absBits : Nat) : Bool :=
  if absBits = 0 then true
  else
    let e := absBits >>> 52
    let m := absBits &&& (2 ^ 52 - 1)
    if e = 0x7ff then m = 0
    else if 0x381 ≤ e ∧ e ≤ 0x47e then m &&& (2 ^ 29 - 1) = 0
    else if 0x36a ≤ e ∧ e < 0x381 then (2 ^ 52 + m) % 2 ^ (29 + (0x381 - e)) = 0
    else false

/-- Bit pattern of `std::numeric_limits<float>::max()` widened to double. -/
def floatMaxBits : Nat := 0x47efffffe0000000
/-- Bit pattern of `std::numeric_limits<float>::min()` widened to double. -/
def floatMinBits : Nat := 0x3810000000000000
/-- Bit pattern of the float constant `MAX_HALF_PRECISION = 8.57316e+09f`
widened to double (its float value is 8573159936.0). -/
def maxHalfBits : Nat := 0x41fff000a0000000
/-- Bit pattern of the float constant `MIN_HALF_PRECISION_POSITIVE =
9.34961e-10f` widened to double. -/
def minHalfBits : Nat := 0x3e10100080000000

/-- `JSONdouble::updateCondensedSizeHint`, parameterised by the compile-time
preference `SERIALISABLE_BY_DUGI_CONDENSED_PREFER_PRECISION` (default
`HALF_PRECISION`).  `tried = fabs(_value)` is compared against positive float
constants; for finite doubles those comparisons coincide with comparisons of
the absolute bit patterns.  Note the source's masks: the test
`triedBinary & 0x00000000fffffffc` is TRUE when low mantissa bits are set,
although the comment above it speaks of "a lot of trailing blank bits". -/
def updateCondensedSizeHint (pref : Hint) (bits : Nat) : Hint :=
  let absBits := bits &&& 0x7fffffffffffffff
  if floatMaxBits < absBits ∨ (absBits < floatMinBits ∧ 0 < absBits) then
    Hint.DOUBLE_PRECISION
  else if pref ≠ Hint.DOUBLE_PRECISION ∨ fitsFloat absBits ∨
      bits &&& 0x00000000fffffffc ≠ 0 then
    if maxHalfBits < absBits ∨ (absBits < minHalfBits ∧ 0 < absBits) then
      Hint.SINGLE_PRECISION
    else if pref = Hint.HALF_PRECISION ∨ bits &&& 0x007ffffffffffffc ≠ 0 then
      Hint.HALF_PRECISION
    else Hint.SINGLE_PRECISION
  else Hint.DOUBLE_PRECISION

/-- `JSONdouble::writeCondensed`, parameterised by the precision preference.
The half-precision tag byte is built with unsigned-char wraparound:
`result |= ((source & 0x7ff0...) >> 52) - 0x3e0` is an `int` OR truncated to
8 bits, reflected by `Int.emod _ 256`. -/
def encDouble (pref : Hint) (bits : Nat) (hint : Hint) : List Nat :=
  let h := if hint = Hint.ABSENT then updateCondensedSizeHint pref bits else hint
  match h with
  | Hint.HALF_PRECISION =>
    let sign := (bits &&& 0x8000000000000000) >>> 57
    let eTerm : Int := (((bits &&& 0x7ff0000000000000) >>> 52) : Int) - 0x3e0
    let tag := (0x80 ||| sign) ||| (eTerm.emod 256).toNat
    [tag, (bits &&& 0x000fffffffffffff) >>> 44]
  | Hint.SINGLE_PRECISION =>
    CondensedInfo.FLOAT :: leBytes 4 (doubleToFloatBits bits)
  | Hint.DOUBLE_PRECISION =>
    CondensedInfo.DOUBLE :: leBytes 8 bits
  | Hint.ABSENT => []   -- unreachable: updateCondensedSizeHint never yields ABSENT

/-- One step of `addToObjectList`'s count map: `list[descriptor]++` on an
association list kept in first-encounter order. -/
def bumpCount (d : List Nat) : List (List Nat × Nat) → List (List Nat × Nat)
  | [] => [(d, 1)]
  | (d', c) :: rest => if d' = d then (d', c + 1) :: rest else (d', c) :: bumpCount d rest

mutual

/-- `JSON::addToObjectList` (virtual walk counting object shapes). An empty
object returns without recursing, exactly as the source does. -/
def addToObjectList : JSON → List (List Nat × Nat) → List (List Nat × Nat)
  | .obj entries, acc =>
    if entries.isEmpty then acc
    else
      let acc1 := match getDescriptor entries with
        | some d => bumpCount d acc
        | none => acc
      addToObjectListPairs entries acc1
  | .arr elems, acc => addToObjectListElems elems acc
  | _, acc => acc

/-- Walk of an array's elements. -/
def addToObjectListElems : List JSON → List (List Nat × Nat) → List (List Nat × Nat)
  | [], acc => acc
  | x :: rest, acc => addToObjectListElems rest (addToObjectList x acc)

/-- Walk of an object's values (map iteration order). -/
def addToObjectListPairs : List (List Nat × JSON) → List (List Nat × Nat) → List (List Nat × Nat)
  | [], acc => acc
  | (_, v) :: rest, acc => addToObjectListPairs rest (addToObjectList v acc)

end

/-- The id-assignment loop of `generateObjectMapping`: walk the
sorted-by-count list, stop at the first count `≤ 1` or once
`i > 0xffff + MAX_UNCOMMON_OBJECT_ID`, give sequential ids. -/
def assignIds : List (List Nat × Nat) → Nat → List (List Nat × Nat)
  | [], _ => []
  | (d, c) :: rest, i =>
    if c ≤ 1 then []
    else if 65796 < i then []
    else (d, i) :: assignIds rest (i + 1)

/-- `JSON::generateObjectMapping`.  `std::sort` leaves the order of equal
counts unspecified; the model uses insertion sort by descending count.  The
round-trip theorems only depend on properties invariant under that choice
(which descriptors get ids, and distinctness of ids). -/
def generateObjectMapping (v : JSON) : List (List Nat × Nat) :=
  let counts := addToObjectList v []
  let ordered := sortBy (fun p q => q.2 < p.2) counts
  assignIds ordered 0

/-- Association-list lookup, modelling `unordered_map::find`. -/
def mlookup (m : List (List Nat × Nat)) (d : List Nat) : Option Nat :=
  match m with
  | [] => none
  | (d', i) :: rest => if d' = d then some i else mlookup rest d

mutual

/-- Structural size of a value (number of nodes); used as fuel for the
structurally-recursive encoder. -/
def jsizeV : JSON → Nat
  | .nil => 1
  | .bool _ => 1
  | .int _ => 1
  | .double _ _ => 1
  | .str _ => 1
  | .arr elems => 1 + jsizeL elems
  | .obj entries => 1 + jsizeP entries

def jsizeL : List JSON → Nat
  | [] => 0
  | x :: r => 1 + jsizeV x + jsizeL r

def jsizeP : List (List Nat × JSON) → Nat
  | [] => 0
  | (_, v) :: r => 1 + jsizeV v + jsizeP r

end

theorem jsizeP_insertBy (cmp : List Nat × JSON → List Nat × JSON → Bool)
    (p : List Nat × JSON) (l : List (List Nat × JSON)) :
    jsizeP (insertBy cmp p l) = 1 + jsizeV p.2 + jsizeP l := by
  induction l with
  | nil => cases p; simp [insertBy, jsizeP]
  | cons q rest ih =>
    cases p with
    | mk pk pv =>
      cases q with
      | mk qk qv =>
        simp only [insertBy]
        split
        · simp [jsizeP]
        · simp only [jsizeP, ih]; omega

theorem jsizeP_sortBy (cmp : List Nat × JSON → List Nat × JSON → Bool)
    (l : List (List Nat × JSON)) : jsizeP (sortBy cmp l) = jsizeP l := by
  induction l with
  | nil => rfl
  | cons p rest ih =>
    cases p with
    | mk pk pv => simp only [sortBy, jsizeP_insertBy, jsizeP, ih]

theorem jsizeP_sortPairs (l : List (List Nat × JSON)) :
    jsizeP (sortPairs l) = jsizeP l := jsizeP_sortBy _ l

theorem jsizeP_append (l₁ l₂ : List (List Nat × JSON)) :
    jsizeP (l₁ ++ l₂) = jsizeP l₁ + jsizeP l₂ := by
  induction l₁ with
  | nil => simp [jsizeP]
  | cons p rest ih =>
    cases p with
    | mk pk pv =>
      simp only [List.cons_append, jsizeP, List.append_eq] at ih ⊢
      omega

theorem jsizeP_filter_partition (q : List Nat × JSON → Bool)
    (l : List (List Nat × JSON)) :
    jsizeP (l.filter fun a => !(q a)) + jsizeP (l.filter q) = jsizeP l := by
  induction l with
  | nil => simp [jsizeP]
  | cons a rest ih =>
    simp only [List.filter_cons]
    by_cases h : q a = true
    · rw [if_pos h, if_neg (by simp [h])]
      cases a with
      | mk ak av => simp only [jsizeP] at ih ⊢; omega
    · rw [if_neg h, if_pos (show (!q a) = true by simp [h])]
      cases a with
      | mk ak av => simp only [jsizeP] at ih ⊢; omega

/-- The hashtable iteration order: the non-empty-key entries in map order,
then the empty-key entry (if present) last. -/
def hashOrder (entries : List (List Nat × JSON)) : List (List Nat × JSON) :=
  entries.filter (fun kv => !kv.1.isEmpty) ++ entries.filter (fun kv => kv.1.isEmpty)

theorem jsizeP_hashOrder (entries : List (List Nat × JSON)) :
    jsizeP (hashOrder entries) = jsizeP entries := by
  unfold hashOrder
  rw [jsizeP_append]
  exact jsizeP_filter_partition (fun kv => kv.1.isEmpty) entries

/-- The 1-3 byte tag-plus-id reference emitted for a dictionary-mapped shape
(`JSONobject::writeCondensed`, the `mapping != end` branch).  Note the third
alternative pushes `UNCOMMON_OBJECT`, exactly as the source does. -/
def idRef (i : Nat) : List Nat :=
  if i ≤ CondensedInfo.MAX_COMMON_OBJECT_ID then
    [CondensedInfo.COMMON_OBJECT ||| i]
  else if i ≤ CondensedInfo.MAX_UNCOMMON_OBJECT_ID then
    [CondensedInfo.UNCOMMON_OBJECT, i - (CondensedInfo.MAX_COMMON_OBJECT_ID + 1)]
  else
    [CondensedInfo.UNCOMMON_OBJECT,
      ((i - (CondensedInfo.MAX_UNCOMMON_OBJECT_ID + 1)) >>> 8) &&& 0xff,
      (i - (CondensedInfo.MAX_UNCOMMON_OBJECT_ID + 1)) &&& 0xff]

mutual

/-- `JSON::writeCondensed` and its overrides, with the object mapping `m`
(descriptor → id) fixed and the set `used` of descriptors whose definition has
already been emitted threaded through (the source mutates the `used` flag in
`ObjectMapEntry`); returns the emitted bytes and the updated used set.
The fuel argument only makes the recursion structural (so that terms reduce);
any `fuel ≥ sizeOf v` yields the same result, and the wrapper `encC` below
passes `sizeOf v`. -/
def encCF (fuel : Nat) (v : JSON) (m : List (List Nat × Nat))
    (used : List (List Nat)) : List Nat × List (List Nat) :=
  match fuel with
  | 0 => ([], used)   -- unreachable for fuel ≥ sizeOf v
  | f + 1 =>
    match v with
    | .nil => ([CondensedInfo.NIL], used)
    | .bool b => ([if b then CondensedInfo.TRUE else CondensedInfo.FALSE], used)
    | .int v => (encInt v, used)
    | .double bits hint => (encDouble Hint.HALF_PRECISION bits hint, used)
    | .str s => (encStr s, used)
    | .arr elems =>
      if elems.length < CondensedInfo.MAX_SHORT_ARRAY_SIZE then
        let (body, used') := encElemsF f elems m used
        ((CondensedInfo.SHORT_ARRAY ||| elems.length) :: body, used')
      else
        let (body, used') := encElemsF f elems m used
        (CondensedInfo.LONG_ARRAY :: (body ++ [CondensedInfo.TERMINATOR]), used')
    | .obj entries =>
      if entries.isEmpty then ([CondensedInfo.SMALL_UNIQUE_OBJECT], used)
      else
        match getDescriptor entries with
        | some d =>
          match mlookup m d with
          | some idx =>
            let tagBytes := idRef idx
            let (defBytes, used1) :=
              if d ∉ used then
                if d ≠ [] then (d ++ [CondensedInfo.TERMINATOR], d :: used) else ([], used)
              else ([], used)
            let (body, used2) := encPairsF f (sortPairs entries) m used1
            (tagBytes ++ defBytes ++ body, used2)
          | none =>
            if entries.length < CondensedInfo.MAX_SMALL_UNIQUE_OBJECT_SIZE then
              let (body, used') := encPairsF f (sortPairs entries) m used
              ((CondensedInfo.SMALL_UNIQUE_OBJECT ||| entries.length) :: (d ++ body), used')
            else
              let (body, used') := encPairsF f (sortPairs entries) m used
              (CondensedInfo.LARGE_UNIQUE_OBJECT ::
                (d ++ [CondensedInfo.TERMINATOR] ++ body), used')
        | none =>
          -- hashtable form
          let keyBytes := (entries.filter (fun kv => !kv.1.isEmpty)).flatMap
            (fun kv => kv.1 ++ [CondensedInfo.TERMINATOR])
          let emptyMark : List Nat :=
            if (entries.filter (fun kv => kv.1.isEmpty)).isEmpty then []
            else [CondensedInfo.TERMINATOR]
          let (body, used') := encPairsF f (hashOrder entries) m used
          (CondensedInfo.HASHTABLE ::
            (keyBytes ++ emptyMark ++ [CondensedInfo.TERMINATOR] ++ body), used')

/-- Sequential encoding of array elements. -/
def encElemsF (fuel : Nat) (l : List JSON) (m : List (List Nat × Nat))
    (used : List (List Nat)) : List Nat × List (List Nat) :=
  match fuel with
  | 0 => ([], used)
  | f + 1 =>
    match l with
    | [] => ([], used)
    | x :: rest =>
      let (b1, used1) := encCF f x m used
      let (b2, used2) := encElemsF f rest m used1
      (b1 ++ b2, used2)

/-- Sequential encoding of the values of an ordered entry list. -/
def encPairsF (fuel : Nat) (l : List (List Nat × JSON)) (m : List (List Nat × Nat))
    (used : List (List Nat)) : List Nat × List (List Nat) :=
  match fuel with
  | 0 => ([], used)
  | f + 1 =>
    match l with
    | [] => ([], used)
    | (_, v) :: rest =>
      let (b1, used1) := encCF f v m used
      let (b2, used2) := encPairsF f rest m used1
      (b1 ++ b2, used2)

end

/-- `JSON::writeCondensed` with sufficient fuel. -/
def encC (v : JSON) (m : List (List Nat × Nat)) (used : List (List Nat)) :
    List Nat × List (List Nat) :=
  encCF (jsizeV v) v m used

/-- `JSON::condensed()`: generate the object mapping, then serialise. -/
def condensed (v : JSON) : List Nat :=
  (encC v (generateObjectMapping v) []).1

/-! ## The condensed binary decoder (`Serialisable::parseCondensed`) -/

/-- Decoder errors: the three `std::runtime_error` families thrown by
`parseCondensed`. -/
inductive CErr where
  /-- "Condensed JSON got to an unexpected end of data" (`next`/`peek`). -/
  | unexpectedEnd
  /-- "Condensed JSON version is too low" (RESERVED_1 / RESERVED_2). -/
  | version
  /-- "Condensed JSON failed to recognise type information: b" (fallthrough). -/
  | badByte (b : Nat)
deriving DecidableEq, Repr

/-- Decoder result, with `out` marking fuel exhaustion (a model artefact: the
C++ decoder is an unbounded recursion; totality is proved separately). -/
inductive PRes (α : Type) where
  | out
  | err (e : CErr)
  | ok (a : α)
deriving Repr, DecidableEq

/-- The decoder's table of shape dictionaries
(`std::vector<std::unique_ptr<std::vector<std::string>>>`). -/
abbrev Dict := List (Option (List (List Nat)))

/-- `objects.resize(index + 1)` guarded by `objects.size() < index + 1`. -/
def dictGrow (d : Dict) (n : Nat) : Dict :=
  if d.length < n then d ++ List.replicate (n - d.length) none else d

/-- Read `objects[i]` (out of range or unfilled gives `none`). -/
def dictGet (d : Dict) (i : Nat) : Option (List (List Nat)) :=
  (d.get? i).bind id

/-- Fill `objects[i]`. -/
def dictSet (d : Dict) (i : Nat) (ks : List (List Nat)) : Dict :=
  d.set i (some ks)

/-- Read `n` raw bytes (each access through `next()`). -/
def readBytes (n : Nat) (input : List Nat) : Option (List Nat × List Nat) :=
  match n, input with
  | 0, input => some ([], input)
  | _ + 1, [] => none
  | n + 1, b :: rest => (readBytes n rest).map fun (s, r) => (b :: s, r)

/-- The LONG_STRING loop: bytes until a TERMINATOR, which is consumed. -/
def readLongStr (input : List Nat) : Option (List Nat × List Nat) :=
  match input with
  | [] => none
  | b :: rest =>
    if b = 0 then some ([], rest)
    else (readLongStr rest).map fun (s, r) => (b :: s, r)

/-- The loop inside `readCodeString`: collect bytes `< 0x80`; a byte `≥ 0x80`
is the final byte, kept masked with `0x7f`. -/
def readCodeStrAux (input : List Nat) : Option (List Nat × List Nat) :=
  match input with
  | [] => none
  | b :: rest =>
    if b < 0x80 then (readCodeStrAux rest).map fun (s, r) => (b :: s, r)
    else some ([b &&& 0x7f], rest)

/-- `parseCondensed::readCodeString`: one key of a shape descriptor.  A first
byte equal to `STRING_FINAL_BIT_FLIP` denotes the empty key. -/
def readCodeStr (input : List Nat) : Option (List Nat × List Nat) :=
  match input with
  | [] => none
  | b :: rest => if b = 0x80 then some ([], rest) else readCodeStrAux (b :: rest)

theorem readCodeStrAux_length (input : List Nat) :
    ∀ s r, readCodeStrAux input = some (s, r) → r.length < input.length := by
  induction input with
  | nil => intro s r h; simp [readCodeStrAux] at h
  | cons b rest ih =>
    intro s r h
    simp only [readCodeStrAux] at h
    split at h
    · match hr : readCodeStrAux rest with
      | none => rw [hr] at h; simp [Option.map] at h
      | some (s', r') =>
        rw [hr] at h
        simp only [Option.map, Option.some.injEq, Prod.mk.injEq] at h
        have := ih s' r' hr
        obtain ⟨h1, h2⟩ := h
        subst h2
        simp only [List.length_cons]
        omega
    · simp only [Option.some.injEq, Prod.mk.injEq] at h
      simp only [List.length_cons, ← h.2]
      omega

theorem readCodeStr_length (input : List Nat) :
    ∀ s r, readCodeStr input = some (s, r) → r.length < input.length := by
  cases input with
  | nil => intro s r h; simp [readCodeStr] at h
  | cons b rest =>
    intro s r h
    simp only [readCodeStr] at h
    split at h
    · simp only [Option.some.injEq, Prod.mk.injEq] at h
      simp [← h.2]
    · exact readCodeStrAux_length _ s r h

/-- The shape-definition loop of `parseObject` / LARGE_UNIQUE_OBJECT:
`while (peek() != TERMINATOR) push readCodeString(); next();`.
The fuel only makes the recursion structural; each iteration consumes at
least one byte, so `input.length + 1` (as passed by `readKeyList`) always
suffices. -/
def readKeyListF (fuel : Nat) (input : List Nat) :
    Option (List (List Nat) × List Nat) :=
  match fuel with
  | 0 => none
  | f + 1 =>
    match input with
    | [] => none
    | b :: rest =>
      if b = 0 then some ([], rest)
      else
        match readCodeStr (b :: rest) with
        | none => none
        | some (k, r) =>
          (readKeyListF f r).map fun (ks, r') => (k :: ks, r')

def readKeyList (input : List Nat) : Option (List (List Nat) × List Nat) :=
  readKeyListF (input.length + 1) input

/-- The inner key loop of the HASHTABLE branch: bytes until a TERMINATOR
(consumed). -/
def readRawKey (input : List Nat) : Option (List Nat × List Nat) :=
  match input with
  | [] => none
  | b :: rest =>
    if b = 0 then some ([], rest)
    else (readRawKey rest).map fun (s, r) => (b :: s, r)

theorem readRawKey_length (input : List Nat) :
    ∀ s r, readRawKey input = some (s, r) → r.length < input.length := by
  induction input with
  | nil => intro s r h; simp [readRawKey] at h
  | cons b rest ih =>
    intro s r h
    simp only [readRawKey] at h
    by_cases hb : b = 0
    · rw [if_pos hb] at h
      simp only [Option.some.injEq, Prod.mk.injEq] at h
      simp [← h.2]
    · rw [if_neg hb] at h
      match hr : readRawKey rest with
      | none => rw [hr] at h; simp at h
      | some (s2, r2) =>
        rw [hr] at h
        simp only [Option.map, Option.some.injEq, Prod.mk.injEq] at h
        have := ih s2 r2 hr
        obtain ⟨h1, h2⟩ := h
        subst h2
        simp only [List.length_cons]
        omega

/-- The outer key loop of the HASHTABLE branch.  Each iteration pops the
current byte (the `next()` after the inner loop / the initial `next()`):
a zero byte terminates; otherwise the inner loop collects one key.  Fuel as
in `readKeyListF`. -/
def readHashLoopF (fuel : Nat) (input : List Nat) :
    Option (List (List Nat) × List Nat) :=
  match fuel with
  | 0 => none
  | f + 1 =>
    match input with
    | [] => none
    | b :: rest =>
      if b = 0 then some ([], b :: rest)
      else
        match readRawKey (b :: rest) with
        | none => none
        | some (k, r) =>
          (readHashLoopF f r).map fun (ks, r') => (k :: ks, r')

def readHashLoop (input : List Nat) : Option (List (List Nat) × List Nat) :=
  readHashLoopF (input.length + 1) input

/-- The HASHTABLE key section: the outer loop, then
`if (peek() == TERMINATOR) { names.push_back(""); next(); }`.
On exit of the outer loop the current byte is the section's closing zero, so
the remaining stream starts after it. -/
def readHashKeys (input : List Nat) : Option (List (List Nat) × List Nat) :=
  match readHashLoop input with
  | none => none
  | some (ks, r) =>
    -- r = 0 :: r₁: the closing zero is the current byte
    match r with
    | [] => none
    | _ :: r1 =>
      match r1 with
      | [] => none                           -- peek() throws
      | c :: r2 =>
        if c = 0 then some (ks ++ [[]], r2)  -- empty key present, consume its 0
        else some (ks, c :: r2)

/-- The SMALL_UNIQUE_OBJECT key loop: exactly `n` code strings, no
terminator. -/
def readNKeys (n : Nat) (input : List Nat) : Option (List (List Nat) × List Nat) :=
  match n with
  | 0 => some ([], input)
  | n' + 1 =>
    match readCodeStr input with
    | none => none
    | some (k, r) => (readNKeys n' r).map fun (ks, r') => (k :: ks, r')

mutual

/-- `Serialisable::parseCondensed` (the private recursive overload).  The
input list holds the not-yet-consumed bytes; `next()` pops a byte (empty input
throws `unexpectedEnd`), `peek()` inspects `input.head?`.  Branches appear in
source order. -/
def parseC (fuel : Nat) (dict : Dict) (input : List Nat) :
    PRes (JSON × List Nat × Dict) :=
  match fuel with
  | 0 => .out
  | f + 1 =>
    match input with
    | [] => .err .unexpectedEnd
    | b :: r =>
      if 0x80 ≤ b then
        -- half-precision float
        match r with
        | [] => .err .unexpectedEnd
        | mb :: r2 =>
          let bits := ((b &&& 0x40) <<< 57) ||| ((0x3e0 + (b &&& 0x3f)) <<< 52) |||
            (mb <<< 44)
          .ok (.double bits Hint.HALF_PRECISION, r2, dict)
      else if b = CondensedInfo.LONG_STRING then
        match readLongStr r with
        | none => .err .unexpectedEnd
        | some (s, r2) => .ok (.str s, r2, dict)
      else if b = CondensedInfo.RESERVED_1 then .err .version
      else if b &&& 0xe0 = CondensedInfo.SHORT_STRING then
        match readBytes (b &&& 0x1f) r with
        | none => .err .unexpectedEnd
        | some (s, r2) => .ok (.str s, r2, dict)
      else if b &&& 0xe0 = CondensedInfo.MINIMAL_INTEGER then
        .ok (.int ((b &&& 0x0f : Nat) - (if b &&& 0x10 ≠ 0 then 16 else 0) : Int),
          r, dict)
      else if b = CondensedInfo.RESERVED_2 then .err .version
      else if b = CondensedInfo.UNCOMMON_OBJECT then
        match r with
        | [] => .err .unexpectedEnd
        | ib :: r2 => parseObjTag f dict (ib + CondensedInfo.MAX_COMMON_OBJECT_ID) r2
      else if b = CondensedInfo.RARE_OBJECT then
        match r with
        | b1 :: b2 :: r2 =>
          parseObjTag f dict ((b1 <<< 8) + b2 + CondensedInfo.MAX_UNCOMMON_OBJECT_ID) r2
        | _ => .err .unexpectedEnd
      else if b &&& CondensedInfo.COMMON_OBJECT = CondensedInfo.COMMON_OBJECT then
        parseObjTag f dict (b &&& 0x07) r
      else if b = CondensedInfo.LARGE_UNIQUE_OBJECT then
        match readKeyList r with
        | none => .err .unexpectedEnd
        | some (ks, r2) =>
          match parsePairs f dict ks r2 with
          | .out => .out
          | .err e => .err e
          | .ok (es, r3, d3) => .ok (.obj es, r3, d3)
      else if b = CondensedInfo.HASHTABLE then
        match readHashKeys r with
        | none => .err .unexpectedEnd
        | some (ks, r2) =>
          match parsePairs f dict ks r2 with
          | .out => .out
          | .err e => .err e
          | .ok (es, r3, d3) => .ok (.obj es, r3, d3)
      else if b &&& 0xf0 = CondensedInfo.SMALL_UNIQUE_OBJECT then
        match readNKeys (b &&& 0x07) r with
        | none => .err .unexpectedEnd
        | some (ks, r2) =>
          match parsePairs f dict ks r2 with
          | .out => .out
          | .err e => .err e
          | .ok (es, r3, d3) => .ok (.obj es, r3, d3)
      else if b = CondensedInfo.LONG_ARRAY then
        match parseLongElems f dict r with
        | .out => .out
        | .err e => .err e
        | .ok (es, r3, d3) => .ok (.arr es, r3, d3)
      else if b &&& 0xf0 = CondensedInfo.SHORT_ARRAY then
        match parseElems f dict (b &&& 0x0f) r with
        | .out => .out
        | .err e => .err e
        | .ok (es, r3, d3) => .ok (.arr es, r3, d3)
      else if b &&& 0xf0 = CondensedInfo.VERY_SHORT_INTEGER then
        match r with
        | [] => .err .unexpectedEnd
        | lo :: r2 =>
          .ok (.int ((((b &&& 0x07) <<< 8) ||| lo : Nat) -
            (if b &&& 0x08 ≠ 0 then 2048 else 0) : Int), r2, dict)
      else if b = CondensedInfo.DOUBLE then
        match readBytes 8 r with
        | none => .err .unexpectedEnd
        | some (s, r2) => .ok (.double (leVal s) Hint.DOUBLE_PRECISION, r2, dict)
      else if b = CondensedInfo.FLOAT then
        match readBytes 4 r with
        | none => .err .unexpectedEnd
        | some (s, r2) =>
          .ok (.double (floatToDoubleBits (leVal s)) Hint.SINGLE_PRECISION, r2, dict)
      else if b = CondensedInfo.SIGNED_LONG_INTEGER then
        match readBytes 8 r with
        | none => .err .unexpectedEnd
        | some (s, r2) => .ok (.int (toSigned 64 (leVal s)), r2, dict)
      else if b = CondensedInfo.UNSIGNED_LONG_INTEGER then
        -- JSONint's int64_t takes the uint64 value with two's-complement wrap
        match readBytes 8 r with
        | none => .err .unexpectedEnd
        | some (s, r2) => .ok (.int (toSigned 64 (leVal s)), r2, dict)
      else if b = CondensedInfo.SIGNED_INTEGER then
        match readBytes 4 r with
        | none => .err .unexpectedEnd
        | some (s, r2) => .ok (.int (toSigned 32 (leVal s)), r2, dict)
      else if b = CondensedInfo.UNSIGNED_INTEGER then
        match readBytes 4 r with
        | none => .err .unexpectedEnd
        | some (s, r2) => .ok (.int (leVal s : Int), r2, dict)
      else if b = CondensedInfo.SIGNED_SHORT_INTEGER then
        match readBytes 2 r with
        | none => .err .unexpectedEnd
        | some (s, r2) => .ok (.int (toSigned 16 (leVal s)), r2, dict)
      else if b = CondensedInfo.UNSIGNED_SHORT_INTEGER then
        match readBytes 2 r with
        | none => .err .unexpectedEnd
        | some (s, r2) => .ok (.int (leVal s : Int), r2, dict)
      else if b = CondensedInfo.TRUE then .ok (.bool true, r, dict)
      else if b = CondensedInfo.FALSE then .ok (.bool false, r, dict)
      else if b = CondensedInfo.NIL then .ok (.nil, r, dict)
      else .err (.badByte b)

/-- `parseCondensed::parseObject`: grow the dictionary table, fill the slot on
first use from the inline shape definition, then parse the values. -/
def parseObjTag (fuel : Nat) (dict : Dict) (idx : Nat) (input : List Nat) :
    PRes (JSON × List Nat × Dict) :=
  match fuel with
  | 0 => .out
  | f + 1 =>
    let d1 := dictGrow dict (idx + 1)
    match dictGet d1 idx with
    | some ks =>
      match parsePairs f d1 ks input with
      | .out => .out
      | .err e => .err e
      | .ok (es, r3, d3) => .ok (.obj es, r3, d3)
    | none =>
      match readKeyList input with
      | none => .err .unexpectedEnd
      | some (ks, r2) =>
        match parsePairs f (dictSet d1 idx ks) ks r2 with
        | .out => .out
        | .err e => .err e
        | .ok (es, r3, d3) => .ok (.obj es, r3, d3)

/-- `parseCondensed::parseObjectUsingDict`: one value per dictionary name, in
name order. -/
def parsePairs (fuel : Nat) (dict : Dict) (ks : List (List Nat)) (input : List Nat) :
    PRes (List (List Nat × JSON) × List Nat × Dict) :=
  match fuel with
  | 0 => .out
  | f + 1 =>
    match ks with
    | [] => .ok ([], input, dict)
    | k :: ks' =>
      match parseC f dict input with
      | .out => .out
      | .err e => .err e
      | .ok (v, r2, d2) =>
        match parsePairs f d2 ks' r2 with
        | .out => .out
        | .err e => .err e
        | .ok (es, r3, d3) => .ok ((k, v) :: es, r3, d3)

/-- The SHORT_ARRAY loop: a counted sequence of values. -/
def parseElems (fuel : Nat) (dict : Dict) (n : Nat) (input : List Nat) :
    PRes (List JSON × List Nat × Dict) :=
  match fuel with
  | 0 => .out
  | f + 1 =>
    match n with
    | 0 => .ok ([], input, dict)
    | n' + 1 =>
      match parseC f dict input with
      | .out => .out
      | .err e => .err e
      | .ok (v, r2, d2) =>
        match parseElems f d2 n' r2 with
        | .out => .out
        | .err e => .err e
        | .ok (es, r3, d3) => .ok (v :: es, r3, d3)

/-- The LONG_ARRAY loop: `while (peek() != TERMINATOR) push parseCondensed;`.
Note the loop exits WITHOUT consuming the terminator (the byte stays in the
stream), faithfully to the source.  This loop is not bounded by a count, so it
carries its own fuel. -/
def parseLongElems (g : Nat) (dict : Dict) (input : List Nat) :
    PRes (List JSON × List Nat × Dict) :=
  match g with
  | 0 => .out
  | f + 1 =>
    match input with
    | [] => .err .unexpectedEnd
    | b :: rest =>
      if b = 0 then .ok ([], b :: rest, dict)
      else
      match parseC f dict (b :: rest) with
      | .out => .out
      | .err e => .err e
      | .ok (v, r2, d2) =>
        match parseLongElems f d2 r2 with
        | .out => .out
        | .err e => .err e
        | .ok (es, r3, d3) => .ok (v :: es, r3, d3)

end

/-- The public overload `parseCondensed(const std::vector<uint8_t>&)`, with
fuel generous enough for any input (see the totality theorem). -/
def parseCondensedTop (s : List Nat) : PRes (JSON × List Nat × Dict) :=
  parseC (3 * s.length + 4) [] s

/-- Observer distinguishing fuel exhaustion (a model artifact with no source
counterpart) from the source behaviours (a return or a thrown exception). -/
def isOut {α : Type} : PRes α → Bool
  | .out => true
  | .err _ => false
  | .ok _ => false

/-! ## The textual codec (`JSON::write` / `Serialisable::parseJSON`) -/

/-- Decimal digit expansion (used for `out << int64_t`); structural on a
20-step bound, enough for any 64-bit value. -/
def natDecAux : Nat → Nat → List Nat
  | 0, _ => []
  | f + 1, n => if n < 10 then [48 + n] else natDecAux f (n / 10) ++ [48 + n % 10]

def natDec (n : Nat) : List Nat := natDecAux 20 n

/-- `out << _value` for an `int64_t`. -/
def intDec (v : Int) : List Nat :=
  if v < 0 then 45 :: natDec (-v).toNat else natDec v.toNat

/-- `JSON::writeString`: quote, escapes, quote.  Note the source emits the
quote escape as the two bytes `/` `"` (solidus, not backslash). -/
def escBytes : List Nat → List Nat
  | [] => []
  | b :: rest =>
    (if b = 34 then [47, 34]
     else if b = 10 then [92, 110]
     else if b = 92 then [92, 92]
     else [b]) ++ escBytes rest

def wStr (s : List Nat) : List Nat := 34 :: (escBytes s ++ [34])

/-- `JSON::indent`. -/
def tabs (depth : Nat) : List Nat := List.replicate depth 9

mutual

/-- `JSON::write` and its overrides (`d2s` stands in for the C++ standard
library's `ostream << double` formatting, which is outside this repository;
no theorem below ever applies it). -/
def wT (d2s : Nat → List Nat) : JSON → Nat → List Nat
  | .nil, _ => [110, 117, 108, 108]
  | .bool b, _ => if b then [116, 114, 117, 101] else [102, 97, 108, 115, 101]
  | .int v, _ => intDec v
  | .double bits _, _ =>
    let made := d2s bits
    made ++ (if !(made.contains 46) && !(made.contains 101) then [46, 48] else [])
  | .str s, _ => wStr s
  | .arr elems, depth =>
    if elems.isEmpty then [91, 93]
    else 91 :: (wElems d2s elems (depth + 1) ++ [10] ++ tabs depth ++ [93])
  | .obj entries, depth =>
    if entries.isEmpty then [123, 125]
    else 123 :: 10 :: (wPairs d2s entries (depth + 1) ++ [10] ++ tabs depth ++ [125])

/-- Array elements: newline, indent, element, comma between elements. -/
def wElems (d2s : Nat → List Nat) : List JSON → Nat → List Nat
  | [], _ => []
  | [x], depth => 10 :: (tabs depth ++ wT d2s x depth)
  | x :: rest, depth =>
    10 :: (tabs depth ++ wT d2s x depth ++ [44] ++ wElems d2s rest depth)

/-- Object members: indent, key, colon, space, value, comma+newline between
members (iteration order of the underlying map). -/
def wPairs (d2s : Nat → List Nat) : List (List Nat × JSON) → Nat → List Nat
  | [], _ => []
  | [(k, v)], depth => tabs depth ++ wStr k ++ [58, 32] ++ wT d2s v depth
  | (k, v) :: rest, depth =>
    tabs depth ++ wStr k ++ [58, 32] ++ wT d2s v depth ++ [44, 10] ++
      wPairs d2s rest depth

end

/-- `JSON::write` at depth 0 into a string (`Serialisable::serialise` uses a
`std::stringstream`). -/
def writeText (d2s : Nat → List Nat) (v : JSON) : List Nat := wT d2s v 0

/-- `in.get()` truncated to a signed char, with EOF = -1. -/
def sgn8 (b : Nat) : Int := if b < 128 then (b : Int) else (b : Int) - 256

/-- Pop one character: the C++ `in.get()` assigned to a `char`. -/
def tget : List Nat → Int × List Nat
  | [] => (-1, [])
  | b :: r => (sgn8 b, r)

/-- `parseJSON::readWhitespace`: pop until a character that is not space,
tab, newline or comma; also reports the raw byte (for the caller's
`in.unget()`) when one was actually consumed. -/
def readWs : List Nat → Int × Option Nat × List Nat
  | [] => (-1, none, [])
  | b :: r =>
    let c := sgn8 b
    if c = 32 ∨ c = 9 ∨ c = 10 ∨ c = 44 then readWs r else (c, some b, r)

/-- `in.unget()` after a successful `get` restores the byte; after EOF the
stream has failed and nothing is restored. -/
def unget (ob : Option Nat) (r : List Nat) : List Nat :=
  match ob with
  | some b => b :: r
  | none => r

/-- `parseJSON::readString`, faithfully including the escape-handling slip:
on a backslash the source calls `in.get()` up to three more times, consuming
one character per comparison.  An exhausted stream is reported as `none`
(the C++ would spin forever pushing `(char)-1`). -/
def readTStrF : Nat → List Nat → Option (List Nat × List Nat)
  | 0, _ => none
  | _ + 1, [] => none
  | f + 1, b :: r =>
    let c := sgn8 b
    if c = 34 then some ([], r)
    else if c = 92 then
      let (c1, r1) := tget r
      if c1 = 34 then (readTStrF f r1).map fun (s, rr) => (34 :: s, rr)
      else
        let (c2, r2) := tget r1
        if c2 = 110 then (readTStrF f r2).map fun (s, rr) => (10 :: s, rr)
        else
          let (c3, r3) := tget r2
          if c3 = 92 then (readTStrF f r3).map fun (s, rr) => (92 :: s, rr)
          else readTStrF f r3
    else (readTStrF f r).map fun (s, rr) => (b :: s, rr)

def readTStr (input : List Nat) : Option (List Nat × List Nat) :=
  readTStrF (input.length + 1) input

/-- The number-scanning do-while loop: pops a character, pushes it, continues
while it is sign, exponent letter, comma, dot or digit; the final `unget`
restores the last character if the stream had not failed.  Returns the pushed
bytes, the `hasDecimal` flag and the remaining stream. -/
def numLoop : List Nat → Bool → List Nat × Bool × List Nat
  | [], hd => ([255], hd, [])
  | b :: r, hd =>
    let c := sgn8 b
    let hd' := if !hd ∧ (c = 46 ∨ c = 101 ∨ c = 69) then true else hd
    if c = 45 ∨ c = 43 ∨ c = 69 ∨ c = 101 ∨ c = 44 ∨ c = 46 ∨ (48 ≤ c ∧ c ≤ 57) then
      let (cs, hdf, rem) := numLoop r hd'
      (b :: cs, hdf, rem)
    else (b :: [], hd', b :: r)

/-- `std::stringstream >> int64_t` on the collected token: optional minus
sign, leading decimal digits, clamped to the `int64_t` range on overflow
(C++11 semantics); no digits yields 0. -/
def ssInt (s : List Nat) : Int :=
  let (neg, rest) : Bool × List Nat := match s with
    | 45 :: r => (true, r)
    | _ => (false, s)
  let ds := rest.takeWhile fun b => decide (48 ≤ b) && decide (b ≤ 57)
  let n : Nat := ds.foldl (fun acc d => acc * 10 + (d - 48)) 0
  let v : Int := if neg then -(n : Int) else (n : Int)
  if v < -9223372036854775808 then -9223372036854775808
  else if 9223372036854775807 < v then 9223372036854775807
  else v

/-- Map insertion with overwrite (`retval->getObject()[name] = ...`). -/
def mapInsert : List (List Nat × JSON) → List Nat → JSON → List (List Nat × JSON)
  | [], k, v => [(k, v)]
  | (k', v') :: rest, k, v =>
    if k' = k then (k', v) :: rest else (k', v') :: mapInsert rest k v

/-- Text-parser errors: the `std::runtime_error`s thrown by `parseJSON`,
plus `stuck` marking a point where the C++ would loop forever on an
exhausted stream (inside `readString`). -/
inductive TErr where
  | misspelledTrue
  | misspelledFalse
  | misspelledNull
  | expectedColon
  | unexpectedChar (c : Int)
  | stuck
deriving DecidableEq, Repr

/-- Text-parser result (`out` = fuel exhaustion; also covers the C++
non-termination of the array loop at end of stream). -/
inductive TRes (α : Type) where
  | out
  | err (e : TErr)
  | ok (a : α)
deriving Repr

mutual

/-- `Serialisable::parseJSON(std::istream&)`. -/
def parseT (fuel : Nat) (s2d : List Nat → Nat) (input : List Nat) :
    TRes (JSON × List Nat) :=
  match fuel with
  | 0 => .out
  | f + 1 =>
    let (c, _, r) := readWs input
    if c = 0 ∨ c = -1 then .ok (.nil, r)
    else if c = 34 then
      match readTStr r with
      | none => .err .stuck
      | some (str, r2) => .ok (.str str, r2)
    else if c = 116 then
      let (c1, r1) := tget r
      if c1 = 114 then
        let (c2, r2) := tget r1
        if c2 = 117 then
          let (c3, r3) := tget r2
          if c3 = 101 then .ok (.bool true, r3)
          else .err .misspelledTrue
        else .err .misspelledTrue
      else .err .misspelledTrue
    else if c = 102 then
      let (c1, r1) := tget r
      if c1 = 97 then
        let (c2, r2) := tget r1
        if c2 = 108 then
          let (c3, r3) := tget r2
          if c3 = 115 then
            let (c4, r4) := tget r3
            if c4 = 101 then .ok (.bool false, r4)
            else .err .misspelledFalse
          else .err .misspelledFalse
        else .err .misspelledFalse
      else .err .misspelledFalse
    else if c = 110 then
      let (c1, r1) := tget r
      if c1 = 117 then
        let (c2, r2) := tget r1
        if c2 = 108 then
          let (c3, r3) := tget r2
          if c3 = 108 then .ok (.nil, r3)
          else .err .misspelledNull
        else .err .misspelledNull
      else .err .misspelledNull
    else if c = 45 ∨ (48 ≤ c ∧ c ≤ 57) then
      let (cs, hasDec, rem) := numLoop r false
      let asString := c.toNat :: cs
      if hasDec then .ok (.double (s2d asString) Hint.ABSENT, rem)
      else .ok (.int (ssInt asString), rem)
    else if c = 123 then
      match objLoop f s2d [] r with
      | .out => .out
      | .err e => .err e
      | .ok (entries, r2) => .ok (.obj entries, r2)
    else if c = 91 then
      match arrLoop f s2d [] r with
      | .out => .out
      | .err e => .err e
      | .ok (elems, r2) => .ok (.arr elems, r2)
    else .err (.unexpectedChar c)

/-- The object-member do-while loop of `parseJSON`.  After a member the loop
condition `letter != '}'` always holds (`letter` is the colon), so the loop
only exits through the `break` on a non-quote character. -/
def objLoop (fuel : Nat) (s2d : List Nat → Nat) (acc : List (List Nat × JSON))
    (input : List Nat) : TRes (List (List Nat × JSON) × List Nat) :=
  match fuel with
  | 0 => .out
  | f + 1 =>
    let (c, _, r) := readWs input
    if c = 34 then
      match readTStr r with
      | none => .err .stuck
      | some (name, r2) =>
        let (c2, _, r3) := readWs r2
        if c2 = 58 then
          match parseT f s2d r3 with
          | .out => .out
          | .err e => .err e
          | .ok (v, r4) => objLoop f s2d (mapInsert acc name v) r4
        else .err .expectedColon
    else .ok (acc, r)

/-- The array-element while loop of `parseJSON` (note the `in.unget()`
before each element parse). -/
def arrLoop (fuel : Nat) (s2d : List Nat → Nat) (acc : List JSON)
    (input : List Nat) : TRes (List JSON × List Nat) :=
  match fuel with
  | 0 => .out
  | f + 1 =>
    let (c, ob, r) := readWs input
    if c = 93 then .ok (acc, r)
    else
      match parseT f s2d (unget ob r) with
      | .out => .out
      | .err e => .err e
      | .ok (v, r2) => arrLoop f s2d (acc ++ [v]) r2

end

/-- `Serialisable::deserialise(const std::string&)`'s call to `parseJSON`,
with fuel generous enough for any input of interest. -/
def parseTextTop (s2d : List Nat → Nat) (input : List Nat) : TRes (JSON × List Nat) :=
  parseT (3 * input.length + 4) s2d input

/-! ## Canonical reordering and semantic equality -/

mutual

/-- Recursively sort object entries by key (the decoder returns objects in
dictionary-name order, which is the encoder's ASCII-sorted order). Fueled as
in `encCF`; any `fuel ≥ jsizeV v` agrees. -/
def csortF : Nat → JSON → JSON
  | 0, v => v
  | f + 1, v =>
    match v with
    | .arr elems => .arr (csortL f elems)
    | .obj entries => .obj (csortP f (sortPairs entries))
    | v => v

def csortL : Nat → List JSON → List JSON
  | 0, l => l
  | f + 1, l =>
    match l with
    | [] => []
    | x :: rest => csortF f x :: csortL f rest

def csortP : Nat → List (List Nat × JSON) → List (List Nat × JSON)
  | 0, l => l
  | f + 1, l =>
    match l with
    | [] => []
    | (k, v) :: rest => (k, csortF f v) :: csortP f rest

end

def csort (v : JSON) : JSON := csortF (jsizeV v) v

mutual

/-- Structural payload equality of values, ignoring the `_hint` bookkeeping
field of doubles; object entries are compared positionally (use on
key-sorted forms). -/
def beqJ : JSON → JSON → Bool
  | .nil, .nil => true
  | .bool a, .bool b => a == b
  | .int a, .int b => a == b
  | .double a _, .double b _ => a == b
  | .str a, .str b => a == b
  | .arr a, .arr b => beqL a b
  | .obj a, .obj b => beqP a b
  | _, _ => false

def beqL : List JSON → List JSON → Bool
  | [], [] => true
  | a :: ar, b :: br => beqJ a b && beqL ar br
  | _, _ => false

def beqP : List (List Nat × JSON) → List (List Nat × JSON) → Bool
  | [], [] => true
  | (ka, va) :: ar, (kb, vb) :: br => ka == kb && beqJ va vb && beqP ar br
  | _, _ => false

end

/-- Semantic equality in the sense of the specification: kind-and-content
equality on null/bool/number/string, recursive structural equality on arrays
and objects ignoring object iteration order. -/
def jeqv (a b : JSON) : Bool := beqJ (csort a) (csort b)

/-! ## Well-formedness classes used by the round-trip theorems -/

/-- Pairwise distinctness of keys. -/
def distinctKeys : List (List Nat) → Bool
  | [] => true
  | k :: rest => !(rest.contains k) && distinctKeys rest

mutual

/-- The class of values for which the condensed binary round-trip is proved:
no doubles (numbers held as `JSONint`), integers strictly inside the
`int64_t` extremes, strings that are short or free of 0x00, arrays small
enough for the counted form, and objects with distinct descriptor-valid
keys. -/
def wfB : JSON → Bool
  | .nil => true
  | .bool _ => true
  | .int v => decide (-9223372036854775808 < v) && decide (v < 9223372036854775807)
  | .double _ _ => false
  | .str s => (decide (s.length < 30) || s.all fun b => decide (b ≠ 0)) &&
      (s.all fun b => decide (b < 256))
  | .arr elems => decide (elems.length ≤ 13) && wfBL elems
  | .obj entries =>
      distinctKeys (entries.map Prod.fst) &&
      ((entries.map Prod.fst).all keyValid) && wfBP entries

def wfBL : List JSON → Bool
  | [] => true
  | x :: rest => wfB x && wfBL rest

def wfBP : List (List Nat × JSON) → Bool
  | [] => true
  | (_, v) :: rest => wfB v && wfBP rest

end

mutual

/-- The class of values for which the textual round-trip is proved: no
doubles, `int64_t`-ranged integers, strings and keys free of the three
escape-relevant characters, distinct keys. -/
def wfT : JSON → Bool
  | .nil => true
  | .bool _ => true
  | .int v => decide (-9223372036854775808 ≤ v) && decide (v < 9223372036854775808)
  | .double _ _ => false
  | .str s => s.all fun b => decide (b ≠ 34) && decide (b ≠ 10) && decide (b ≠ 92) &&
      decide (b < 256)
  | .arr elems => wfTL elems
  | .obj entries =>
      distinctKeys (entries.map Prod.fst) &&
      ((entries.map Prod.fst).all fun k =>
        k.all fun b => decide (b ≠ 34) && decide (b ≠ 10) && decide (b ≠ 92) &&
          decide (b < 256)) &&
      wfTP entries

def wfTL : List JSON → Bool
  | [] => true
  | x :: rest => wfT x && wfTL rest

def wfTP : List (List Nat × JSON) → Bool
  | [] => true
  | (_, v) :: rest => wfT v && wfTP rest

end

/-! ## The description-adapter frame (`Serialisable::synch`) -/

/-- Object lookup (`_json->getObject().find(key)`). -/
def lookupJ (entries : List (List Nat × JSON)) (key : List Nat) : Option JSON :=
  match entries with
  | [] => none
  | (k, v) :: rest => if k = key then some v else lookupJ rest key

/-- `Serialisable::synch<T>`: with `_saving` set, serialise the slot under the
key; otherwise look the key up, decode into the slot when present (a decoder
may throw, modelled by `none`) and report whether the key was found.  The
serialiser and deserialiser of the slot type `T` are the `Serialiser<T>`
specialisations, taken as parameters. -/
def synch {T : Type} (saving : Bool) (ser : T → JSON) (deser : T → JSON → Option T)
    (key : List Nat) (value : T) (json : List (List Nat × JSON)) :
    Option (Bool × T × List (List Nat × JSON)) :=
  if saving then
    some (true, value, mapInsert json key (ser value))
  else
    match lookupJ json key with
    | some found => (deser value found).map fun v' => (true, v', json)
    | none => some (false, value, json)

/-- `Serialiser<T>` for integral `T`: `serialise` builds a `JSONint`,
`deserialise` reads through `getInt()`, which throws unless the value is an
integer. -/
def serialiseInt (v : Int) : JSON := .int v

def deserialiseInt (_slot : Int) (j : JSON) : Option Int :=
  match j with
  | .int v => some v
  | _ => none

/-! ## Claim C9: the deserialise direction of `synch` -/

/-- C9: with the direction flag set to deserialise (`_saving = false`), for
every slot codec, key and current object: an absent key leaves the slot
unchanged and `synch` returns `false`; a present key decodes into the slot
and `synch` returns `true`. -/
theorem c9_synch_deserialise {T : Type} (ser : T → JSON) (deser : T → JSON → Option T)
    (key : List Nat) (value : T) (json : List (List Nat × JSON)) :
    (lookupJ json key = none →
      synch false ser deser key value json = some (false, value, json)) ∧
    (∀ j v', lookupJ json key = some j → deser value j = some v' →
      synch false ser deser key value json = some (true, v', json)) := by
  constructor
  · intro h
    simp [synch, h]
  · intro j v' hj hd
    simp [synch, hj, hd]

/-- Witness for C9 at a concrete integer slot: key present and key absent. -/
theorem c9_synch_deserialise_witness :
    synch false serialiseInt deserialiseInt [107] 5 [([107], .int 42)] =
      some (true, 42, [([107], .int 42)]) ∧
    synch false serialiseInt deserialiseInt [109] 5 [([107], .int 42)] =
      some (false, 5, [([107], .int 42)]) :=
  ⟨(c9_synch_deserialise serialiseInt deserialiseInt [107] 5 [([107], .int 42)]).2
      (.int 42) 42 rfl rfl,
    (c9_synch_deserialise serialiseInt deserialiseInt [109] 5 [([107], .int 42)]).1 rfl⟩

/-! ## Claim C3: double-precision preservation under `DOUBLE_PRECISION` -/

/-- C3 (code bug): with `preferredPrecision = DOUBLE_PRECISION`, the finite
double `0.1` (bits 0x3FB999999999999A) is still encoded in the 15-bit
half-float form — the masks at the "trailing blank bits" tests select the
half form exactly when low mantissa bits are SET, contradicting the source's
own comments — and decodes to bits 0x3FB9900000000000 (≈0.0998535), not to
`0.1`. -/
theorem c3_half_precision_despite_double_preference :
    updateCondensedSizeHint Hint.DOUBLE_PRECISION 0x3fb999999999999a =
      Hint.HALF_PRECISION ∧
    encDouble Hint.DOUBLE_PRECISION 0x3fb999999999999a Hint.ABSENT = [0x9b, 0x99] ∧
    parseCondensedTop [0x9b, 0x99] =
      .ok (.double 0x3fb9900000000000 Hint.HALF_PRECISION, [], []) ∧
    (0x3fb9900000000000 : Nat) ≠ 0x3fb999999999999a :=
  ⟨rfl, rfl, rfl, by decide⟩

/-! ## Claim C5: integer form selection -/

/-- C5 counterexample: the source's range tests are strict, so the boundary
value −32768 is NOT stored in a 2-byte form (it falls through int16 and
uint16 to the 4-byte int32 payload), and 65535 is NOT stored in the uint16
form (it falls to int32). -/
theorem c5_boundary_counterexample :
    encInt (-32768) = [0x0b, 0x00, 0x80, 0xff, 0xff] ∧
    (encInt (-32768)).length = 5 ∧
    encInt 65535 = [0x0b, 0xff, 0xff, 0x00, 0x00] ∧
    encInt 65535 ≠ CondensedInfo.UNSIGNED_SHORT_INTEGER :: leBytes 2 65535 :=
  ⟨rfl, rfl, rfl, by decide⟩

/-- C5 amended: the complete characterisation of `JSONint::writeCondensed`.
The 5-bit and 12-bit buckets are as the claim says; the fixed-width buckets
all use STRICT inequalities, so each signed/unsigned boundary value falls to
the next wider form (−32768 and 65535 → int32), 32767 lands in the uint16
form, and the two `int64_t` extremes emit no bytes at all.  The claim's
concrete array `[1, -1, 15, -16]` does encode to
`0x24 0x41 0x5F 0x4F 0x50`. -/
theorem c5_integer_form_selection :
    (∀ v : Int, -16 ≤ v → v ≤ 15 →
      encInt v = [((v.emod 32).toNat &&& 0x1f) ||| CondensedInfo.MINIMAL_INTEGER]) ∧
    (∀ v : Int, -2048 ≤ v → v ≤ 2047 → ¬(-16 ≤ v ∧ v ≤ 15) →
      encInt v = [CondensedInfo.VERY_SHORT_INTEGER |||
          (((v.emod 4096).toNat &&& 0xf00) >>> 8), (v.emod 256).toNat]) ∧
    (∀ v : Int, -32768 < v → v < 32767 → ¬(-2048 ≤ v ∧ v ≤ 2047) →
      encInt v = CondensedInfo.SIGNED_SHORT_INTEGER :: leBytes 2 (v.emod (2 ^ 16)).toNat) ∧
    (∀ v : Int, 32767 ≤ v → v < 65535 →
      encInt v = CondensedInfo.UNSIGNED_SHORT_INTEGER :: leBytes 2 (v.emod (2 ^ 16)).toNat) ∧
    (∀ v : Int, (65535 ≤ v ∧ v < 2147483647) ∨ (-2147483648 < v ∧ v ≤ -32768) →
      encInt v = CondensedInfo.SIGNED_INTEGER :: leBytes 4 (v.emod (2 ^ 32)).toNat) ∧
    (∀ v : Int, 2147483647 ≤ v → v < 4294967295 →
      encInt v = CondensedInfo.UNSIGNED_INTEGER :: leBytes 4 (v.emod (2 ^ 32)).toNat) ∧
    (∀ v : Int, (4294967295 ≤ v ∧ v < 9223372036854775807) ∨
        (-9223372036854775808 < v ∧ v ≤ -2147483648) →
      encInt v = CondensedInfo.SIGNED_LONG_INTEGER :: leBytes 8 (v.emod (2 ^ 64)).toNat) ∧
    encInt 9223372036854775807 = [] ∧ encInt (-9223372036854775808) = [] ∧
    condensed (.arr [.int 1, .int (-1), .int 15, .int (-16)]) =
      [0x24, 0x41, 0x5f, 0x4f, 0x50] := by
  refine ⟨?_, ?_, ?_, ?_, ?_, ?_, ?_, rfl, rfl, rfl⟩
  all_goals intro v
  all_goals intros
  all_goals unfold encInt
  all_goals split_ifs <;> first | rfl | omega

/-- Witness for C5 at concrete inputs in each bucket. -/
theorem c5_integer_form_selection_witness :
    encInt 3 = [0x43] ∧ encInt 300 = [0x11, 0x2c] ∧ encInt 3000 = [0x09, 0xb8, 0x0b] ∧
    encInt 40000 = [0x08, 0x40, 0x9c] ∧ encInt (-40000) = [0x0b, 0xc0, 0x63, 0xff, 0xff] ∧
    encInt 3000000000 = [0x0a, 0x00, 0x5e, 0xd0, 0xb2] ∧
    encInt 5000000000 = [0x0d, 0x00, 0xf2, 0x05, 0x2a, 0x01, 0x00, 0x00, 0x00] :=
  ⟨c5_integer_form_selection.1 3 (by decide) (by decide),
    c5_integer_form_selection.2.1 300 (by decide) (by decide) (by decide),
    c5_integer_form_selection.2.2.1 3000 (by decide) (by decide) (by decide),
    c5_integer_form_selection.2.2.2.1 40000 (by decide) (by decide),
    c5_integer_form_selection.2.2.2.2.1 (-40000) (Or.inr (by decide)),
    c5_integer_form_selection.2.2.2.2.2.1 3000000000 (by decide) (by decide),
    c5_integer_form_selection.2.2.2.2.2.2.1 5000000000 (Or.inl (by decide))⟩

/-! ## Claim C6: rare-object encoding -/

set_option maxRecDepth 8000 in
/-- C6 (code bug): an object whose shape got dictionary id 262 is emitted
with tag byte 0x3E (`UNCOMMON_OBJECT`) followed by the two big-endian bytes
of id − 262 — the `RARE_OBJECT` tag 0x3F is never produced by the encoder —
and the decoder's RARE_OBJECT branch adds back `MAX_UNCOMMON_OBJECT_ID`
(261), not 262, storing the shape under slot 261 instead of the assigned
262. -/
theorem c6_rare_object_mismatch :
    (encC (.obj [([0x61], .nil)]) [([0xe1], 262)] []).1 =
      [CondensedInfo.UNCOMMON_OBJECT, 0x00, 0x00, 0xe1, 0x00, CondensedInfo.NIL] ∧
    CondensedInfo.UNCOMMON_OBJECT ≠ CondensedInfo.RARE_OBJECT ∧
    parseCondensedTop [0x3f, 0x00, 0x00, 0xe1, 0x00, 0x01] =
      .ok (.obj [([0x61], .nil)], [], List.replicate 261 none ++ [some [[0x61]]]) :=
  ⟨rfl, by decide, rfl⟩

/-! ## Claim C7: comma handling in the textual parser -/

/-- C7 counterexample: parsing the text `[1,2]` yields a one-element array
`[1]` — the number scanner consumes the comma and the following digits into
the number token, and `stringstream >> int64_t` then discards everything
after the comma — whereas the claim requires the two-element array. -/
theorem c7_comma_number_counterexample :
    (∀ s2d : List Nat → Nat,
      parseTextTop s2d [91, 49, 44, 50, 93] = .ok (.arr [.int 1], [])) ∧
    List.length [JSON.int 1] ≠ 2 :=
  ⟨fun _ => rfl, by decide⟩

/-- C7 amended: the whitespace reader does treat a comma exactly like space,
tab and newline (first conjunct, for every stream), and separators between
non-numeric tokens behave as the claim says (`[true,false]`); but after a
NUMBER the comma is consumed by the number scanner, so `[1,2]` parses as the
one-element array `[1]`, while `[1 2]` and `[1, 2]` parse as `[1, 2]`. -/
theorem c7_comma_as_whitespace :
    (∀ rest : List Nat, readWs (44 :: rest) = readWs rest ∧
      readWs (32 :: rest) = readWs rest ∧ readWs (9 :: rest) = readWs rest ∧
      readWs (10 :: rest) = readWs rest) ∧
    (∀ s2d : List Nat → Nat,
      parseTextTop s2d [91, 49, 32, 50, 93] = .ok (.arr [.int 1, .int 2], []) ∧
      parseTextTop s2d [91, 49, 44, 32, 50, 93] = .ok (.arr [.int 1, .int 2], []) ∧
      parseTextTop s2d [91, 116, 114, 117, 101, 44, 102, 97, 108, 115, 101, 93] =
        .ok (.arr [.bool true, .bool false], []) ∧
      parseTextTop s2d [91, 49, 44, 50, 93] = .ok (.arr [.int 1], [])) := by
  constructor
  · intro rest
    refine ⟨?_, ?_, ?_, ?_⟩ <;> simp [readWs, sgn8]
  · intro s2d
    exact ⟨rfl, rfl, rfl, rfl⟩

/-- Witness for C7's universally quantified whitespace conjunct at a
concrete stream. -/
theorem c7_comma_as_whitespace_witness :
    readWs (44 :: [49]) = readWs [49] :=
  (c7_comma_as_whitespace.1 [49]).1

/-! ## Claim C2, counterexample part: the escape handling -/

/-- C2 counterexample: the one-character string `"` is text-encoded as the
four bytes `"/""` (the source writes the quote escape as solidus + quote),
and parsing that text yields the string `/` — the reader terminates at the
unescaped quote — so the round trip returns a different string. -/
theorem c2_escape_counterexample :
    (∀ d2s : Nat → List Nat, writeText d2s (.str [34]) = [34, 47, 34, 34]) ∧
    (∀ s2d : List Nat → Nat,
      parseTextTop s2d [34, 47, 34, 34] = .ok (.str [47], [34])) ∧
    (47 : Nat) ≠ 34 :=
  ⟨fun _ => rfl, fun _ => rfl, by decide⟩

/-! ## Encoder fuel irrelevance -/

theorem jsizeV_pos (v : JSON) : 1 ≤ jsizeV v := by
  cases v <;> simp [jsizeV]

theorem encElemsF_nil (f : Nat) (m : List (List Nat × Nat)) (u : List (List Nat)) :
    encElemsF f [] m u = ([], u) := by cases f <;> rfl

theorem encPairsF_nil (f : Nat) (m : List (List Nat × Nat)) (u : List (List Nat)) :
    encPairsF f [] m u = ([], u) := by cases f <;> rfl

theorem jsizeL_eq_zero {l : List JSON} (h : jsizeL l = 0) : l = [] := by
  match l with
  | [] => rfl
  | y :: _ => exfalso; have := jsizeV_pos y; simp only [jsizeL] at h; omega

theorem jsizeP_eq_zero {l : List (List Nat × JSON)} (h : jsizeP l = 0) : l = [] := by
  match l with
  | [] => rfl
  | (k, y) :: _ => exfalso; have := jsizeV_pos y; simp only [jsizeP] at h; omega

/-- The encoder's fuel argument is irrelevant once it reaches the structural
size of the argument. -/
theorem encCF_irrel : ∀ n : Nat,
    (∀ v m u (f₁ f₂ : Nat), jsizeV v ≤ n → jsizeV v ≤ f₁ → jsizeV v ≤ f₂ →
      encCF f₁ v m u = encCF f₂ v m u) ∧
    (∀ l m u (f₁ f₂ : Nat), jsizeL l ≤ n → jsizeL l ≤ f₁ → jsizeL l ≤ f₂ →
      encElemsF f₁ l m u = encElemsF f₂ l m u) ∧
    (∀ l m u (f₁ f₂ : Nat), jsizeP l ≤ n → jsizeP l ≤ f₁ → jsizeP l ≤ f₂ →
      encPairsF f₁ l m u = encPairsF f₂ l m u) := by
  intro n
  induction n with
  | zero =>
    refine ⟨?_, ?_, ?_⟩
    · intro v _ _ _ _ h _ _; have := jsizeV_pos v; omega
    · intro l m u f₁ f₂ h _ _
      obtain rfl := jsizeL_eq_zero (show jsizeL l = 0 by omega)
      rw [encElemsF_nil, encElemsF_nil]
    · intro l m u f₁ f₂ h _ _
      obtain rfl := jsizeP_eq_zero (show jsizeP l = 0 by omega)
      rw [encPairsF_nil, encPairsF_nil]
  | succ n ih =>
    obtain ⟨ihV, ihL, ihP⟩ := ih
    have stepL : ∀ l m u (f₁ f₂ : Nat), jsizeL l ≤ n + 1 → jsizeL l ≤ f₁ →
        jsizeL l ≤ f₂ → encElemsF f₁ l m u = encElemsF f₂ l m u := by
      intro l m u f₁ f₂ hn h1 h2
      match l with
      | [] => rw [encElemsF_nil, encElemsF_nil]
      | x :: rest =>
        simp only [jsizeL] at hn h1 h2
        have hx := jsizeV_pos x
        obtain ⟨a, rfl⟩ : ∃ a, f₁ = a + 1 := ⟨f₁ - 1, by omega⟩
        obtain ⟨b, rfl⟩ : ∃ b, f₂ = b + 1 := ⟨f₂ - 1, by omega⟩
        simp only [encElemsF]
        rw [ihV x m u a b (by omega) (by omega) (by omega)]
        cases hb : encCF b x m u with
        | mk bytes used' =>
          dsimp only
          rw [ihL rest m used' a b (by omega) (by omega) (by omega)]
    have stepP : ∀ l m u (f₁ f₂ : Nat), jsizeP l ≤ n + 1 → jsizeP l ≤ f₁ →
        jsizeP l ≤ f₂ → encPairsF f₁ l m u = encPairsF f₂ l m u := by
      intro l m u f₁ f₂ hn h1 h2
      match l with
      | [] => rw [encPairsF_nil, encPairsF_nil]
      | (k, v) :: rest =>
        simp only [jsizeP] at hn h1 h2
        have hx := jsizeV_pos v
        obtain ⟨a, rfl⟩ : ∃ a, f₁ = a + 1 := ⟨f₁ - 1, by omega⟩
        obtain ⟨b, rfl⟩ : ∃ b, f₂ = b + 1 := ⟨f₂ - 1, by omega⟩
        simp only [encPairsF]
        rw [ihV v m u a b (by omega) (by omega) (by omega)]
        cases hb : encCF b v m u with
        | mk bytes used' =>
          dsimp only
          rw [ihP rest m used' a b (by omega) (by omega) (by omega)]
    refine ⟨?_, stepL, stepP⟩
    intro v m u f₁ f₂ hn h1 h2
    have hv := jsizeV_pos v
    obtain ⟨a, rfl⟩ : ∃ a, f₁ = a + 1 := ⟨f₁ - 1, by omega⟩
    obtain ⟨b, rfl⟩ : ∃ b, f₂ = b + 1 := ⟨f₂ - 1, by omega⟩
    match v with
    | .nil | .bool _ | .int _ | .double _ _ | .str _ => rfl
    | .arr elems =>
      simp only [jsizeV] at hn h1 h2
      simp only [encCF]
      rw [stepL elems m u a b (by omega) (by omega) (by omega)]
    | .obj entries =>
      simp only [jsizeV] at hn h1 h2
      simp only [encCF]
      by_cases hemp : entries.isEmpty
      · simp [hemp]
      · simp only [hemp, Bool.false_eq_true, if_false]
        have hso : jsizeP (sortPairs entries) = jsizeP entries := jsizeP_sortPairs entries
        have hho : jsizeP (hashOrder entries) = jsizeP entries := jsizeP_hashOrder entries
        cases hd : getDescriptor entries with
        | none =>
          dsimp only
          rw [stepP (hashOrder entries) m u a b (by omega) (by omega) (by omega)]
        | some d =>
          dsimp only
          cases hm : mlookup m d with
          | some idx =>
            dsimp only
            rw [stepP (sortPairs entries) m _ a b (by omega) (by omega) (by omega)]
          | none =>
            dsimp only
            by_cases hlen : entries.length < CondensedInfo.MAX_SMALL_UNIQUE_OBJECT_SIZE
            · simp only [hlen, if_true]
              rw [stepP (sortPairs entries) m u a b (by omega) (by omega) (by omega)]
            · simp only [hlen, if_false]
              rw [stepP (sortPairs entries) m u a b (by omega) (by omega) (by omega)]

theorem encCF_eq_encC (v : JSON) (m : List (List Nat × Nat)) (u : List (List Nat))
    (f : Nat) (hf : jsizeV v ≤ f) : encCF f v m u = encC v m u :=
  (encCF_irrel (jsizeV v)).1 v m u f (jsizeV v) le_rfl hf le_rfl

/-! ## Object-free values: encoding ignores the mapping and the used set -/

mutual

/-- No object occurs anywhere inside the value. -/
def objFree : JSON → Bool
  | .nil => true
  | .bool _ => true
  | .int _ => true
  | .double _ _ => true
  | .str _ => true
  | .arr elems => objFreeL elems
  | .obj _ => false

def objFreeL : List JSON → Bool
  | [] => true
  | x :: rest => objFree x && objFreeL rest

end

/-- Per-entry object-freeness of an object's values. -/
def objFreeP : List (List Nat × JSON) → Bool
  | [] => true
  | (_, v) :: rest => objFree v && objFreeP rest

theorem objFreeP_sortPairs_aux (cmp : List Nat × JSON → List Nat × JSON → Bool)
    (p : List Nat × JSON) (l : List (List Nat × JSON)) :
    objFreeP (insertBy cmp p l) = (objFree p.2 && objFreeP l) := by
  induction l with
  | nil => cases p; simp [insertBy, objFreeP]
  | cons q rest ih =>
    cases p with
    | mk pk pv =>
      cases q with
      | mk qk qv =>
        simp only [insertBy]
        split
        · simp [objFreeP]
        · simp only [objFreeP, ih]
          simp only [Bool.and_assoc, Bool.and_comm (objFree pv)]

theorem objFreeP_sortPairs (l : List (List Nat × JSON)) :
    objFreeP (sortPairs l) = objFreeP l := by
  unfold sortPairs
  induction l with
  | nil => rfl
  | cons p rest ih =>
    cases p with
    | mk pk pv => simp only [sortBy, objFreeP_sortPairs_aux, objFreeP, ih]

/-- Object-free values encode to bytes that do not depend on the object
mapping, and leave the used set untouched. -/
theorem encCF_objFree : ∀ n : Nat,
    (∀ v, objFree v = true → jsizeV v ≤ n → ∀ f m u, jsizeV v ≤ f →
      encCF f v m u = ((encC v [] []).1, u)) ∧
    (∀ l, objFreeL l = true → jsizeL l ≤ n → ∀ f m u, jsizeL l ≤ f →
      encElemsF f l m u = ((encElemsF (jsizeL l) l [] []).1, u)) ∧
    (∀ l, objFreeP l = true → jsizeP l ≤ n → ∀ f m u, jsizeP l ≤ f →
      encPairsF f l m u = ((encPairsF (jsizeP l) l [] []).1, u)) := by
  intro n
  induction n with
  | zero =>
    refine ⟨?_, ?_, ?_⟩
    · intro v _ h; have := jsizeV_pos v; omega
    · intro l _ h f m u _
      obtain rfl := jsizeL_eq_zero (show jsizeL l = 0 by omega)
      rw [encElemsF_nil, encElemsF_nil]
    · intro l _ h f m u _
      obtain rfl := jsizeP_eq_zero (show jsizeP l = 0 by omega)
      rw [encPairsF_nil, encPairsF_nil]
  | succ n ih =>
    obtain ⟨ihV, ihL, ihP⟩ := ih
    refine ⟨?_, ?_, ?_⟩
    · intro v hof hn f m u hf
      have hv := jsizeV_pos v
      obtain ⟨a, rfl⟩ : ∃ a, f = a + 1 := ⟨f - 1, by omega⟩
      match v with
      | .nil | .bool _ | .int _ | .double _ _ | .str _ => rfl
      | .arr elems =>
        simp only [jsizeV] at hn hf
        simp only [objFree] at hof
        have harr : jsizeV (JSON.arr elems) = jsizeL elems + 1 := by
          simp [jsizeV]; omega
        simp only [encC, harr, encCF]
        rw [ihL elems hof (by omega) a m u (by omega),
          ihL elems hof (by omega) (jsizeL elems) [] [] le_rfl]
        by_cases hl : elems.length < CondensedInfo.MAX_SHORT_ARRAY_SIZE <;> simp [hl]
      | .obj entries => simp [objFree] at hof
    · intro l hof hn f m u hf
      match l with
      | [] => rw [encElemsF_nil, encElemsF_nil]
      | x :: rest =>
        simp only [jsizeL] at hn hf
        simp only [objFreeL, Bool.and_eq_true] at hof
        have hx := jsizeV_pos x
        obtain ⟨a, rfl⟩ : ∃ a, f = a + 1 := ⟨f - 1, by omega⟩
        have hstep : jsizeL (x :: rest) = (jsizeV x + jsizeL rest) + 1 := by
          simp [jsizeL]; omega
        simp only [hstep, encElemsF]
        rw [ihV x hof.1 (by omega) a m u (by omega),
          ihV x hof.1 (by omega) (jsizeV x + jsizeL rest) [] [] (by omega)]
        dsimp only
        rw [ihL rest hof.2 (by omega) a m u (by omega),
          ihL rest hof.2 (by omega) (jsizeV x + jsizeL rest) [] [] (by omega),
          ihL rest hof.2 (by omega) (jsizeL rest) [] [] le_rfl]
    · intro l hof hn f m u hf
      match l with
      | [] => rw [encPairsF_nil, encPairsF_nil]
      | (k, v) :: rest =>
        simp only [jsizeP] at hn hf
        simp only [objFreeP, Bool.and_eq_true] at hof
        have hx := jsizeV_pos v
        obtain ⟨a, rfl⟩ : ∃ a, f = a + 1 := ⟨f - 1, by omega⟩
        have hstep : jsizeP ((k, v) :: rest) = (jsizeV v + jsizeP rest) + 1 := by
          simp [jsizeP]; omega
        simp only [hstep, encPairsF]
        rw [ihV v hof.1 (by omega) a m u (by omega),
          ihV v hof.1 (by omega) (jsizeV v + jsizeP rest) [] [] (by omega)]
        dsimp only
        rw [ihP rest hof.2 (by omega) a m u (by omega),
          ihP rest hof.2 (by omega) (jsizeV v + jsizeP rest) [] [] (by omega),
          ihP rest hof.2 (by omega) (jsizeP rest) [] [] le_rfl]

/-! ## Claim C4: shape deduplication -/

/-- The byte encoding of an object's values, in ASCII-key-sorted order
(independent of mapping and used set when the values are object-free). -/
def encVals (o : List (List Nat × JSON)) : List Nat :=
  (encPairsF (jsizeP (sortPairs o)) (sortPairs o) [] []).1

theorem markLast_ne_nil (k : List Nat) (h : k ≠ []) : markLast k ≠ [] := by
  match k with
  | [b] => simp [markLast]
  | b :: c :: rest => simp [markLast]

theorem descOfKey_ne_nil (k : List Nat) : descOfKey k ≠ [] := by
  match k with
  | [] => simp [descOfKey]
  | b :: rest => exact markLast_ne_nil _ (by simp)

theorem insertBy_ne_nil (cmp : α → α → Bool) (p : α) (l : List α) :
    insertBy cmp p l ≠ [] := by
  cases l with
  | nil => simp [insertBy]
  | cons q rest =>
    simp only [insertBy]
    split <;> simp

theorem sortPairs_ne_nil {l : List (List Nat × α)} (h : l ≠ []) :
    sortPairs l ≠ [] := by
  match l with
  | p :: rest => exact insertBy_ne_nil _ p _

theorem getDescriptor_ne_nil {o : List (List Nat × JSON)} {d : List Nat}
    (ho : o ≠ []) (hd : getDescriptor o = some d) : d ≠ [] := by
  unfold getDescriptor at hd
  dsimp only at hd
  split at hd
  · obtain rfl : descOf ((sortPairs o).map Prod.fst) = d := by
      simpa using hd
    match hso : sortPairs o with
    | [] => exact absurd hso (sortPairs_ne_nil ho)
    | (k, v) :: rest =>
      simp only [List.map_cons, descOf, List.flatMap_cons]
      intro hcontra
      exact descOfKey_ne_nil k (List.append_eq_nil.mp hcontra).1
  · exact absurd hd (by simp)

/-- Encoding one object whose shape is in the mapping: the tag-plus-id
reference, the shape definition exactly when the descriptor is not yet in
the used set, then the values in sorted order. -/
theorem encObj_mapped (o : List (List Nat × JSON)) (m : List (List Nat × Nat))
    (i : Nat) (d : List Nat) (ho : o ≠ []) (hd : getDescriptor o = some d)
    (hm : mlookup m d = some i) (hof : objFreeP o = true) :
    ∀ f, jsizeV (.obj o) ≤ f → ∀ u,
      encCF f (.obj o) m u =
        (idRef i ++ (if d ∈ u then [] else d ++ [CondensedInfo.TERMINATOR]) ++ encVals o,
          if d ∈ u then u else d :: u) := by
  have hdne : d ≠ [] := getDescriptor_ne_nil ho hd
  intro f hf u
  have hsz : jsizeV (JSON.obj o) = 1 + jsizeP o := by simp [jsizeV]
  obtain ⟨a, rfl⟩ : ∃ a, f = a + 1 := ⟨f - 1, by omega⟩
  have hP : objFreeP (sortPairs o) = true := by rw [objFreeP_sortPairs]; exact hof
  have hfuel : jsizeP (sortPairs o) ≤ a := by
    rw [jsizeP_sortPairs]
    have := jsizeP_sortPairs o
    omega
  have hbody := (encCF_objFree (jsizeP (sortPairs o))).2.2 (sortPairs o) hP le_rfl
  match o, ho with
  | x :: xs, _ =>
    simp only [encCF, List.isEmpty_cons, Bool.false_eq_true, if_false]
    rw [hd]
    dsimp only
    rw [hm]
    dsimp only
    by_cases hu : d ∈ u
    · have hnn : ¬ d ∉ u := by simp [hu]
      simp only [hnn, if_false]
      try dsimp only
      rw [hbody a m u hfuel]
      simp [hu, encVals]
    · simp only [hu, not_false_iff, if_true, ne_eq, hdne, if_false]
      try dsimp only
      try rw [if_pos (show d ≠ [] from hdne)]
      try dsimp only
      rw [hbody a m (d :: u) hfuel]
      simp [hu, encVals]

/-- Encoding a run of same-shaped objects once the definition has been
emitted: every occurrence carries only the id reference and its values. -/
theorem encObjs_after_def (objs : List (List (List Nat × JSON)))
    (m : List (List Nat × Nat)) (i : Nat) (d : List Nat)
    (h : ∀ o' ∈ objs, getDescriptor o' = some d ∧ o' ≠ [] ∧ objFreeP o' = true)
    (hm : mlookup m d = some i) :
    ∀ f, jsizeL (objs.map JSON.obj) ≤ f →
      encElemsF f (objs.map JSON.obj) m [d] =
        (objs.flatMap (fun o' => idRef i ++ encVals o'), [d]) := by
  induction objs with
  | nil => intro f _; simp [encElemsF_nil]
  | cons o rest ih =>
    intro f hf
    simp only [List.map_cons, jsizeL] at hf ⊢
    have hv := jsizeV_pos (JSON.obj o)
    obtain ⟨a, rfl⟩ : ∃ a, f = a + 1 := ⟨f - 1, by omega⟩
    simp only [encElemsF]
    obtain ⟨hdo, hno, hfo⟩ := h o (by simp)
    rw [encObj_mapped o m i d hno hdo hm hfo a (by omega) [d]]
    simp only [List.mem_singleton, eq_self_iff_true, if_true]
    rw [ih (fun o' ho' => h o' (by simp [ho'])) a (by omega)]
    simp


/-! ## Claim C10: totality and strict consumption of the binary decoder -/

theorem readBytes_length {n : Nat} {i s r : List Nat}
    (h : readBytes n i = some (s, r)) : r.length + n = i.length := by
  induction n generalizing i s r with
  | zero => simp only [readBytes, Option.some.injEq, Prod.mk.injEq] at h; simp [← h.2]
  | succ n ih =>
    match i with
    | [] => simp [readBytes] at h
    | b :: rest =>
      simp only [readBytes] at h
      match hr : readBytes n rest with
      | none => rw [hr] at h; simp at h
      | some (s2, r2) =>
        rw [hr] at h
        simp only [Option.map, Option.some.injEq, Prod.mk.injEq] at h
        have := ih hr
        obtain ⟨h1, h2⟩ := h
        subst h2
        simp only [List.length_cons]
        omega

theorem readLongStr_length {i s r : List Nat} (h : readLongStr i = some (s, r)) :
    r.length < i.length := by
  induction i generalizing s r with
  | nil => simp [readLongStr] at h
  | cons b rest ih =>
    simp only [readLongStr] at h
    by_cases hb : b = 0
    · rw [if_pos hb] at h
      simp only [Option.some.injEq, Prod.mk.injEq] at h
      simp [← h.2]
    · rw [if_neg hb] at h
      match hr : readLongStr rest with
      | none => rw [hr] at h; simp at h
      | some (s2, r2) =>
        rw [hr] at h
        simp only [Option.map, Option.some.injEq, Prod.mk.injEq] at h
        have := ih hr
        obtain ⟨h1, h2⟩ := h
        subst h2
        simp only [List.length_cons]
        omega

theorem readKeyListF_length {f : Nat} {i : List Nat} {ks : List (List Nat)}
    {r : List Nat} (h : readKeyListF f i = some (ks, r)) : r.length ≤ i.length := by
  induction f generalizing i ks r with
  | zero => simp [readKeyListF] at h
  | succ f ih =>
    match i with
    | [] => simp [readKeyListF] at h
    | b :: rest =>
      simp only [readKeyListF] at h
      by_cases hb : b = 0
      · rw [if_pos hb] at h
        simp only [Option.some.injEq, Prod.mk.injEq] at h
        obtain ⟨_, hrr⟩ := h
        subst hrr
        simp
      · rw [if_neg hb] at h
        match hr : readCodeStr (b :: rest) with
        | none => rw [hr] at h; simp at h
        | some (k, r2) =>
          rw [hr] at h
          dsimp only at h
          match hk : readKeyListF f r2 with
          | none => rw [hk] at h; simp at h
          | some (ks2, r3) =>
            rw [hk] at h
            simp only [Option.map, Option.some.injEq, Prod.mk.injEq] at h
            have h1 := readCodeStr_length _ _ _ hr
            have h2 := ih hk
            obtain ⟨_, hrr⟩ := h
            subst hrr
            simp only [List.length_cons] at h1 ⊢
            omega

theorem readKeyList_length {i : List Nat} {ks : List (List Nat)} {r : List Nat}
    (h : readKeyList i = some (ks, r)) : r.length ≤ i.length :=
  readKeyListF_length h

theorem readNKeys_length {n : Nat} {i : List Nat} {ks : List (List Nat)}
    {r : List Nat} (h : readNKeys n i = some (ks, r)) : r.length ≤ i.length := by
  induction n generalizing i ks r with
  | zero => simp only [readNKeys, Option.some.injEq, Prod.mk.injEq] at h; simp [← h.2]
  | succ n ih =>
    simp only [readNKeys] at h
    match hr : readCodeStr i with
    | none => rw [hr] at h; simp at h
    | some (k, r2) =>
      rw [hr] at h
      try dsimp only at h
      match hk : readNKeys n r2 with
      | none => rw [hk] at h; simp at h
      | some (ks2, r3) =>
        rw [hk] at h
        simp only [Option.map, Option.some.injEq, Prod.mk.injEq] at h
        have h1 := readCodeStr_length _ _ _ hr
        have h2 := ih hk
        obtain ⟨_, hrr⟩ := h
        subst hrr
        omega

theorem readHashLoopF_length {f : Nat} {i : List Nat} {ks : List (List Nat)}
    {r : List Nat} (h : readHashLoopF f i = some (ks, r)) : r.length ≤ i.length := by
  induction f generalizing i ks r with
  | zero => simp [readHashLoopF] at h
  | succ f ih =>
    match i with
    | [] => simp [readHashLoopF] at h
    | b :: rest =>
      simp only [readHashLoopF] at h
      by_cases hb : b = 0
      · rw [if_pos hb] at h
        simp only [Option.some.injEq, Prod.mk.injEq] at h
        obtain ⟨_, hrr⟩ := h
        subst hrr
        simp
      · rw [if_neg hb] at h
        match hr : readRawKey (b :: rest) with
        | none => rw [hr] at h; simp at h
        | some (k, r2) =>
          rw [hr] at h
          dsimp only at h
          match hk : readHashLoopF f r2 with
          | none => rw [hk] at h; simp at h
          | some (ks2, r3) =>
            rw [hk] at h
            simp only [Option.map, Option.some.injEq, Prod.mk.injEq] at h
            have h1 := readRawKey_length _ _ _ hr
            have h2 := ih hk
            obtain ⟨_, hrr⟩ := h
            subst hrr
            simp only [List.length_cons] at h1 ⊢
            omega

theorem readHashKeys_length {i : List Nat} {ks : List (List Nat)} {r : List Nat}
    (h : readHashKeys i = some (ks, r)) : r.length ≤ i.length := by
  unfold readHashKeys at h
  match hl : readHashLoop i with
  | none => rw [hl] at h; simp at h
  | some (ks0, r0) =>
    rw [hl] at h
    have h0 : r0.length ≤ i.length := readHashLoopF_length hl
    match r0, h0 with
    | [], _ => simp at h
    | c :: r1, h0 =>
      simp only at h
      match r1, h0 with
      | [], _ => simp at h
      | c2 :: r2, h0 =>
        simp only at h
        by_cases hc : c2 = 0
        · rw [if_pos hc] at h
          simp only [Option.some.injEq, Prod.mk.injEq] at h
          obtain ⟨_, hrr⟩ := h
          subst hrr
          simp only [List.length_cons] at h0 ⊢
          omega
        · rw [if_neg hc] at h
          simp only [Option.some.injEq, Prod.mk.injEq] at h
          obtain ⟨_, hrr⟩ := h
          subst hrr
          simp only [List.length_cons] at h0 ⊢
          omega


/-- Projection of `PRes.ok` equality onto the remaining-input component. -/
theorem okRest {α : Type} {x v : α} {r2 r : List Nat} {d2 d : Dict}
    (h : (PRes.ok (x, r2, d2) : PRes (α × List Nat × Dict)) = .ok (v, r, d)) :
    r = r2 := by
  injection h with h1
  exact (congrArg (fun p => p.2.1) h1).symm

set_option maxHeartbeats 2000000 in
/-- Strict consumption: a successful `parseC` consumes at least the tag byte,
and the auxiliary loops never hand back more input than they received. -/
theorem parse_consume (f : Nat) :
    (∀ dict input v r d, parseC f dict input = .ok (v, r, d) →
      r.length < input.length) ∧
    (∀ dict idx input v r d, parseObjTag f dict idx input = .ok (v, r, d) →
      r.length ≤ input.length) ∧
    (∀ dict ks input q r d, parsePairs f dict ks input = .ok (q, r, d) →
      r.length ≤ input.length) ∧
    (∀ dict n input q r d, parseElems f dict n input = .ok (q, r, d) →
      r.length ≤ input.length) ∧
    (∀ dict input q r d, parseLongElems f dict input = .ok (q, r, d) →
      r.length ≤ input.length) := by
  induction f with
  | zero =>
    refine ⟨fun dict input v r d h => ?_, fun dict idx input v r d h => ?_,
      fun dict ks input q r d h => ?_, fun dict n input q r d h => ?_,
      fun dict input q r d h => ?_⟩ <;> exact PRes.noConfusion h
  | succ f ih =>
    obtain ⟨ihC, ihO, ihP, ihE, ihL⟩ := ih
    refine ⟨?_, ?_, ?_, ?_, ?_⟩
    · -- parseC
      intro dict input v r d h
      match input with
      | [] => exact PRes.noConfusion h
      | b :: rest =>
        simp only [parseC] at h
        by_cases hc1 : 0x80 ≤ b
        · rw [if_pos hc1] at h
          cases rest with
          | nil => exact PRes.noConfusion h
          | cons mb r2 =>
            have he := okRest h
            subst he
            simp only [List.length_cons]
            omega
        · rw [if_neg hc1] at h
          by_cases hc2 : b = CondensedInfo.LONG_STRING
          · rw [if_pos hc2] at h
            split at h
            · exact PRes.noConfusion h
            · next s2 r2 hr =>
              have h1 : r2.length ≤ rest.length := by
                exact le_of_lt (readLongStr_length hr)
              have he := okRest h
              subst he
              simp only [List.length_cons]
              omega
          · rw [if_neg hc2] at h
            by_cases hc3 : b = CondensedInfo.RESERVED_1
            · rw [if_pos hc3] at h
              exact PRes.noConfusion h
            · rw [if_neg hc3] at h
              by_cases hc4 : b &&& 0xe0 = CondensedInfo.SHORT_STRING
              · rw [if_pos hc4] at h
                split at h
                · exact PRes.noConfusion h
                · next s2 r2 hr =>
                  have h1 : r2.length ≤ rest.length := by
                    have h2 := readBytes_length hr; omega
                  have he := okRest h
                  subst he
                  simp only [List.length_cons]
                  omega
              · rw [if_neg hc4] at h
                by_cases hc5 : b &&& 0xe0 = CondensedInfo.MINIMAL_INTEGER
                · rw [if_pos hc5] at h
                  have he := okRest h
                  subst he
                  simp only [List.length_cons]
                  omega
                · rw [if_neg hc5] at h
                  by_cases hc6 : b = CondensedInfo.RESERVED_2
                  · rw [if_pos hc6] at h
                    exact PRes.noConfusion h
                  · rw [if_neg hc6] at h
                    by_cases hc7 : b = CondensedInfo.UNCOMMON_OBJECT
                    · rw [if_pos hc7] at h
                      cases rest with
                      | nil => exact PRes.noConfusion h
                      | cons ib r2 =>
                        have hc := ihO dict _ r2 v r d h
                        simp only [List.length_cons]
                        omega
                    · rw [if_neg hc7] at h
                      by_cases hc8 : b = CondensedInfo.RARE_OBJECT
                      · rw [if_pos hc8] at h
                        cases rest with
                        | nil => exact PRes.noConfusion h
                        | cons b1 r2 =>
                          cases r2 with
                          | nil => exact PRes.noConfusion h
                          | cons b2 r3 =>
                            have hc := ihO dict _ r3 v r d h
                            simp only [List.length_cons]
                            omega
                      · rw [if_neg hc8] at h
                        by_cases hc9 : b &&& CondensedInfo.COMMON_OBJECT = CondensedInfo.COMMON_OBJECT
                        · rw [if_pos hc9] at h
                          have hc := ihO dict _ rest v r d h
                          simp only [List.length_cons]
                          omega
                        · rw [if_neg hc9] at h
                          by_cases hc10 : b = CondensedInfo.LARGE_UNIQUE_OBJECT
                          · rw [if_pos hc10] at h
                            split at h
                            · exact PRes.noConfusion h
                            · next ks2 r2 hr =>
                              split at h
                              · exact PRes.noConfusion h
                              · exact PRes.noConfusion h
                              · next es r3 d3 hp =>
                                have h1 : r2.length ≤ rest.length := readKeyList_length hr
                                have h2 : r3.length ≤ r2.length := ihP dict ks2 r2 es r3 d3 hp
                                have he := okRest h
                                subst he
                                simp only [List.length_cons]
                                omega
                          · rw [if_neg hc10] at h
                            by_cases hc11 : b = CondensedInfo.HASHTABLE
                            · rw [if_pos hc11] at h
                              split at h
                              · exact PRes.noConfusion h
                              · next ks2 r2 hr =>
                                split at h
                                · exact PRes.noConfusion h
                                · exact PRes.noConfusion h
                                · next es r3 d3 hp =>
                                  have h1 : r2.length ≤ rest.length := readHashKeys_length hr
                                  have h2 : r3.length ≤ r2.length := ihP dict ks2 r2 es r3 d3 hp
                                  have he := okRest h
                                  subst he
                                  simp only [List.length_cons]
                                  omega
                            · rw [if_neg hc11] at h
                              by_cases hc12 : b &&& 0xf0 = CondensedInfo.SMALL_UNIQUE_OBJECT
                              · rw [if_pos hc12] at h
                                split at h
                                · exact PRes.noConfusion h
                                · next ks2 r2 hr =>
                                  split at h
                                  · exact PRes.noConfusion h
                                  · exact PRes.noConfusion h
                                  · next es r3 d3 hp =>
                                    have h1 : r2.length ≤ rest.length := readNKeys_length hr
                                    have h2 : r3.length ≤ r2.length := ihP dict ks2 r2 es r3 d3 hp
                                    have he := okRest h
                                    subst he
                                    simp only [List.length_cons]
                                    omega
                              · rw [if_neg hc12] at h
                                by_cases hc13 : b = CondensedInfo.LONG_ARRAY
                                · rw [if_pos hc13] at h
                                  split at h
                                  · exact PRes.noConfusion h
                                  · exact PRes.noConfusion h
                                  · next es r3 d3 hp =>
                                    have h2 : r3.length ≤ rest.length := ihL dict rest es r3 d3 hp
                                    have he := okRest h
                                    subst he
                                    simp only [List.length_cons]
                                    omega
                                · rw [if_neg hc13] at h
                                  by_cases hc14 : b &&& 0xf0 = CondensedInfo.SHORT_ARRAY
                                  · rw [if_pos hc14] at h
                                    split at h
                                    · exact PRes.noConfusion h
                                    · exact PRes.noConfusion h
                                    · next es r3 d3 hp =>
                                      have h2 : r3.length ≤ rest.length := ihE dict _ rest es r3 d3 hp
                                      have he := okRest h
                                      subst he
                                      simp only [List.length_cons]
                                      omega
                                  · rw [if_neg hc14] at h
                                    by_cases hc15 : b &&& 0xf0 = CondensedInfo.VERY_SHORT_INTEGER
                                    · rw [if_pos hc15] at h
                                      cases rest with
                                      | nil => exact PRes.noConfusion h
                                      | cons mb r2 =>
                                        have he := okRest h
                                        subst he
                                        simp only [List.length_cons]
                                        omega
                                    · rw [if_neg hc15] at h
                                      by_cases hc16 : b = CondensedInfo.DOUBLE
                                      · rw [if_pos hc16] at h
                                        split at h
                                        · exact PRes.noConfusion h
                                        · next s2 r2 hr =>
                                          have h1 : r2.length ≤ rest.length := by
                                            have h2 := readBytes_length hr; omega
                                          have he := okRest h
                                          subst he
                                          simp only [List.length_cons]
                                          omega
                                      · rw [if_neg hc16] at h
                                        by_cases hc17 : b = CondensedInfo.FLOAT
                                        · rw [if_pos hc17] at h
                                          split at h
                                          · exact PRes.noConfusion h
                                          · next s2 r2 hr =>
                                            have h1 : r2.length ≤ rest.length := by
                                              have h2 := readBytes_length hr; omega
                                            have he := okRest h
                                            subst he
                                            simp only [List.length_cons]
                                            omega
                                        · rw [if_neg hc17] at h
                                          by_cases hc18 : b = CondensedInfo.SIGNED_LONG_INTEGER
                                          · rw [if_pos hc18] at h
                                            split at h
                                            · exact PRes.noConfusion h
                                            · next s2 r2 hr =>
                                              have h1 : r2.length ≤ rest.length := by
                                                have h2 := readBytes_length hr; omega
                                              have he := okRest h
                                              subst he
                                              simp only [List.length_cons]
                                              omega
                                          · rw [if_neg hc18] at h
                                            by_cases hc19 : b = CondensedInfo.UNSIGNED_LONG_INTEGER
                                            · rw [if_pos hc19] at h
                                              split at h
                                              · exact PRes.noConfusion h
                                              · next s2 r2 hr =>
                                                have h1 : r2.length ≤ rest.length := by
                                                  have h2 := readBytes_length hr; omega
                                                have he := okRest h
                                                subst he
                                                simp only [List.length_cons]
                                                omega
                                            · rw [if_neg hc19] at h
                                              by_cases hc20 : b = CondensedInfo.SIGNED_INTEGER
                                              · rw [if_pos hc20] at h
                                                split at h
                                                · exact PRes.noConfusion h
                                                · next s2 r2 hr =>
                                                  have h1 : r2.length ≤ rest.length := by
                                                    have h2 := readBytes_length hr; omega
                                                  have he := okRest h
                                                  subst he
                                                  simp only [List.length_cons]
                                                  omega
                                              · rw [if_neg hc20] at h
                                                by_cases hc21 : b = CondensedInfo.UNSIGNED_INTEGER
                                                · rw [if_pos hc21] at h
                                                  split at h
                                                  · exact PRes.noConfusion h
                                                  · next s2 r2 hr =>
                                                    have h1 : r2.length ≤ rest.length := by
                                                      have h2 := readBytes_length hr; omega
                                                    have he := okRest h
                                                    subst he
                                                    simp only [List.length_cons]
                                                    omega
                                                · rw [if_neg hc21] at h
                                                  by_cases hc22 : b = CondensedInfo.SIGNED_SHORT_INTEGER
                                                  · rw [if_pos hc22] at h
                                                    split at h
                                                    · exact PRes.noConfusion h
                                                    · next s2 r2 hr =>
                                                      have h1 : r2.length ≤ rest.length := by
                                                        have h2 := readBytes_length hr; omega
                                                      have he := okRest h
                                                      subst he
                                                      simp only [List.length_cons]
                                                      omega
                                                  · rw [if_neg hc22] at h
                                                    by_cases hc23 : b = CondensedInfo.UNSIGNED_SHORT_INTEGER
                                                    · rw [if_pos hc23] at h
                                                      split at h
                                                      · exact PRes.noConfusion h
                                                      · next s2 r2 hr =>
                                                        have h1 : r2.length ≤ rest.length := by
                                                          have h2 := readBytes_length hr; omega
                                                        have he := okRest h
                                                        subst he
                                                        simp only [List.length_cons]
                                                        omega
                                                    · rw [if_neg hc23] at h
                                                      by_cases hc24 : b = CondensedInfo.TRUE
                                                      · rw [if_pos hc24] at h
                                                        have he := okRest h
                                                        subst he
                                                        simp only [List.length_cons]
                                                        omega
                                                      · rw [if_neg hc24] at h
                                                        by_cases hc25 : b = CondensedInfo.FALSE
                                                        · rw [if_pos hc25] at h
                                                          have he := okRest h
                                                          subst he
                                                          simp only [List.length_cons]
                                                          omega
                                                        · rw [if_neg hc25] at h
                                                          by_cases hc26 : b = CondensedInfo.NIL
                                                          · rw [if_pos hc26] at h
                                                            have he := okRest h
                                                            subst he
                                                            simp only [List.length_cons]
                                                            omega
                                                          · rw [if_neg hc26] at h
                                                            exact PRes.noConfusion h
    · -- parseObjTag
      intro dict idx input v r d h
      simp only [parseObjTag] at h
      split at h
      · next ks hks =>
        split at h
        · exact PRes.noConfusion h
        · exact PRes.noConfusion h
        · next es r3 d3 hp =>
          have h2 : r3.length ≤ input.length := ihP _ ks input es r3 d3 hp
          have he := okRest h
          subst he; omega
      · next hks =>
        split at h
        · exact PRes.noConfusion h
        · next ks r2 hr =>
          split at h
          · exact PRes.noConfusion h
          · exact PRes.noConfusion h
          · next es r3 d3 hp =>
            have h1 : r2.length ≤ input.length := readKeyList_length hr
            have h2 : r3.length ≤ r2.length := ihP _ ks r2 es r3 d3 hp
            have he := okRest h
            subst he; omega
    · -- parsePairs
      intro dict ks input q r d h
      match ks with
      | [] =>
        simp only [parsePairs] at h
        have he := okRest h
        subst he; omega
      | k :: ks2 =>
        simp only [parsePairs] at h
        split at h
        · exact PRes.noConfusion h
        · exact PRes.noConfusion h
        · next v2 r2 d2 hv =>
          split at h
          · exact PRes.noConfusion h
          · exact PRes.noConfusion h
          · next es r3 d3 hp =>
            have h1 : r2.length < input.length := ihC dict input v2 r2 d2 hv
            have h2 : r3.length ≤ r2.length := ihP d2 ks2 r2 es r3 d3 hp
            have he := okRest h
            subst he; omega
    · -- parseElems
      intro dict n input q r d h
      match n with
      | 0 =>
        simp only [parseElems] at h
        have he := okRest h
        subst he; omega
      | n2 + 1 =>
        simp only [parseElems] at h
        split at h
        · exact PRes.noConfusion h
        · exact PRes.noConfusion h
        · next v2 r2 d2 hv =>
          split at h
          · exact PRes.noConfusion h
          · exact PRes.noConfusion h
          · next es r3 d3 hp =>
            have h1 : r2.length < input.length := ihC dict input v2 r2 d2 hv
            have h2 : r3.length ≤ r2.length := ihE d2 n2 r2 es r3 d3 hp
            have he := okRest h
            subst he; omega
    · -- parseLongElems
      intro dict input q r d h
      match input with
      | [] => exact PRes.noConfusion h
      | b :: rest =>
        simp only [parseLongElems] at h
        by_cases hb : b = 0
        · rw [if_pos hb] at h
          have he := okRest h
          subst he; omega
        · rw [if_neg hb] at h
          split at h
          · exact PRes.noConfusion h
          · exact PRes.noConfusion h
          · next v2 r2 d2 hv =>
            split at h
            · exact PRes.noConfusion h
            · exact PRes.noConfusion h
            · next es r3 d3 hp =>
              have h1 : r2.length < (b :: rest).length := ihC dict (b :: rest) v2 r2 d2 hv
              have h2 : r3.length ≤ r2.length := ihL d2 r2 es r3 d3 hp
              have he := okRest h
              subst he
              simp only [List.length_cons] at h1 ⊢
              omega


set_option maxHeartbeats 2000000 in
/-- Fuel sufficiency: with fuel at least three times the input length plus a
small constant, no function of the `parseC` family exhausts its fuel, so the
model faithfully reflects the total source recursion. -/
theorem parse_total (f : Nat) :
    (∀ dict input, 3 * input.length + 1 ≤ f → parseC f dict input ≠ PRes.out) ∧
    (∀ dict idx input, 3 * input.length + 3 ≤ f →
      parseObjTag f dict idx input ≠ PRes.out) ∧
    (∀ dict ks input, 3 * input.length + 2 ≤ f →
      parsePairs f dict ks input ≠ PRes.out) ∧
    (∀ dict n input, 3 * input.length + 2 ≤ f →
      parseElems f dict n input ≠ PRes.out) ∧
    (∀ dict input, 3 * input.length + 2 ≤ f →
      parseLongElems f dict input ≠ PRes.out) := by
  induction f with
  | zero =>
    refine ⟨fun dict input hf _h => ?_, fun dict idx input hf _h => ?_,
      fun dict ks input hf _h => ?_, fun dict n input hf _h => ?_,
      fun dict input hf _h => ?_⟩ <;> omega
  | succ f ih =>
    obtain ⟨ihC, ihO, ihP, ihE, ihL⟩ := ih
    refine ⟨?_, ?_, ?_, ?_, ?_⟩
    · -- parseC
      intro dict input hf h
      match input with
      | [] => exact PRes.noConfusion h
      | b :: rest =>
        simp only [parseC] at h
        by_cases hc1 : 0x80 ≤ b
        · rw [if_pos hc1] at h
          cases rest <;> exact PRes.noConfusion h
        · rw [if_neg hc1] at h
          by_cases hc2 : b = CondensedInfo.LONG_STRING
          · rw [if_pos hc2] at h
            split at h <;> exact PRes.noConfusion h
          · rw [if_neg hc2] at h
            by_cases hc3 : b = CondensedInfo.RESERVED_1
            · rw [if_pos hc3] at h
              exact PRes.noConfusion h
            · rw [if_neg hc3] at h
              by_cases hc4 : b &&& 0xe0 = CondensedInfo.SHORT_STRING
              · rw [if_pos hc4] at h
                split at h <;> exact PRes.noConfusion h
              · rw [if_neg hc4] at h
                by_cases hc5 : b &&& 0xe0 = CondensedInfo.MINIMAL_INTEGER
                · rw [if_pos hc5] at h
                  exact PRes.noConfusion h
                · rw [if_neg hc5] at h
                  by_cases hc6 : b = CondensedInfo.RESERVED_2
                  · rw [if_pos hc6] at h
                    exact PRes.noConfusion h
                  · rw [if_neg hc6] at h
                    by_cases hc7 : b = CondensedInfo.UNCOMMON_OBJECT
                    · rw [if_pos hc7] at h
                      cases rest with
                      | nil => exact PRes.noConfusion h
                      | cons ib r2 =>
                        have hl : 3 * r2.length + 3 ≤ f := by
                          simp only [List.length_cons] at hf; omega
                        exact ihO dict _ r2 hl h
                    · rw [if_neg hc7] at h
                      by_cases hc8 : b = CondensedInfo.RARE_OBJECT
                      · rw [if_pos hc8] at h
                        cases rest with
                        | nil => exact PRes.noConfusion h
                        | cons b1 r2 =>
                          cases r2 with
                          | nil => exact PRes.noConfusion h
                          | cons b2 r3 =>
                            have hl : 3 * r3.length + 3 ≤ f := by
                              simp only [List.length_cons] at hf; omega
                            exact ihO dict _ r3 hl h
                      · rw [if_neg hc8] at h
                        by_cases hc9 : b &&& CondensedInfo.COMMON_OBJECT = CondensedInfo.COMMON_OBJECT
                        · rw [if_pos hc9] at h
                          have hl : 3 * rest.length + 3 ≤ f := by
                            simp only [List.length_cons] at hf; omega
                          exact ihO dict _ rest hl h
                        · rw [if_neg hc9] at h
                          by_cases hc10 : b = CondensedInfo.LARGE_UNIQUE_OBJECT
                          · rw [if_pos hc10] at h
                            split at h
                            · exact PRes.noConfusion h
                            · next ks2 r2 hr =>
                              split at h
                              · next heq =>
                                have h1 : r2.length ≤ rest.length := readKeyList_length hr
                                have hl : 3 * r2.length + 2 ≤ f := by
                                  simp only [List.length_cons] at hf; omega
                                exact ihP dict ks2 r2 hl heq
                              · exact PRes.noConfusion h
                              · exact PRes.noConfusion h
                          · rw [if_neg hc10] at h
                            by_cases hc11 : b = CondensedInfo.HASHTABLE
                            · rw [if_pos hc11] at h
                              split at h
                              · exact PRes.noConfusion h
                              · next ks2 r2 hr =>
                                split at h
                                · next heq =>
                                  have h1 : r2.length ≤ rest.length := readHashKeys_length hr
                                  have hl : 3 * r2.length + 2 ≤ f := by
                                    simp only [List.length_cons] at hf; omega
                                  exact ihP dict ks2 r2 hl heq
                                · exact PRes.noConfusion h
                                · exact PRes.noConfusion h
                            · rw [if_neg hc11] at h
                              by_cases hc12 : b &&& 0xf0 = CondensedInfo.SMALL_UNIQUE_OBJECT
                              · rw [if_pos hc12] at h
                                split at h
                                · exact PRes.noConfusion h
                                · next ks2 r2 hr =>
                                  split at h
                                  · next heq =>
                                    have h1 : r2.length ≤ rest.length := readNKeys_length hr
                                    have hl : 3 * r2.length + 2 ≤ f := by
                                      simp only [List.length_cons] at hf; omega
                                    exact ihP dict ks2 r2 hl heq
                                  · exact PRes.noConfusion h
                                  · exact PRes.noConfusion h
                              · rw [if_neg hc12] at h
                                by_cases hc13 : b = CondensedInfo.LONG_ARRAY
                                · rw [if_pos hc13] at h
                                  split at h
                                  · next heq =>
                                    have hl : 3 * rest.length + 2 ≤ f := by
                                      simp only [List.length_cons] at hf; omega
                                    exact ihL dict rest hl heq
                                  · exact PRes.noConfusion h
                                  · exact PRes.noConfusion h
                                · rw [if_neg hc13] at h
                                  by_cases hc14 : b &&& 0xf0 = CondensedInfo.SHORT_ARRAY
                                  · rw [if_pos hc14] at h
                                    split at h
                                    · next heq =>
                                      have hl : 3 * rest.length + 2 ≤ f := by
                                        simp only [List.length_cons] at hf; omega
                                      exact ihE dict _ rest hl heq
                                    · exact PRes.noConfusion h
                                    · exact PRes.noConfusion h
                                  · rw [if_neg hc14] at h
                                    by_cases hc15 : b &&& 0xf0 = CondensedInfo.VERY_SHORT_INTEGER
                                    · rw [if_pos hc15] at h
                                      cases rest <;> exact PRes.noConfusion h
                                    · rw [if_neg hc15] at h
                                      by_cases hc16 : b = CondensedInfo.DOUBLE
                                      · rw [if_pos hc16] at h
                                        split at h <;> exact PRes.noConfusion h
                                      · rw [if_neg hc16] at h
                                        by_cases hc17 : b = CondensedInfo.FLOAT
                                        · rw [if_pos hc17] at h
                                          split at h <;> exact PRes.noConfusion h
                                        · rw [if_neg hc17] at h
                                          by_cases hc18 : b = CondensedInfo.SIGNED_LONG_INTEGER
                                          · rw [if_pos hc18] at h
                                            split at h <;> exact PRes.noConfusion h
                                          · rw [if_neg hc18] at h
                                            by_cases hc19 : b = CondensedInfo.UNSIGNED_LONG_INTEGER
                                            · rw [if_pos hc19] at h
                                              split at h <;> exact PRes.noConfusion h
                                            · rw [if_neg hc19] at h
                                              by_cases hc20 : b = CondensedInfo.SIGNED_INTEGER
                                              · rw [if_pos hc20] at h
                                                split at h <;> exact PRes.noConfusion h
                                              · rw [if_neg hc20] at h
                                                by_cases hc21 : b = CondensedInfo.UNSIGNED_INTEGER
                                                · rw [if_pos hc21] at h
                                                  split at h <;> exact PRes.noConfusion h
                                                · rw [if_neg hc21] at h
                                                  by_cases hc22 : b = CondensedInfo.SIGNED_SHORT_INTEGER
                                                  · rw [if_pos hc22] at h
                                                    split at h <;> exact PRes.noConfusion h
                                                  · rw [if_neg hc22] at h
                                                    by_cases hc23 : b = CondensedInfo.UNSIGNED_SHORT_INTEGER
                                                    · rw [if_pos hc23] at h
                                                      split at h <;> exact PRes.noConfusion h
                                                    · rw [if_neg hc23] at h
                                                      by_cases hc24 : b = CondensedInfo.TRUE
                                                      · rw [if_pos hc24] at h
                                                        exact PRes.noConfusion h
                                                      · rw [if_neg hc24] at h
                                                        by_cases hc25 : b = CondensedInfo.FALSE
                                                        · rw [if_pos hc25] at h
                                                          exact PRes.noConfusion h
                                                        · rw [if_neg hc25] at h
                                                          by_cases hc26 : b = CondensedInfo.NIL
                                                          · rw [if_pos hc26] at h
                                                            exact PRes.noConfusion h
                                                          · rw [if_neg hc26] at h
                                                            exact PRes.noConfusion h
    · -- parseObjTag
      intro dict idx input hf h
      simp only [parseObjTag] at h
      split at h
      · next ks hks =>
        split at h
        · next heq =>
          exact ihP _ ks input (by omega) heq
        · exact PRes.noConfusion h
        · exact PRes.noConfusion h
      · next hks =>
        split at h
        · exact PRes.noConfusion h
        · next ks r2 hr =>
          split at h
          · next heq =>
            have h1 : r2.length ≤ input.length := readKeyList_length hr
            exact ihP _ ks r2 (by omega) heq
          · exact PRes.noConfusion h
          · exact PRes.noConfusion h
    · -- parsePairs
      intro dict ks input hf h
      match ks with
      | [] => exact PRes.noConfusion h
      | k :: ks2 =>
        simp only [parsePairs] at h
        split at h
        · next heq =>
          exact ihC dict input (by omega) heq
        · exact PRes.noConfusion h
        · next v2 r2 d2 hv =>
          split at h
          · next heq =>
            have hc := (parse_consume f).1 dict input v2 r2 d2 hv
            exact ihP d2 ks2 r2 (by omega) heq
          · exact PRes.noConfusion h
          · exact PRes.noConfusion h
    · -- parseElems
      intro dict n input hf h
      match n with
      | 0 => exact PRes.noConfusion h
      | n2 + 1 =>
        simp only [parseElems] at h
        split at h
        · next heq =>
          exact ihC dict input (by omega) heq
        · exact PRes.noConfusion h
        · next v2 r2 d2 hv =>
          split at h
          · next heq =>
            have hc := (parse_consume f).1 dict input v2 r2 d2 hv
            exact ihE d2 n2 r2 (by omega) heq
          · exact PRes.noConfusion h
          · exact PRes.noConfusion h
    · -- parseLongElems
      intro dict input hf h
      match input with
      | [] => exact PRes.noConfusion h
      | b :: rest =>
        simp only [parseLongElems] at h
        by_cases hb : b = 0
        · rw [if_pos hb] at h
          exact PRes.noConfusion h
        · rw [if_neg hb] at h
          split at h
          · next heq =>
            have hl : 3 * (b :: rest).length + 1 ≤ f := by
              simp only [List.length_cons] at hf ⊢; omega
            exact ihC dict (b :: rest) hl heq
          · exact PRes.noConfusion h
          · next v2 r2 d2 hv =>
            split at h
            · next heq =>
              have hc := (parse_consume f).1 dict (b :: rest) v2 r2 d2 hv
              have hl : 3 * r2.length + 2 ≤ f := by
                simp only [List.length_cons] at hf hc; omega
              exact ihL d2 r2 hl heq
            · exact PRes.noConfusion h
            · exact PRes.noConfusion h


/-- Totality and bounds-checking of the decoder apart from the fallthrough
message (supporting lemma): on every input byte vector the modelled
`parseCondensed` returns a value or an error (never the fuel-exhaustion
marker `PRes.out`, which would correspond to the source recursion reading
past its `next()`/`peek()` bounds checks or failing to terminate), and an
unrecognised tag byte — here a bare TERMINATOR 0x00 at top level — reaches
the fallthrough throwing branch. -/
theorem decoder_total_no_out :
    (∀ s : List Nat, isOut (parseCondensedTop s) = false) ∧
    parseCondensedTop [0] = .err (.badByte 0) := by
  constructor
  · intro s
    have hno := (parse_total (3 * s.length + 4)).1 [] s (by omega)
    unfold parseCondensedTop
    cases hp : parseC (3 * s.length + 4) [] s with
    | out => exact absurd hp hno
    | err e => rfl
    | ok x => rfl
  · rfl

/-- A byte index lies strictly inside a buffer (the property the claim
asserts of every read the decoder performs). -/
def inBounds (buf : List Nat) (i : Int) : Prop := 0 ≤ i ∧ i < buf.length

/-- The reads performed by the fallthrough throw of `parseCondensed`
(part_001 line 874): the message is built from `*source` and `*(source - 1)`.
By the recursion invariant (part_001 line 687, "source always points to 1
byte before the start of the object", advanced by `next()` before the tag
tests), while the tag at buffer index `t` is being examined `source` equals
the buffer base plus `t`, so the two reads touch indices `t` and `t - 1`;
neither is bounds-checked. -/
def fallthroughReads (t : Nat) : List Int := [(t : Int), (t : Int) - 1]

/-- C10 : the decoder is total (no read past the `next()`/`peek()` guards on
the recursion's main paths, no unbounded recursion), and a bare 0x00 tag does
reach a throwing branch; but the in-bounds universal of the claim is FALSE of
the source: the fallthrough throw itself reads `*(source - 1)` without any
check, and when the unrecognised byte is the input's FIRST byte — precisely
the claim's own `[0x00]` example — that read touches index `-1`, one byte
before the buffer. -/
theorem c10_fallthrough_read_out_of_bounds :
    (∀ r : List Nat, ∀ dict f, parseC (f + 1) dict (0 :: r) = .err (.badByte 0)) ∧
    parseCondensedTop [0] = .err (.badByte 0) ∧
    fallthroughReads 0 = [0, -1] ∧
    inBounds [0] 0 ∧
    ¬ inBounds [0] (-1) := by
  refine ⟨fun r dict f => rfl, rfl, rfl, ⟨le_refl 0, by simp⟩, ?_⟩
  intro h
  have := h.1
  omega


/-! ## Sorting lemmas for the round-trip theorems -/

theorem csortL_nil (f : Nat) : csortL f [] = [] := by
  cases f <;> rfl

theorem csortP_nil (f : Nat) : csortP f [] = [] := by
  cases f <;> rfl

theorem jsize_csort (f : Nat) :
    (∀ v, jsizeV (csortF f v) = jsizeV v) ∧
    (∀ l, jsizeL (csortL f l) = jsizeL l) ∧
    (∀ l, jsizeP (csortP f l) = jsizeP l) := by
  induction f with
  | zero => exact ⟨fun _ => rfl, fun _ => rfl, fun _ => rfl⟩
  | succ f ih =>
    obtain ⟨ihV, ihL, ihP⟩ := ih
    refine ⟨?_, ?_, ?_⟩
    · intro v
      match v with
      | .nil | .bool _ | .int _ | .double _ _ | .str _ => rfl
      | .arr elems => simp only [csortF, jsizeV, ihL]
      | .obj entries =>
        simp only [csortF, jsizeV, ihP, jsizeP_sortPairs]
    · intro l
      match l with
      | [] => rfl
      | x :: rest => simp only [csortL, jsizeL, ihV, ihL]
    · intro l
      match l with
      | [] => rfl
      | (k, v) :: rest => simp only [csortP, jsizeP, ihV, ihP]

theorem csortF_irrel : ∀ n : Nat,
    (∀ v (f₁ f₂ : Nat), jsizeV v ≤ n → jsizeV v ≤ f₁ → jsizeV v ≤ f₂ →
      csortF f₁ v = csortF f₂ v) ∧
    (∀ l (f₁ f₂ : Nat), jsizeL l ≤ n → jsizeL l ≤ f₁ → jsizeL l ≤ f₂ →
      csortL f₁ l = csortL f₂ l) ∧
    (∀ l (f₁ f₂ : Nat), jsizeP l ≤ n → jsizeP l ≤ f₁ → jsizeP l ≤ f₂ →
      csortP f₁ l = csortP f₂ l) := by
  intro n
  induction n with
  | zero =>
    refine ⟨?_, ?_, ?_⟩
    · intro v _ _ h _ _; have := jsizeV_pos v; omega
    · intro l f₁ f₂ h _ _
      obtain rfl := jsizeL_eq_zero (show jsizeL l = 0 by omega)
      rw [csortL_nil, csortL_nil]
    · intro l f₁ f₂ h _ _
      obtain rfl := jsizeP_eq_zero (show jsizeP l = 0 by omega)
      rw [csortP_nil, csortP_nil]
  | succ n ih =>
    obtain ⟨ihV, ihL, ihP⟩ := ih
    have stepL : ∀ l (f₁ f₂ : Nat), jsizeL l ≤ n + 1 → jsizeL l ≤ f₁ →
        jsizeL l ≤ f₂ → csortL f₁ l = csortL f₂ l := by
      intro l f₁ f₂ hn h1 h2
      match l with
      | [] => rw [csortL_nil, csortL_nil]
      | x :: rest =>
        simp only [jsizeL] at hn h1 h2
        have hx := jsizeV_pos x
        obtain ⟨a, rfl⟩ : ∃ a, f₁ = a + 1 := ⟨f₁ - 1, by omega⟩
        obtain ⟨b, rfl⟩ : ∃ b, f₂ = b + 1 := ⟨f₂ - 1, by omega⟩
        simp only [csortL]
        rw [ihV x a b (by omega) (by omega) (by omega),
          ihL rest a b (by omega) (by omega) (by omega)]
    have stepP : ∀ l (f₁ f₂ : Nat), jsizeP l ≤ n + 1 → jsizeP l ≤ f₁ →
        jsizeP l ≤ f₂ → csortP f₁ l = csortP f₂ l := by
      intro l f₁ f₂ hn h1 h2
      match l with
      | [] => rw [csortP_nil, csortP_nil]
      | (k, v) :: rest =>
        simp only [jsizeP] at hn h1 h2
        have hx := jsizeV_pos v
        obtain ⟨a, rfl⟩ : ∃ a, f₁ = a + 1 := ⟨f₁ - 1, by omega⟩
        obtain ⟨b, rfl⟩ : ∃ b, f₂ = b + 1 := ⟨f₂ - 1, by omega⟩
        simp only [csortP]
        rw [ihV v a b (by omega) (by omega) (by omega),
          ihP rest a b (by omega) (by omega) (by omega)]
    refine ⟨?_, stepL, stepP⟩
    intro v f₁ f₂ hn h1 h2
    have hv := jsizeV_pos v
    obtain ⟨a, rfl⟩ : ∃ a, f₁ = a + 1 := ⟨f₁ - 1, by omega⟩
    obtain ⟨b, rfl⟩ : ∃ b, f₂ = b + 1 := ⟨f₂ - 1, by omega⟩
    match v with
    | .nil | .bool _ | .int _ | .double _ _ | .str _ => rfl
    | .arr elems =>
      simp only [jsizeV] at hn h1 h2
      simp only [csortF]
      rw [stepL elems a b (by omega) (by omega) (by omega)]
    | .obj entries =>
      simp only [jsizeV] at hn h1 h2
      have hso : jsizeP (sortPairs entries) = jsizeP entries := jsizeP_sortPairs entries
      simp only [csortF]
      rw [stepP (sortPairs entries) a b (by omega) (by omega) (by omega)]

theorem csortF_eq_csort (v : JSON) (f : Nat) (hf : jsizeV v ≤ f) :
    csortF f v = csort v :=
  (csortF_irrel (jsizeV v)).1 v f (jsizeV v) le_rfl hf le_rfl



/-- Strictly sorted key lists (consecutive keys in `keyLt` order). -/
def sortedKeys : List (List Nat) → Bool
  | [] => true
  | [_] => true
  | k :: k2 :: r => keyLt k k2 && sortedKeys (k2 :: r)

theorem keyLt_total : ∀ a b : List Nat, a ≠ b → keyLt a b = true ∨ keyLt b a = true := by
  intro a
  induction a with
  | nil =>
    intro b hb
    cases b with
    | nil => exact absurd rfl hb
    | cons x xs => left; rfl
  | cons x xs ih =>
    intro b hb
    cases b with
    | nil => right; rfl
    | cons y ys =>
      by_cases hxy : x = y
      · subst hxy
        have hne : xs ≠ ys := by intro hc; exact hb (by rw [hc])
        rcases ih ys hne with h | h
        · left; simp [keyLt, h]
        · right; simp [keyLt, h]
      · rcases Nat.lt_or_ge x y with h | h
        · left; simp [keyLt, h]
        · have h2 : y < x := Nat.lt_of_le_of_ne h (fun hc => hxy hc.symm)
          right; simp [keyLt, h2]

theorem map_fst_insertBy (p : List Nat × α) (l : List (List Nat × α)) :
    (insertBy (fun a b => keyLt a.1 b.1) p l).map Prod.fst =
      insertBy keyLt p.1 (l.map Prod.fst) := by
  induction l with
  | nil => rfl
  | cons q rest ih =>
    simp only [insertBy, List.map_cons]
    by_cases h : keyLt p.1 q.1
    · rw [if_pos h, if_pos h]; rfl
    · rw [if_neg h, if_neg h]
      simp only [List.map_cons, ih]

theorem map_fst_sortPairs (l : List (List Nat × α)) :
    (sortPairs l).map Prod.fst = sortBy keyLt (l.map Prod.fst) := by
  induction l with
  | nil => rfl
  | cons p rest ih =>
    simp only [sortPairs, sortBy, List.map_cons] at ih ⊢
    rw [map_fst_insertBy, ih]

theorem perm_insertBy (cmp : α → α → Bool) (p : α) (l : List α) :
    (insertBy cmp p l).Perm (p :: l) := by
  induction l with
  | nil => exact List.Perm.refl _
  | cons q rest ih =>
    simp only [insertBy]
    by_cases h : cmp p q
    · rw [if_pos h]
    · rw [if_neg h]
      exact ((ih.cons q).trans (List.Perm.swap p q rest))

theorem perm_sortBy (cmp : α → α → Bool) (l : List α) : (sortBy cmp l).Perm l := by
  induction l with
  | nil => exact List.Perm.refl _
  | cons p rest ih =>
    exact (perm_insertBy cmp p (sortBy cmp rest)).trans (ih.cons p)

theorem distinctKeys_iff_nodup (ks : List (List Nat)) :
    distinctKeys ks = true ↔ ks.Nodup := by
  induction ks with
  | nil => simp [distinctKeys]
  | cons k rest ih =>
    simp only [distinctKeys, List.nodup_cons, Bool.and_eq_true, ← ih]
    constructor
    · rintro ⟨h1, h2⟩
      refine ⟨fun hm => ?_, h2⟩
      rw [show rest.contains k = true from List.elem_iff.mpr hm] at h1
      exact Bool.noConfusion h1
    · rintro ⟨h1, h2⟩
      refine ⟨?_, h2⟩
      cases hc : rest.contains k with
      | false => rfl
      | true => exact absurd (List.elem_iff.mp hc) h1

theorem sortedKeys_insertBy (k : List Nat) :
    ∀ l : List (List Nat), sortedKeys l = true → (∀ x ∈ l, k ≠ x) →
      sortedKeys (insertBy keyLt k l) = true := by
  intro l
  induction l with
  | nil => intro _ _; rfl
  | cons q rest ih =>
    intro hs hd
    have hkq : k ≠ q := hd q (List.mem_cons_self q rest)
    simp only [insertBy]
    by_cases h : keyLt k q
    · rw [if_pos h]
      simp only [sortedKeys, Bool.and_eq_true]
      exact ⟨h, hs⟩
    · rw [if_neg h]
      have hqk : keyLt q k = true := by
        rcases keyLt_total k q hkq with hh | hh
        · exact absurd hh h
        · exact hh
      have hrest : sortedKeys rest = true := by
        cases rest with
        | nil => rfl
        | cons r rs => simp only [sortedKeys, Bool.and_eq_true] at hs; exact hs.2
      have hins := ih hrest (fun x hx => hd x (List.mem_cons_of_mem q hx))
      cases rest with
      | nil =>
        simp only [insertBy, sortedKeys, Bool.and_eq_true]
        exact ⟨hqk, trivial⟩
      | cons r rs =>
        simp only [sortedKeys, Bool.and_eq_true] at hs
        simp only [insertBy] at hins ⊢
        by_cases h2 : keyLt k r
        · rw [if_pos h2] at hins ⊢
          simp only [sortedKeys, Bool.and_eq_true] at hins ⊢
          exact ⟨hqk, hins⟩
        · rw [if_neg h2] at hins ⊢
          simp only [sortedKeys, Bool.and_eq_true] at hins ⊢
          exact ⟨hs.1, hins⟩

theorem sortedKeys_sortBy (ks : List (List Nat)) (hd : ks.Nodup) :
    sortedKeys (sortBy keyLt ks) = true := by
  induction ks with
  | nil => rfl
  | cons k rest ih =>
    simp only [List.nodup_cons] at hd
    simp only [sortBy]
    refine sortedKeys_insertBy k (sortBy keyLt rest) (ih hd.2) ?_
    intro x hx hkx
    exact hd.1 (by
      have := (perm_sortBy keyLt rest).mem_iff.mp hx
      rwa [← hkx] at this)

theorem sortPairs_of_sorted : ∀ l : List (List Nat × α),
    sortedKeys (l.map Prod.fst) = true → sortPairs l = l := by
  intro l
  induction l with
  | nil => intro _; rfl
  | cons p rest ih =>
    intro hs
    have hrest : sortedKeys (rest.map Prod.fst) = true := by
      cases rest with
      | nil => rfl
      | cons q rs =>
        simp only [List.map_cons, sortedKeys, Bool.and_eq_true] at hs
        exact hs.2
    simp only [sortPairs, sortBy] at ih ⊢
    rw [ih hrest]
    cases rest with
    | nil => rfl
    | cons q rs =>
      simp only [List.map_cons, sortedKeys, Bool.and_eq_true] at hs
      simp only [insertBy, if_pos hs.1]

theorem map_fst_csortP : ∀ (f : Nat) (l : List (List Nat × JSON)),
    (csortP f l).map Prod.fst = l.map Prod.fst := by
  intro f
  induction f with
  | zero => intro l; rfl
  | succ f ih =>
    intro l
    match l with
    | [] => rfl
    | (k, v) :: rest => simp only [csortP, List.map_cons, ih]

theorem wfBP_mem : ∀ (l : List (List Nat × JSON)),
    wfBP l = true ↔ ∀ p ∈ l, wfB p.2 = true := by
  intro l
  induction l with
  | nil => simp [wfBP]
  | cons p rest ih =>
    cases p with
    | mk k v =>
      simp only [wfBP, Bool.and_eq_true, ih, List.mem_cons]
      constructor
      · rintro ⟨h1, h2⟩ q hq
        rcases hq with rfl | hq
        · exact h1
        · exact h2 q hq
      · intro h
        exact ⟨h (k, v) (Or.inl rfl), fun q hq => h q (Or.inr hq)⟩


theorem csort_idem_all : ∀ n : Nat,
    (∀ v f g, jsizeV v ≤ n → jsizeV v ≤ f → jsizeV v ≤ g → wfB v = true →
      csortF g (csortF f v) = csortF f v) ∧
    (∀ l f g, jsizeL l ≤ n → jsizeL l ≤ f → jsizeL l ≤ g → wfBL l = true →
      csortL g (csortL f l) = csortL f l) ∧
    (∀ l f g, jsizeP l ≤ n → jsizeP l ≤ f → jsizeP l ≤ g → wfBP l = true →
      csortP g (csortP f l) = csortP f l) := by
  intro n
  induction n with
  | zero =>
    refine ⟨?_, ?_, ?_⟩
    · intro v _ _ h _ _ _; have := jsizeV_pos v; omega
    · intro l f g h _ _ _
      obtain rfl := jsizeL_eq_zero (show jsizeL l = 0 by omega)
      rw [csortL_nil, csortL_nil]
    · intro l f g h _ _ _
      obtain rfl := jsizeP_eq_zero (show jsizeP l = 0 by omega)
      rw [csortP_nil, csortP_nil]
  | succ n ih =>
    obtain ⟨ihV, ihL, ihP⟩ := ih
    have stepL : ∀ l f g, jsizeL l ≤ n + 1 → jsizeL l ≤ f → jsizeL l ≤ g →
        wfBL l = true → csortL g (csortL f l) = csortL f l := by
      intro l f g hn h1 h2 hw
      match l with
      | [] => rw [csortL_nil, csortL_nil]
      | x :: rest =>
        simp only [jsizeL] at hn h1 h2
        simp only [wfBL, Bool.and_eq_true] at hw
        have hx := jsizeV_pos x
        obtain ⟨a, rfl⟩ : ∃ a, f = a + 1 := ⟨f - 1, by omega⟩
        obtain ⟨b, rfl⟩ : ∃ b, g = b + 1 := ⟨g - 1, by omega⟩
        simp only [csortL]
        rw [ihV x a b (by omega) (by omega) (by omega) hw.1,
          ihL rest a b (by omega) (by omega) (by omega) hw.2]
    have stepP : ∀ l f g, jsizeP l ≤ n + 1 → jsizeP l ≤ f → jsizeP l ≤ g →
        wfBP l = true → csortP g (csortP f l) = csortP f l := by
      intro l f g hn h1 h2 hw
      match l with
      | [] => rw [csortP_nil, csortP_nil]
      | (k, v) :: rest =>
        simp only [jsizeP] at hn h1 h2
        simp only [wfBP, Bool.and_eq_true] at hw
        have hx := jsizeV_pos v
        obtain ⟨a, rfl⟩ : ∃ a, f = a + 1 := ⟨f - 1, by omega⟩
        obtain ⟨b, rfl⟩ : ∃ b, g = b + 1 := ⟨g - 1, by omega⟩
        simp only [csortP]
        rw [ihV v a b (by omega) (by omega) (by omega) hw.1,
          ihP rest a b (by omega) (by omega) (by omega) hw.2]
    refine ⟨?_, stepL, stepP⟩
    intro v f g hn h1 h2 hw
    have hv := jsizeV_pos v
    obtain ⟨a, rfl⟩ : ∃ a, f = a + 1 := ⟨f - 1, by omega⟩
    obtain ⟨b, rfl⟩ : ∃ b, g = b + 1 := ⟨g - 1, by omega⟩
    match v with
    | .nil | .bool _ | .int _ | .double _ _ | .str _ => rfl
    | .arr elems =>
      simp only [jsizeV] at hn h1 h2
      simp only [wfB, Bool.and_eq_true] at hw
      simp only [csortF]
      rw [stepL elems a b (by omega) (by omega) (by omega) hw.2]
    | .obj entries =>
      simp only [jsizeV] at hn h1 h2
      simp only [wfB, Bool.and_eq_true] at hw
      obtain ⟨⟨hdk, hkv⟩, hwp⟩ := hw
      have hso : jsizeP (sortPairs entries) = jsizeP entries := jsizeP_sortPairs entries
      have hsorted : sortedKeys ((sortPairs entries).map Prod.fst) = true := by
        rw [map_fst_sortPairs]
        exact sortedKeys_sortBy _ ((distinctKeys_iff_nodup _).mp hdk)
      have hwp2 : wfBP (sortPairs entries) = true := by
        rw [wfBP_mem]
        intro p hp
        refine (wfBP_mem entries).mp hwp p ?_
        rw [sortPairs] at hp
        exact (perm_sortBy _ entries).mem_iff.mp hp
      simp only [csortF]
      have hkeys : sortedKeys ((csortP a (sortPairs entries)).map Prod.fst) = true := by
        rw [map_fst_csortP]; exact hsorted
      rw [sortPairs_of_sorted _ hkeys]
      rw [stepP (sortPairs entries) a b (by omega) (by omega) (by omega) hwp2]

theorem csort_idem (v : JSON) (hw : wfB v = true) : csort (csort v) = csort v := by
  unfold csort
  rw [(jsize_csort (jsizeV v)).1 v]
  exact (csort_idem_all (jsizeV v)).1 v (jsizeV v) (jsizeV v) le_rfl le_rfl le_rfl hw

theorem beqJ_refl_all : ∀ n : Nat,
    (∀ v, jsizeV v ≤ n → beqJ v v = true) ∧
    (∀ l, jsizeL l ≤ n → beqL l l = true) ∧
    (∀ l, jsizeP l ≤ n → beqP l l = true) := by
  intro n
  induction n with
  | zero =>
    refine ⟨?_, ?_, ?_⟩
    · intro v h; have := jsizeV_pos v; omega
    · intro l h; obtain rfl := jsizeL_eq_zero (show jsizeL l = 0 by omega); rfl
    · intro l h; obtain rfl := jsizeP_eq_zero (show jsizeP l = 0 by omega); rfl
  | succ n ih =>
    obtain ⟨ihV, ihL, ihP⟩ := ih
    refine ⟨?_, ?_, ?_⟩
    · intro v hn
      match v with
      | .nil => rfl
      | .bool b => simp [beqJ]
      | .int i => simp [beqJ]
      | .double bits h => simp [beqJ]
      | .str s => simp [beqJ]
      | .arr elems =>
        simp only [jsizeV] at hn
        simp only [beqJ]
        exact ihL elems (by omega)
      | .obj entries =>
        simp only [jsizeV] at hn
        simp only [beqJ]
        exact ihP entries (by omega)
    · intro l hn
      match l with
      | [] => rfl
      | x :: rest =>
        simp only [jsizeL] at hn
        have hx := jsizeV_pos x
        simp only [beqL, Bool.and_eq_true]
        exact ⟨ihV x (by omega), ihL rest (by omega)⟩
    · intro l hn
      match l with
      | [] => rfl
      | (k, v) :: rest =>
        simp only [jsizeP] at hn
        have hx := jsizeV_pos v
        simp only [beqP, Bool.and_eq_true]
        exact ⟨⟨by simp, ihV v (by omega)⟩, ihP rest (by omega)⟩

theorem beqJ_refl (v : JSON) : beqJ v v = true :=
  (beqJ_refl_all (jsizeV v)).1 v le_rfl

theorem jeqv_csort (v : JSON) (hw : wfB v = true) : jeqv v (csort v) = true := by
  unfold jeqv
  rw [csort_idem v hw]
  exact beqJ_refl (csort v)


/-! ## Byte-level inversion lemmas for the binary round trip -/

theorem lor_shift {k a : Nat} (c : Nat) (h : a < 2 ^ k) :
    a ||| (c <<< k) = 2 ^ k * c + a := by
  rw [Nat.shiftLeft_eq, Nat.mul_comm c (2 ^ k), Nat.lor_comm,
    ← Nat.mul_add_lt_is_or h]

theorem or_common {i : Nat} (h : i < 8) :
    CondensedInfo.COMMON_OBJECT ||| i = 0x38 + i := by
  have := lor_shift (k := 3) 7 h
  rw [Nat.lor_comm] at this
  simpa using this

theorem or_small_unique {n : Nat} (h : n < 16) :
    CondensedInfo.SMALL_UNIQUE_OBJECT ||| n = 0x30 + n := by
  have := lor_shift (k := 4) 3 h
  rw [Nat.lor_comm] at this
  simpa using this

theorem or_short_array {n : Nat} (h : n < 16) :
    CondensedInfo.SHORT_ARRAY ||| n = 0x20 + n := by
  have := lor_shift (k := 4) 2 h
  rw [Nat.lor_comm] at this
  simpa using this

theorem or_vshort {n : Nat} (h : n < 16) :
    CondensedInfo.VERY_SHORT_INTEGER ||| n = 0x10 + n := by
  have := lor_shift (k := 4) 1 h
  rw [Nat.lor_comm] at this
  simpa using this

theorem or_minimal {u : Nat} (h : u < 64) :
    u ||| CondensedInfo.MINIMAL_INTEGER = 0x40 + u := by
  have := lor_shift (k := 6) 1 h
  simpa [Nat.add_comm] using this

theorem or_high_bit {b : Nat} (h : b < 128) : b ||| 0x80 = 128 + b := by
  have := lor_shift (k := 7) 1 h
  simpa [Nat.add_comm] using this

theorem leVal_leBytes (n : Nat) : ∀ x : Nat, leVal (leBytes n x) = x % 2 ^ (8 * n) := by
  induction n with
  | zero => intro x; simp [leBytes, leVal, Nat.mod_one]
  | succ n ih =>
    intro x
    simp only [leBytes, leVal, ih]
    rw [Nat.and_pow_two_sub_one_eq_mod x 8, Nat.shiftRight_eq_div_pow]
    have hlt : x % 2 ^ 8 < 2 ^ 8 := Nat.mod_lt _ (by norm_num)
    rw [lor_shift _ hlt]
    have hp : (2 : Nat) ^ (8 * (n + 1)) = 2 ^ 8 * 2 ^ (8 * n) := by
      rw [← pow_add]; ring_nf
    rw [hp, Nat.mod_mul]
    ring

theorem readBytes_append (s : List Nat) : ∀ rest : List Nat,
    readBytes s.length (s ++ rest) = some (s, rest) := by
  induction s with
  | nil => intro rest; rfl
  | cons b s2 ih =>
    intro rest
    simp only [List.length_cons, List.cons_append, readBytes, List.append_eq, ih]
    rfl

theorem readLongStr_append (s : List Nat) (hs : s.all (fun b => decide (b ≠ 0)) = true) :
    ∀ rest : List Nat, readLongStr (s ++ [0] ++ rest) = some (s, rest) := by
  induction s with
  | nil => intro rest; rfl
  | cons b s2 ih =>
    intro rest
    simp only [List.all_cons, Bool.and_eq_true, decide_eq_true_eq] at hs
    simp only [List.cons_append, readLongStr, if_neg hs.1, List.append_eq, ih hs.2]
    rfl

theorem toSigned16 (i : Int) (h1 : -32768 < i) (h2 : i < 32767) :
    toSigned 16 ((i.emod (2 ^ 16)).toNat % 2 ^ 16) = i := by
  simp only [toSigned, show ((2:Int) ^ 16) = 65536 from by norm_num,
    show ((2:Nat) ^ 16) = 65536 from by norm_num,
    show ((2:Nat) ^ (16 - 1)) = 32768 from by norm_num]
  rw [show i.emod 65536 = i % 65536 from rfl]
  split <;> omega

theorem toSigned32 (i : Int) (h1 : -2147483648 < i) (h2 : i < 2147483647) :
    toSigned 32 ((i.emod (2 ^ 32)).toNat % 2 ^ 32) = i := by
  simp only [toSigned, show ((2:Int) ^ 32) = 4294967296 from by norm_num,
    show ((2:Nat) ^ 32) = 4294967296 from by norm_num,
    show ((2:Nat) ^ (32 - 1)) = 2147483648 from by norm_num]
  rw [show i.emod 4294967296 = i % 4294967296 from rfl]
  split <;> omega

theorem toSigned64 (i : Int) (h1 : -9223372036854775808 < i)
    (h2 : i < 9223372036854775807) :
    toSigned 64 ((i.emod (2 ^ 64)).toNat % 2 ^ 64) = i := by
  simp only [toSigned, show ((2:Int) ^ 64) = 18446744073709551616 from by norm_num,
    show ((2:Nat) ^ 64) = 18446744073709551616 from by norm_num,
    show ((2:Nat) ^ (64 - 1)) = 9223372036854775808 from by norm_num]
  rw [show i.emod 18446744073709551616 = i % 18446744073709551616 from rfl]
  split <;> omega

theorem descOfKey_head_pos (k : List Nat) (hk : keyValid k = true) :
    ∃ hd tl, descOfKey k = hd :: tl ∧ hd ≠ 0 := by
  match k with
  | [] => exact ⟨0x80, [], rfl, by omega⟩
  | [b] =>
    simp only [keyValid, List.all_cons, List.all_nil, Bool.and_eq_true,
      decide_eq_true_eq] at hk
    refine ⟨b ||| 0x80, [], rfl, ?_⟩
    rw [or_high_bit (by omega)]
    omega
  | b :: c :: rest =>
    simp only [keyValid, List.all_cons, Bool.and_eq_true, decide_eq_true_eq] at hk
    exact ⟨b, markLast (c :: rest), rfl, by omega⟩

theorem readCodeStrAux_markLast : ∀ (k : List Nat), keyValid k = true → k ≠ [] →
    ∀ t : List Nat, readCodeStrAux (markLast k ++ t) = some (k, t) := by
  intro k
  induction k with
  | nil => intro _ hne; exact absurd rfl hne
  | cons b k2 ih =>
    intro hk _ t
    simp only [keyValid, List.all_cons, Bool.and_eq_true, decide_eq_true_eq] at hk
    match k2, ih with
    | [], _ =>
      have hml : markLast [b] = [b ||| 0x80] := rfl
      rw [hml]
      simp only [List.cons_append, List.nil_append, readCodeStrAux]
      rw [or_high_bit (by omega), if_neg (by omega)]
      have hmask : (128 + b) &&& 0x7f = b := by
        have h2 := Nat.and_pow_two_sub_one_eq_mod (128 + b) 7
        norm_num at h2
        rw [h2]
        omega
      rw [hmask]
      rfl
    | c :: rest, ih =>
      have hml : markLast (b :: c :: rest) = b :: markLast (c :: rest) := rfl
      rw [hml, List.cons_append]
      have hstep : readCodeStrAux (b :: (markLast (c :: rest) ++ t)) =
          if b < 0x80 then
            (readCodeStrAux (markLast (c :: rest) ++ t)).map fun (s, r) => (b :: s, r)
          else some ([b &&& 0x7f], markLast (c :: rest) ++ t) := rfl
      rw [hstep, if_pos (show b < 0x80 by omega), ih hk.2 (by simp) t]
      rfl

theorem readCodeStr_desc (k : List Nat) (hk : keyValid k = true) (t : List Nat) :
    readCodeStr (descOfKey k ++ t) = some (k, t) := by
  match k with
  | [] => rfl
  | [b] =>
    have hk2 := hk
    simp only [keyValid, List.all_cons, List.all_nil, Bool.and_eq_true,
      decide_eq_true_eq] at hk2
    have hml : descOfKey [b] = [b ||| 0x80] := rfl
    rw [hml]
    simp only [List.cons_append, List.nil_append, readCodeStr]
    rw [or_high_bit (by omega)]
    rw [if_neg (by omega)]
    have h2 := readCodeStrAux_markLast [b] hk (by simp) t
    have hml2 : markLast [b] = [b ||| 0x80] := rfl
    rw [hml2, or_high_bit (by omega)] at h2
    simpa using h2
  | b :: c :: rest =>
    have hk2 := hk
    simp only [keyValid, List.all_cons, Bool.and_eq_true, decide_eq_true_eq] at hk2
    have hml : descOfKey (b :: c :: rest) = b :: markLast (c :: rest) := rfl
    rw [hml]
    simp only [List.cons_append, readCodeStr]
    rw [if_neg (by omega)]
    have h2 := readCodeStrAux_markLast (b :: c :: rest) hk (by simp) t
    have hml2 : markLast (b :: c :: rest) = b :: markLast (c :: rest) := rfl
    rw [hml2] at h2
    simpa using h2

theorem descOf_length_ge (ks : List (List Nat)) : ks.length ≤ (descOf ks).length := by
  induction ks with
  | nil => simp [descOf]
  | cons k rest ih =>
    simp only [descOf, List.flatMap_cons, List.length_append, List.length_cons]
    have h1 : 1 ≤ (descOfKey k).length := by
      cases hd : descOfKey k with
      | nil => exact absurd hd (descOfKey_ne_nil k)
      | cons a b => simp
    simp only [descOf] at ih
    omega

theorem readKeyListF_desc (ks : List (List Nat))
    (hks : ks.all keyValid = true) :
    ∀ (fuel : Nat) (rest : List Nat), ks.length + 1 ≤ fuel →
      readKeyListF fuel (descOf ks ++ [0] ++ rest) = some (ks, rest) := by
  induction ks with
  | nil =>
    intro fuel rest hf
    obtain ⟨f, rfl⟩ : ∃ f, fuel = f + 1 := ⟨fuel - 1, by omega⟩
    simp [descOf, readKeyListF]
  | cons k ks2 ih =>
    intro fuel rest hf
    simp only [List.all_cons, Bool.and_eq_true] at hks
    simp only [List.length_cons] at hf
    obtain ⟨f, rfl⟩ : ∃ f, fuel = f + 1 := ⟨fuel - 1, by omega⟩
    obtain ⟨hd, tl, hdesc, hhd⟩ := descOfKey_head_pos k hks.1
    simp only [descOf, List.flatMap_cons, List.append_assoc, hdesc, List.cons_append,
      List.nil_append, readKeyListF]
    rw [if_neg hhd]
    have hcode : readCodeStr (descOfKey k ++ (ks2.flatMap descOfKey ++ (0 :: rest)))
        = some (k, ks2.flatMap descOfKey ++ (0 :: rest)) :=
      readCodeStr_desc k hks.1 _
    rw [hdesc] at hcode
    simp only [List.cons_append, List.append_assoc, List.nil_append] at hcode
    rw [hcode]
    dsimp only
    have hih := ih hks.2 f rest (by omega)
    simp only [descOf, List.append_assoc, List.cons_append, List.nil_append] at hih
    rw [hih]
    rfl

theorem readKeyList_desc (ks : List (List Nat)) (hks : ks.all keyValid = true)
    (rest : List Nat) :
    readKeyList (descOf ks ++ [0] ++ rest) = some (ks, rest) := by
  unfold readKeyList
  refine readKeyListF_desc ks hks _ rest ?_
  have h1 := descOf_length_ge ks
  simp only [List.length_append, List.length_cons]
  omega

theorem readNKeys_desc (ks : List (List Nat)) (hks : ks.all keyValid = true) :
    ∀ rest : List Nat, readNKeys ks.length (descOf ks ++ rest) = some (ks, rest) := by
  induction ks with
  | nil => intro rest; simp [descOf, readNKeys]
  | cons k ks2 ih =>
    intro rest
    simp only [List.all_cons, Bool.and_eq_true] at hks
    simp only [List.length_cons, readNKeys, descOf, List.flatMap_cons, List.append_assoc,
      List.nil_append]
    have hcode := readCodeStr_desc k hks.1 (ks2.flatMap descOfKey ++ rest)
    rw [hcode]
    dsimp only
    have hih := ih hks.2 rest
    simp only [descOf] at hih
    rw [hih]
    rfl


/-! ## Decoder branch-selection lemmas (concrete tag bytes) -/

theorem or_low {lo : Nat} (c : Nat) (h : lo < 256) :
    (c <<< 8) ||| lo = 256 * c + lo := by
  rw [Nat.lor_comm]
  simpa using lor_shift (k := 8) c h

theorem leBytes_length (n : Nat) : ∀ x, (leBytes n x).length = n := by
  induction n with
  | zero => intro x; rfl
  | succ n ih => intro x; simp only [leBytes, List.length_cons, ih]

theorem readBytes_leBytes (n x : Nat) (rest : List Nat) :
    readBytes n (leBytes n x ++ rest) = some (leBytes n x, rest) := by
  have := readBytes_append (leBytes n x) rest
  rwa [leBytes_length n x] at this

theorem parseC_step_vshort {b : Nat} (h1 : 16 ≤ b) (h2 : b < 32)
    (f : Nat) (dict : Dict) (lo : Nat) (r : List Nat) :
    parseC (f + 1) dict (b :: lo :: r) =
      .ok (.int ((((b &&& 0x07) <<< 8) ||| lo : Nat) -
        (if b &&& 0x08 ≠ 0 then 2048 else 0) : Int), r, dict) := by
  interval_cases b <;> rfl

theorem and_shift_mask (x m k : Nat) : (x &&& (m <<< k)) >>> k = (x >>> k) &&& m := by
  apply Nat.eq_of_testBit_eq
  intro j
  simp only [Nat.testBit_shiftRight, Nat.testBit_and, Nat.testBit_shiftLeft]
  have h1 : k ≤ k + j := Nat.le_add_right k j
  have h2 : k + j - k = j := by omega
  simp [h1, h2]

theorem vshort_roundtrip (i : Int) (h1 : -2048 ≤ i) (h2 : i ≤ 2047)
    (f : Nat) (dict : Dict) (rest : List Nat) :
    parseC (f + 1) dict
      ((CondensedInfo.VERY_SHORT_INTEGER ||| (((i.emod 4096).toNat &&& 0xf00) >>> 8)) ::
        (i.emod 256).toNat :: rest) = .ok (.int i, rest, dict) := by
  have hm : i.emod 4096 = i % 4096 := rfl
  have hm2 : i.emod 256 = i % 256 := rfl
  have hn : (i.emod 4096).toNat < 4096 := by omega
  have hq : ((i.emod 4096).toNat &&& 0xf00) >>> 8 = (i.emod 4096).toNat / 256 := by
    rw [show (0xf00 : Nat) = 0xf <<< 8 from rfl, and_shift_mask,
      Nat.shiftRight_eq_div_pow, show (2 : Nat) ^ 8 = 256 from by norm_num]
    have h15 := Nat.and_pow_two_sub_one_eq_mod ((i.emod 4096).toNat / 256) 4
    norm_num at h15
    rw [h15]
    omega
  rw [hq]
  have hqlt : (i.emod 4096).toNat / 256 < 16 := by omega
  have hlo : (i.emod 256).toNat < 256 := by omega
  have hsum : (i.emod 4096).toNat = ((i.emod 4096).toNat / 256) * 256 +
      (i.emod 256).toNat := by omega
  have hrel : (i.emod 4096 : Int) = ((i.emod 4096).toNat : Int) := by omega
  set q := (i.emod 4096).toNat / 256 with hqdef
  set lo := (i.emod 256).toNat with hlodef
  clear_value q lo
  interval_cases q
  · rw [show ((CondensedInfo.VERY_SHORT_INTEGER ||| 0 : Nat)) = 16 from rfl,
      parseC_step_vshort (by omega) (by omega) f dict lo rest]
    rw [show (((16 &&& 0x07) <<< 8 : Nat)) = 0 <<< 8 from rfl, or_low 0 hlo]
    rw [show (if (16 : Nat) &&& 0x08 ≠ 0 then (2048 : Int) else 0) = 0 from rfl]
    refine congrArg (fun z => PRes.ok (JSON.int z, rest, dict)) ?_
    omega
  · rw [show ((CondensedInfo.VERY_SHORT_INTEGER ||| 1 : Nat)) = 17 from rfl,
      parseC_step_vshort (by omega) (by omega) f dict lo rest]
    rw [show (((17 &&& 0x07) <<< 8 : Nat)) = 1 <<< 8 from rfl, or_low 1 hlo]
    rw [show (if (17 : Nat) &&& 0x08 ≠ 0 then (2048 : Int) else 0) = 0 from rfl]
    refine congrArg (fun z => PRes.ok (JSON.int z, rest, dict)) ?_
    omega
  · rw [show ((CondensedInfo.VERY_SHORT_INTEGER ||| 2 : Nat)) = 18 from rfl,
      parseC_step_vshort (by omega) (by omega) f dict lo rest]
    rw [show (((18 &&& 0x07) <<< 8 : Nat)) = 2 <<< 8 from rfl, or_low 2 hlo]
    rw [show (if (18 : Nat) &&& 0x08 ≠ 0 then (2048 : Int) else 0) = 0 from rfl]
    refine congrArg (fun z => PRes.ok (JSON.int z, rest, dict)) ?_
    omega
  · rw [show ((CondensedInfo.VERY_SHORT_INTEGER ||| 3 : Nat)) = 19 from rfl,
      parseC_step_vshort (by omega) (by omega) f dict lo rest]
    rw [show (((19 &&& 0x07) <<< 8 : Nat)) = 3 <<< 8 from rfl, or_low 3 hlo]
    rw [show (if (19 : Nat) &&& 0x08 ≠ 0 then (2048 : Int) else 0) = 0 from rfl]
    refine congrArg (fun z => PRes.ok (JSON.int z, rest, dict)) ?_
    omega
  · rw [show ((CondensedInfo.VERY_SHORT_INTEGER ||| 4 : Nat)) = 20 from rfl,
      parseC_step_vshort (by omega) (by omega) f dict lo rest]
    rw [show (((20 &&& 0x07) <<< 8 : Nat)) = 4 <<< 8 from rfl, or_low 4 hlo]
    rw [show (if (20 : Nat) &&& 0x08 ≠ 0 then (2048 : Int) else 0) = 0 from rfl]
    refine congrArg (fun z => PRes.ok (JSON.int z, rest, dict)) ?_
    omega
  · rw [show ((CondensedInfo.VERY_SHORT_INTEGER ||| 5 : Nat)) = 21 from rfl,
      parseC_step_vshort (by omega) (by omega) f dict lo rest]
    rw [show (((21 &&& 0x07) <<< 8 : Nat)) = 5 <<< 8 from rfl, or_low 5 hlo]
    rw [show (if (21 : Nat) &&& 0x08 ≠ 0 then (2048 : Int) else 0) = 0 from rfl]
    refine congrArg (fun z => PRes.ok (JSON.int z, rest, dict)) ?_
    omega
  · rw [show ((CondensedInfo.VERY_SHORT_INTEGER ||| 6 : Nat)) = 22 from rfl,
      parseC_step_vshort (by omega) (by omega) f dict lo rest]
    rw [show (((22 &&& 0x07) <<< 8 : Nat)) = 6 <<< 8 from rfl, or_low 6 hlo]
    rw [show (if (22 : Nat) &&& 0x08 ≠ 0 then (2048 : Int) else 0) = 0 from rfl]
    refine congrArg (fun z => PRes.ok (JSON.int z, rest, dict)) ?_
    omega
  · rw [show ((CondensedInfo.VERY_SHORT_INTEGER ||| 7 : Nat)) = 23 from rfl,
      parseC_step_vshort (by omega) (by omega) f dict lo rest]
    rw [show (((23 &&& 0x07) <<< 8 : Nat)) = 7 <<< 8 from rfl, or_low 7 hlo]
    rw [show (if (23 : Nat) &&& 0x08 ≠ 0 then (2048 : Int) else 0) = 0 from rfl]
    refine congrArg (fun z => PRes.ok (JSON.int z, rest, dict)) ?_
    omega
  · rw [show ((CondensedInfo.VERY_SHORT_INTEGER ||| 8 : Nat)) = 24 from rfl,
      parseC_step_vshort (by omega) (by omega) f dict lo rest]
    rw [show (((24 &&& 0x07) <<< 8 : Nat)) = 0 <<< 8 from rfl, or_low 0 hlo]
    rw [show (if (24 : Nat) &&& 0x08 ≠ 0 then (2048 : Int) else 0) = 2048 from rfl]
    refine congrArg (fun z => PRes.ok (JSON.int z, rest, dict)) ?_
    omega
  · rw [show ((CondensedInfo.VERY_SHORT_INTEGER ||| 9 : Nat)) = 25 from rfl,
      parseC_step_vshort (by omega) (by omega) f dict lo rest]
    rw [show (((25 &&& 0x07) <<< 8 : Nat)) = 1 <<< 8 from rfl, or_low 1 hlo]
    rw [show (if (25 : Nat) &&& 0x08 ≠ 0 then (2048 : Int) else 0) = 2048 from rfl]
    refine congrArg (fun z => PRes.ok (JSON.int z, rest, dict)) ?_
    omega
  · rw [show ((CondensedInfo.VERY_SHORT_INTEGER ||| 10 : Nat)) = 26 from rfl,
      parseC_step_vshort (by omega) (by omega) f dict lo rest]
    rw [show (((26 &&& 0x07) <<< 8 : Nat)) = 2 <<< 8 from rfl, or_low 2 hlo]
    rw [show (if (26 : Nat) &&& 0x08 ≠ 0 then (2048 : Int) else 0) = 2048 from rfl]
    refine congrArg (fun z => PRes.ok (JSON.int z, rest, dict)) ?_
    omega
  · rw [show ((CondensedInfo.VERY_SHORT_INTEGER ||| 11 : Nat)) = 27 from rfl,
      parseC_step_vshort (by omega) (by omega) f dict lo rest]
    rw [show (((27 &&& 0x07) <<< 8 : Nat)) = 3 <<< 8 from rfl, or_low 3 hlo]
    rw [show (if (27 : Nat) &&& 0x08 ≠ 0 then (2048 : Int) else 0) = 2048 from rfl]
    refine congrArg (fun z => PRes.ok (JSON.int z, rest, dict)) ?_
    omega
  · rw [show ((CondensedInfo.VERY_SHORT_INTEGER ||| 12 : Nat)) = 28 from rfl,
      parseC_step_vshort (by omega) (by omega) f dict lo rest]
    rw [show (((28 &&& 0x07) <<< 8 : Nat)) = 4 <<< 8 from rfl, or_low 4 hlo]
    rw [show (if (28 : Nat) &&& 0x08 ≠ 0 then (2048 : Int) else 0) = 2048 from rfl]
    refine congrArg (fun z => PRes.ok (JSON.int z, rest, dict)) ?_
    omega
  · rw [show ((CondensedInfo.VERY_SHORT_INTEGER ||| 13 : Nat)) = 29 from rfl,
      parseC_step_vshort (by omega) (by omega) f dict lo rest]
    rw [show (((29 &&& 0x07) <<< 8 : Nat)) = 5 <<< 8 from rfl, or_low 5 hlo]
    rw [show (if (29 : Nat) &&& 0x08 ≠ 0 then (2048 : Int) else 0) = 2048 from rfl]
    refine congrArg (fun z => PRes.ok (JSON.int z, rest, dict)) ?_
    omega
  · rw [show ((CondensedInfo.VERY_SHORT_INTEGER ||| 14 : Nat)) = 30 from rfl,
      parseC_step_vshort (by omega) (by omega) f dict lo rest]
    rw [show (((30 &&& 0x07) <<< 8 : Nat)) = 6 <<< 8 from rfl, or_low 6 hlo]
    rw [show (if (30 : Nat) &&& 0x08 ≠ 0 then (2048 : Int) else 0) = 2048 from rfl]
    refine congrArg (fun z => PRes.ok (JSON.int z, rest, dict)) ?_
    omega
  · rw [show ((CondensedInfo.VERY_SHORT_INTEGER ||| 15 : Nat)) = 31 from rfl,
      parseC_step_vshort (by omega) (by omega) f dict lo rest]
    rw [show (((31 &&& 0x07) <<< 8 : Nat)) = 7 <<< 8 from rfl, or_low 7 hlo]
    rw [show (if (31 : Nat) &&& 0x08 ≠ 0 then (2048 : Int) else 0) = 2048 from rfl]
    refine congrArg (fun z => PRes.ok (JSON.int z, rest, dict)) ?_
    omega


theorem parseC_step_sshort (f : Nat) (dict : Dict) (input : List Nat) :
    parseC (f + 1) dict (CondensedInfo.SIGNED_SHORT_INTEGER :: input) =
      (match readBytes 2 input with
       | none => .err .unexpectedEnd
       | some (s, r2) => .ok (.int (toSigned 16 (leVal s)), r2, dict)) := rfl

theorem parseC_step_ushort (f : Nat) (dict : Dict) (input : List Nat) :
    parseC (f + 1) dict (CondensedInfo.UNSIGNED_SHORT_INTEGER :: input) =
      (match readBytes 2 input with
       | none => .err .unexpectedEnd
       | some (s, r2) => .ok (.int (leVal s : Int), r2, dict)) := rfl

theorem parseC_step_sint (f : Nat) (dict : Dict) (input : List Nat) :
    parseC (f + 1) dict (CondensedInfo.SIGNED_INTEGER :: input) =
      (match readBytes 4 input with
       | none => .err .unexpectedEnd
       | some (s, r2) => .ok (.int (toSigned 32 (leVal s)), r2, dict)) := rfl

theorem parseC_step_uint (f : Nat) (dict : Dict) (input : List Nat) :
    parseC (f + 1) dict (CondensedInfo.UNSIGNED_INTEGER :: input) =
      (match readBytes 4 input with
       | none => .err .unexpectedEnd
       | some (s, r2) => .ok (.int (leVal s : Int), r2, dict)) := rfl

theorem parseC_step_slong (f : Nat) (dict : Dict) (input : List Nat) :
    parseC (f + 1) dict (CondensedInfo.SIGNED_LONG_INTEGER :: input) =
      (match readBytes 8 input with
       | none => .err .unexpectedEnd
       | some (s, r2) => .ok (.int (toSigned 64 (leVal s)), r2, dict)) := rfl

theorem parseC_step_longstr (f : Nat) (dict : Dict) (input : List Nat) :
    parseC (f + 1) dict (CondensedInfo.LONG_STRING :: input) =
      (match readLongStr input with
       | none => .err .unexpectedEnd
       | some (s, r2) => .ok (.str s, r2, dict)) := rfl

theorem parseC_step_sstr {b : Nat} (h1 : 0x60 ≤ b) (h2 : b ≤ 0x7d)
    (f : Nat) (dict : Dict) (input : List Nat) :
    parseC (f + 1) dict (b :: input) =
      (match readBytes (b &&& 0x1f) input with
       | none => .err .unexpectedEnd
       | some (s, r2) => .ok (.str s, r2, dict)) := by
  interval_cases b <;> rfl

theorem parse_encInt (i : Int) (hlo : -9223372036854775808 < i)
    (hhi : i < 9223372036854775807) (f : Nat) (dict : Dict) (rest : List Nat) :
    parseC (f + 1) dict (encInt i ++ rest) = .ok (.int i, rest, dict) := by
  unfold encInt
  by_cases h1 : i ≤ 15 ∧ -16 ≤ i
  · rw [if_pos h1]
    obtain ⟨h1a, h1b⟩ := h1
    interval_cases i <;> rfl
  · rw [if_neg h1]
    by_cases h2 : i ≤ 2047 ∧ -2048 ≤ i
    · rw [if_pos h2]
      exact vshort_roundtrip i h2.2 h2.1 f dict rest
    · rw [if_neg h2]
      by_cases h3 : i < 32767 ∧ -32768 < i
      · rw [if_pos h3]
        rw [List.cons_append, parseC_step_sshort, readBytes_leBytes]
        dsimp only
        rw [leVal_leBytes, show (8 * 2) = 16 from rfl, toSigned16 i h3.2 h3.1]
      · rw [if_neg h3]
        by_cases h4 : i < 65535 ∧ 0 < i
        · rw [if_pos h4]
          rw [List.cons_append, parseC_step_ushort, readBytes_leBytes]
          dsimp only
          rw [leVal_leBytes, show (8 * 2) = 16 from rfl]
          refine congrArg (fun z => PRes.ok (JSON.int z, rest, dict)) ?_
          rw [show i.emod (2 ^ 16) = i % 65536 from rfl,
            show ((2:Nat) ^ 16) = 65536 from by norm_num]
          omega
        · rw [if_neg h4]
          by_cases h5 : i < 2147483647 ∧ -2147483648 < i
          · rw [if_pos h5]
            rw [List.cons_append, parseC_step_sint, readBytes_leBytes]
            dsimp only
            rw [leVal_leBytes, show (8 * 4) = 32 from rfl, toSigned32 i h5.2 h5.1]
          · rw [if_neg h5]
            by_cases h6 : i < 4294967295 ∧ 0 < i
            · rw [if_pos h6]
              rw [List.cons_append, parseC_step_uint, readBytes_leBytes]
              dsimp only
              rw [leVal_leBytes, show (8 * 4) = 32 from rfl]
              refine congrArg (fun z => PRes.ok (JSON.int z, rest, dict)) ?_
              rw [show i.emod (2 ^ 32) = i % 4294967296 from rfl,
                show ((2:Nat) ^ 32) = 4294967296 from by norm_num]
              omega
            · rw [if_neg h6]
              rw [if_pos (by omega : i < 9223372036854775807 ∧ -9223372036854775808 < i)]
              rw [List.cons_append, parseC_step_slong, readBytes_leBytes]
              dsimp only
              rw [leVal_leBytes, show (8 * 8) = 64 from rfl, toSigned64 i hlo hhi]

theorem parse_encStr (str : List Nat)
    (hwf : (decide (str.length < 30) || str.all fun b => decide (b ≠ 0)) = true)
    (f : Nat) (dict : Dict) (rest : List Nat) :
    parseC (f + 1) dict (encStr str ++ rest) = .ok (.str str, rest, dict) := by
  unfold encStr
  by_cases hlen : str.length < CondensedInfo.MAX_SHORT_STRING_SIZE
  · rw [if_pos hlen]
    simp only [CondensedInfo.MAX_SHORT_STRING_SIZE] at hlen
    rw [List.cons_append,
      parseC_step_sstr (show 0x60 ≤ CondensedInfo.SHORT_STRING + str.length by
        simp only [CondensedInfo.SHORT_STRING]; omega)
        (show CondensedInfo.SHORT_STRING + str.length ≤ 0x7d by
        simp only [CondensedInfo.SHORT_STRING]; omega)]
    have hmask : (CondensedInfo.SHORT_STRING + str.length) &&& 0x1f = str.length := by
      have h31 := Nat.and_pow_two_sub_one_eq_mod
        (CondensedInfo.SHORT_STRING + str.length) 5
      norm_num at h31
      simp only [CondensedInfo.SHORT_STRING] at h31 ⊢
      rw [h31]
      omega
    rw [hmask, readBytes_append]
  · rw [if_neg hlen]
    simp only [CondensedInfo.MAX_SHORT_STRING_SIZE] at hlen
    have hnz : (str.all fun b => decide (b ≠ 0)) = true := by
      cases hd : decide (str.length < 30) with
      | true =>
        simp only [decide_eq_true_eq] at hd
        omega
      | false =>
        rw [hd] at hwf
        simpa using hwf
    rw [List.cons_append, parseC_step_longstr]
    have hlsa := readLongStr_append str hnz rest
    simp only [CondensedInfo.TERMINATOR, List.append_assoc, List.cons_append,
      List.nil_append] at hlsa ⊢
    rw [hlsa]


/-! ## Dictionary-state lemmas and the encoder/decoder invariant -/

theorem dictGet_grow (d : Dict) (n i : Nat) : dictGet (dictGrow d n) i = dictGet d i := by
  unfold dictGrow dictGet
  by_cases h : d.length < n
  · rw [if_pos h]
    by_cases hi : i < d.length
    · rw [List.get?_append hi]
    · rw [List.get?_len_le (le_of_not_lt hi), List.get?_append_right (le_of_not_lt hi)]
      cases hg : (List.replicate (n - d.length) (none : Option (List (List Nat)))).get?
          (i - d.length) with
      | none => rfl
      | some x =>
        have hx := List.get?_mem hg
        rw [List.eq_of_mem_replicate hx]
        rfl
  · rw [if_neg h]

theorem dictGrow_length_ge (d : Dict) (n : Nat) : n ≤ (dictGrow d n).length := by
  unfold dictGrow
  by_cases h : d.length < n
  · rw [if_pos h]
    simp only [List.length_append, List.length_replicate]
    omega
  · rw [if_neg h]
    omega

theorem dictGet_set_self (d : Dict) (i : Nat) (ks : List (List Nat))
    (h : i < d.length) : dictGet (dictSet d i ks) i = some ks := by
  unfold dictSet dictGet
  rw [List.get?_set_eq_of_lt _ h]
  rfl

theorem dictGet_set_ne (d : Dict) (i j : Nat) (ks : List (List Nat))
    (h : i ≠ j) : dictGet (dictSet d i ks) j = dictGet d j := by
  unfold dictSet dictGet
  rw [List.get?_set_ne _ _ h]

/-- Encoder/decoder correspondence: the encoder's set of already-defined
descriptors matches the decoder's dictionary table. -/
def Inv (m : List (List Nat × Nat)) (used : List (List Nat)) (dict : Dict) : Prop :=
  (∀ d, d ∈ used → ∃ i ks, mlookup m d = some i ∧ dictGet dict i = some ks ∧
    descOf ks = d ∧ ks.all keyValid = true) ∧
  (∀ i ks, dictGet dict i = some ks → descOf ks ∈ used ∧
    mlookup m (descOf ks) = some i)

/-- The object-mapping class under which the id reference bytes round-trip:
all ids in the common range (0–4) and distinct. -/
def MapOK (m : List (List Nat × Nat)) : Prop :=
  (∀ d i, mlookup m d = some i → i ≤ 4) ∧
  (∀ d d' i, mlookup m d = some i → mlookup m d' = some i → d = d')

theorem Inv_grow {m : List (List Nat × Nat)} {used : List (List Nat)} {dict : Dict}
    (h : Inv m used dict) (n : Nat) : Inv m used (dictGrow dict n) := by
  obtain ⟨h1, h2⟩ := h
  constructor
  · intro d hd
    obtain ⟨i, ks, hm, hg, hdesc, hval⟩ := h1 d hd
    exact ⟨i, ks, hm, by rw [dictGet_grow]; exact hg, hdesc, hval⟩
  · intro i ks hg
    rw [dictGet_grow] at hg
    exact h2 i ks hg

theorem Inv_empty (m : List (List Nat × Nat)) : Inv m [] [] := by
  constructor
  · intro d hd
    exact absurd hd (List.not_mem_nil d)
  · intro i ks hg
    simp [dictGet] at hg

theorem descOf_inj {ks ks2 : List (List Nat)} (h1 : ks.all keyValid = true)
    (h2 : ks2.all keyValid = true) (he : descOf ks = descOf ks2) : ks = ks2 := by
  have r1 := readKeyList_desc ks h1 []
  have r2 := readKeyList_desc ks2 h2 []
  rw [he] at r1
  rw [r1] at r2
  simp only [Option.some.injEq, Prod.mk.injEq] at r2
  exact r2.1

theorem and7_add56 {i : Nat} (h : i ≤ 4) : (0x38 + i) &&& 0x07 = i := by
  have h7 := Nat.and_pow_two_sub_one_eq_mod (0x38 + i) 3
  norm_num at h7
  rw [h7]
  omega

theorem and7_add48 {n : Nat} (h : n ≤ 5) : (0x30 + n) &&& 0x07 = n := by
  have h7 := Nat.and_pow_two_sub_one_eq_mod (0x30 + n) 3
  norm_num at h7
  rw [h7]
  omega

theorem and15_add32 {n : Nat} (h : n ≤ 13) : (0x20 + n) &&& 0x0f = n := by
  have h7 := Nat.and_pow_two_sub_one_eq_mod (0x20 + n) 4
  norm_num at h7
  rw [h7]
  omega

theorem parseC_step_common {b : Nat} (h1 : 0x38 ≤ b) (h2 : b ≤ 0x3c)
    (f : Nat) (dict : Dict) (input : List Nat) :
    parseC (f + 1) dict (b :: input) = parseObjTag f dict (b &&& 0x07) input := by
  interval_cases b <;> rfl

theorem parseC_step_small {b : Nat} (h1 : 0x30 ≤ b) (h2 : b ≤ 0x35)
    (f : Nat) (dict : Dict) (input : List Nat) :
    parseC (f + 1) dict (b :: input) =
      (match readNKeys (b &&& 0x07) input with
       | none => .err .unexpectedEnd
       | some (ks, r2) =>
         match parsePairs f dict ks r2 with
         | .out => .out
         | .err e => .err e
         | .ok (es, r3, d3) => .ok (.obj es, r3, d3)) := by
  interval_cases b <;> rfl

theorem parseC_step_large (f : Nat) (dict : Dict) (input : List Nat) :
    parseC (f + 1) dict (CondensedInfo.LARGE_UNIQUE_OBJECT :: input) =
      (match readKeyList input with
       | none => .err .unexpectedEnd
       | some (ks, r2) =>
         match parsePairs f dict ks r2 with
         | .out => .out
         | .err e => .err e
         | .ok (es, r3, d3) => .ok (.obj es, r3, d3)) := rfl

theorem parseC_step_sarr {b : Nat} (h1 : 0x20 ≤ b) (h2 : b ≤ 0x2d)
    (f : Nat) (dict : Dict) (input : List Nat) :
    parseC (f + 1) dict (b :: input) =
      (match parseElems f dict (b &&& 0x0f) input with
       | .out => .out
       | .err e => .err e
       | .ok (es, r3, d3) => .ok (.arr es, r3, d3)) := by
  interval_cases b <;> rfl


theorem all_of_perm {α : Type} {a b : List α} (p : α → Bool) (h : a.Perm b)
    (ha : a.all p = true) : b.all p = true := by
  rw [List.all_eq_true] at ha ⊢
  intro x hx
  exact ha x (h.mem_iff.mpr hx)

theorem perm_sortPairs (l : List (List Nat × JSON)) : (sortPairs l).Perm l :=
  perm_sortBy _ l

theorem sortPairs_length (l : List (List Nat × JSON)) :
    (sortPairs l).length = l.length :=
  (perm_sortPairs l).length_eq

theorem sortPairs_keys_valid {entries : List (List Nat × JSON)}
    (h : (entries.map Prod.fst).all keyValid = true) :
    ((sortPairs entries).map Prod.fst).all keyValid = true :=
  all_of_perm keyValid ((perm_sortPairs entries).map Prod.fst).symm h

theorem getDescriptor_of_valid (entries : List (List Nat × JSON))
    (h : (entries.map Prod.fst).all keyValid = true) :
    getDescriptor entries = some (descOf ((sortPairs entries).map Prod.fst)) := by
  unfold getDescriptor
  have hall : ((sortPairs entries).all fun kv => keyValid kv.1) = true := by
    have h2 := sortPairs_keys_valid h
    rw [List.all_eq_true] at h2 ⊢
    intro kv hkv
    exact h2 kv.1 (List.mem_map_of_mem Prod.fst hkv)
  rw [if_pos hall]

theorem wfBP_sortPairs {entries : List (List Nat × JSON)}
    (h : wfBP entries = true) : wfBP (sortPairs entries) = true := by
  rw [wfBP_mem]
  intro p hp
  exact (wfBP_mem entries).mp h p ((perm_sortPairs entries).mem_iff.mp hp)

theorem mlookup_mem {m : List (List Nat × Nat)} {d : List Nat} {i : Nat}
    (h : mlookup m d = some i) : (d, i) ∈ m := by
  induction m with
  | nil => simp [mlookup] at h
  | cons p rest ih =>
    cases p with
    | mk d0 i0 =>
      simp only [mlookup] at h
      by_cases hd : d0 = d
      · rw [if_pos hd] at h
        simp only [Option.some.injEq] at h
        subst hd h
        exact List.mem_cons_self _ _
      · rw [if_neg hd] at h
        exact List.mem_cons_of_mem _ (ih h)

theorem assignIds_lookup_ge : ∀ (l : List (List Nat × Nat)) (j : Nat) (d : List Nat)
    (i : Nat), mlookup (assignIds l j) d = some i → j ≤ i := by
  intro l
  induction l with
  | nil => intro j d i h; simp [assignIds, mlookup] at h
  | cons p rest ih =>
    intro j d i h
    cases p with
    | mk d0 c =>
      simp only [assignIds] at h
      by_cases hc : c ≤ 1
      · rw [if_pos hc] at h; simp [mlookup] at h
      · rw [if_neg hc] at h
        by_cases hj : 65796 < j
        · rw [if_pos hj] at h; simp [mlookup] at h
        · rw [if_neg hj] at h
          simp only [mlookup] at h
          by_cases hd : d0 = d
          · rw [if_pos hd] at h
            simp only [Option.some.injEq] at h
            omega
          · rw [if_neg hd] at h
            have := ih (j + 1) d i h
            omega

theorem assignIds_inj : ∀ (l : List (List Nat × Nat)) (j : Nat) (d d' : List Nat)
    (i : Nat), mlookup (assignIds l j) d = some i →
    mlookup (assignIds l j) d' = some i → d = d' := by
  intro l
  induction l with
  | nil => intro j d d' i h; simp [assignIds, mlookup] at h
  | cons p rest ih =>
    intro j d d' i h h'
    cases p with
    | mk d0 c =>
      simp only [assignIds] at h h'
      by_cases hc : c ≤ 1
      · rw [if_pos hc] at h; simp [mlookup] at h
      · rw [if_neg hc] at h h'
        by_cases hj : 65796 < j
        · rw [if_pos hj] at h; simp [mlookup] at h
        · rw [if_neg hj] at h h'
          simp only [mlookup] at h h'
          by_cases hd : d0 = d
          · rw [if_pos hd] at h
            simp only [Option.some.injEq] at h
            by_cases hd' : d0 = d'
            · rw [← hd, ← hd']
            · rw [if_neg hd'] at h'
              have := assignIds_lookup_ge rest (j + 1) d' i h'
              omega
          · rw [if_neg hd] at h
            by_cases hd' : d0 = d'
            · rw [if_pos hd'] at h'
              simp only [Option.some.injEq] at h'
              have := assignIds_lookup_ge rest (j + 1) d i h
              omega
            · rw [if_neg hd'] at h'
              exact ih (j + 1) d d' i h h'

/-- The hypothesis actually needed about the id assignment: at most five
distinct repeated shapes, so all ids are in the COMMON_OBJECT range. -/
def mapSmall (m : List (List Nat × Nat)) : Bool :=
  m.all fun p => decide (p.2 ≤ 4)

theorem mapOK_of_small (v : JSON) (h : mapSmall (generateObjectMapping v) = true) :
    MapOK (generateObjectMapping v) := by
  constructor
  · intro d i hm
    have hmem := mlookup_mem hm
    rw [mapSmall, List.all_eq_true] at h
    have := h (d, i) hmem
    simpa using this
  · intro d d' i hm hm'
    exact assignIds_inj _ 0 d d' i hm hm'



theorem parsePairs_cons_eq (f : Nat) (dict : Dict) (k : List Nat)
    (ks2 : List (List Nat)) (input : List Nat) :
    parsePairs (f + 1) dict (k :: ks2) input =
      (match parseC f dict input with
       | .out => .out
       | .err e => .err e
       | .ok (v, r2, d2) =>
         match parsePairs f d2 ks2 r2 with
         | .out => .out
         | .err e => .err e
         | .ok (es, r3, d3) => .ok ((k, v) :: es, r3, d3)) := rfl

theorem parseElems_succ_eq (f : Nat) (dict : Dict) (n2 : Nat) (input : List Nat) :
    parseElems (f + 1) dict (n2 + 1) input =
      (match parseC f dict input with
       | .out => .out
       | .err e => .err e
       | .ok (v, r2, d2) =>
         match parseElems f d2 n2 r2 with
         | .out => .out
         | .err e => .err e
         | .ok (es, r3, d3) => .ok (v :: es, r3, d3)) := rfl

theorem parseLongElems_cons_eq (f : Nat) (dict : Dict) (b : Nat) (rest : List Nat) :
    parseLongElems (f + 1) dict (b :: rest) =
      (if b = 0 then .ok ([], b :: rest, dict)
       else
        match parseC f dict (b :: rest) with
        | .out => .out
        | .err e => .err e
        | .ok (v, r2, d2) =>
          match parseLongElems f d2 r2 with
          | .out => .out
          | .err e => .err e
          | .ok (es, r3, d3) => .ok (v :: es, r3, d3)) := rfl

set_option maxHeartbeats 4000000 in
/-- Fuel monotonicity of the decoder: once the fuel suffices (the result is not
the exhaustion marker), adding fuel does not change the result. -/
theorem parse_mono (f : Nat) :
    (∀ dict input, parseC f dict input ≠ PRes.out →
      parseC (f + 1) dict input = parseC f dict input) ∧
    (∀ dict idx input, parseObjTag f dict idx input ≠ PRes.out →
      parseObjTag (f + 1) dict idx input = parseObjTag f dict idx input) ∧
    (∀ dict ks input, parsePairs f dict ks input ≠ PRes.out →
      parsePairs (f + 1) dict ks input = parsePairs f dict ks input) ∧
    (∀ dict n input, parseElems f dict n input ≠ PRes.out →
      parseElems (f + 1) dict n input = parseElems f dict n input) ∧
    (∀ dict input, parseLongElems f dict input ≠ PRes.out →
      parseLongElems (f + 1) dict input = parseLongElems f dict input) := by
  induction f with
  | zero =>
    refine ⟨fun dict input h => ?_, fun dict idx input h => ?_,
      fun dict ks input h => ?_, fun dict n input h => ?_,
      fun dict input h => ?_⟩ <;> exact absurd rfl h
  | succ f ih =>
    obtain ⟨ihC, ihO, ihP, ihE, ihL⟩ := ih
    refine ⟨?_, ?_, ?_, ?_, ?_⟩
    · -- parseC
      intro dict input h
      match input with
      | [] => rfl
      | b :: rest =>
        simp only [parseC] at h ⊢
        by_cases hc1 : 0x80 ≤ b
        · simp only [if_pos hc1] at h ⊢
        · simp only [if_neg hc1] at h ⊢
          by_cases hc2 : b = CondensedInfo.LONG_STRING
          · simp only [if_pos hc2] at h ⊢
          · simp only [if_neg hc2] at h ⊢
            by_cases hc3 : b = CondensedInfo.RESERVED_1
            · simp only [if_pos hc3] at h ⊢
            · simp only [if_neg hc3] at h ⊢
              by_cases hc4 : b &&& 0xe0 = CondensedInfo.SHORT_STRING
              · simp only [if_pos hc4] at h ⊢
              · simp only [if_neg hc4] at h ⊢
                by_cases hc5 : b &&& 0xe0 = CondensedInfo.MINIMAL_INTEGER
                · simp only [if_pos hc5] at h ⊢
                · simp only [if_neg hc5] at h ⊢
                  by_cases hc6 : b = CondensedInfo.RESERVED_2
                  · simp only [if_pos hc6] at h ⊢
                  · simp only [if_neg hc6] at h ⊢
                    by_cases hc7 : b = CondensedInfo.UNCOMMON_OBJECT
                    · simp only [if_pos hc7] at h ⊢
                      cases rest with
                      | nil => rfl
                      | cons ib r2 => exact ihO dict _ r2 h
                    · simp only [if_neg hc7] at h ⊢
                      by_cases hc8 : b = CondensedInfo.RARE_OBJECT
                      · simp only [if_pos hc8] at h ⊢
                        cases rest with
                        | nil => rfl
                        | cons b1 r2 =>
                          cases r2 with
                          | nil => rfl
                          | cons b2 r3 => exact ihO dict _ r3 h
                      · simp only [if_neg hc8] at h ⊢
                        by_cases hc9 : b &&& CondensedInfo.COMMON_OBJECT = CondensedInfo.COMMON_OBJECT
                        · simp only [if_pos hc9] at h ⊢
                          exact ihO dict _ rest h
                        · simp only [if_neg hc9] at h ⊢
                          by_cases hc10 : b = CondensedInfo.LARGE_UNIQUE_OBJECT
                          · simp only [if_pos hc10] at h ⊢
                            cases hr : readKeyList rest with
                            | none => rfl
                            | some p =>
                              obtain ⟨ks2, r2⟩ := p
                              rw [hr] at h
                              dsimp only at h ⊢
                              have hne : parsePairs f dict ks2 r2 ≠ PRes.out := by
                                intro hc
                                rw [hc] at h
                                exact h rfl
                              rw [ihP dict ks2 r2 hne]
                          · simp only [if_neg hc10] at h ⊢
                            by_cases hc11 : b = CondensedInfo.HASHTABLE
                            · simp only [if_pos hc11] at h ⊢
                              cases hr : readHashKeys rest with
                              | none => rfl
                              | some p =>
                                obtain ⟨ks2, r2⟩ := p
                                rw [hr] at h
                                dsimp only at h ⊢
                                have hne : parsePairs f dict ks2 r2 ≠ PRes.out := by
                                  intro hc
                                  rw [hc] at h
                                  exact h rfl
                                rw [ihP dict ks2 r2 hne]
                            · simp only [if_neg hc11] at h ⊢
                              by_cases hc12 : b &&& 0xf0 = CondensedInfo.SMALL_UNIQUE_OBJECT
                              · simp only [if_pos hc12] at h ⊢
                                cases hr : readNKeys (b &&& 0x07) rest with
                                | none => rfl
                                | some p =>
                                  obtain ⟨ks2, r2⟩ := p
                                  rw [hr] at h
                                  dsimp only at h ⊢
                                  have hne : parsePairs f dict ks2 r2 ≠ PRes.out := by
                                    intro hc
                                    rw [hc] at h
                                    exact h rfl
                                  rw [ihP dict ks2 r2 hne]
                              · simp only [if_neg hc12] at h ⊢
                                by_cases hc13 : b = CondensedInfo.LONG_ARRAY
                                · simp only [if_pos hc13] at h ⊢
                                  have hne : parseLongElems f dict rest ≠ PRes.out := by
                                    intro hc
                                    rw [hc] at h
                                    exact h rfl
                                  rw [ihL dict rest hne]
                                · simp only [if_neg hc13] at h ⊢
                                  by_cases hc14 : b &&& 0xf0 = CondensedInfo.SHORT_ARRAY
                                  · simp only [if_pos hc14] at h ⊢
                                    have hne : parseElems f dict (b &&& 0x0f) rest ≠ PRes.out := by
                                      intro hc
                                      rw [hc] at h
                                      exact h rfl
                                    rw [ihE dict _ rest hne]
                                  · simp only [if_neg hc14] at h ⊢
    · -- parseObjTag
      intro dict idx input h
      simp only [parseObjTag] at h ⊢
      cases hg : dictGet (dictGrow dict (idx + 1)) idx with
      | some ks =>
        rw [hg] at h
        dsimp only at h ⊢
        have hne : parsePairs f (dictGrow dict (idx + 1)) ks input ≠ PRes.out := by
          intro hc
          rw [hc] at h
          exact h rfl
        rw [ihP _ ks input hne]
      | none =>
        rw [hg] at h
        dsimp only at h ⊢
        cases hr : readKeyList input with
        | none => rfl
        | some p =>
          obtain ⟨ks, r2⟩ := p
          rw [hr] at h
          dsimp only at h ⊢
          have hne : parsePairs f (dictSet (dictGrow dict (idx + 1)) idx ks) ks r2 ≠
              PRes.out := by
            intro hc
            rw [hc] at h
            exact h rfl
          rw [ihP _ ks r2 hne]
    · -- parsePairs
      intro dict ks input h
      match ks with
      | [] => rfl
      | k :: ks2 =>
        rw [parsePairs_cons_eq] at h
        rw [parsePairs_cons_eq, parsePairs_cons_eq]
        have hneC : parseC f dict input ≠ PRes.out := by
          intro hc
          rw [hc] at h
          exact h rfl
        rw [ihC dict input hneC]
        cases hv : parseC f dict input with
        | out => exact absurd hv hneC
        | err e => rfl
        | ok x =>
          obtain ⟨v2, r2, d2⟩ := x
          rw [hv] at h
          dsimp only at h ⊢
          have hneP : parsePairs f d2 ks2 r2 ≠ PRes.out := by
            intro hc
            rw [hc] at h
            exact h rfl
          rw [ihP d2 ks2 r2 hneP]
    · -- parseElems
      intro dict n input h
      match n with
      | 0 => rfl
      | n2 + 1 =>
        rw [parseElems_succ_eq] at h
        rw [parseElems_succ_eq, parseElems_succ_eq]
        have hneC : parseC f dict input ≠ PRes.out := by
          intro hc
          rw [hc] at h
          exact h rfl
        rw [ihC dict input hneC]
        cases hv : parseC f dict input with
        | out => exact absurd hv hneC
        | err e => rfl
        | ok x =>
          obtain ⟨v2, r2, d2⟩ := x
          rw [hv] at h
          dsimp only at h ⊢
          have hneE : parseElems f d2 n2 r2 ≠ PRes.out := by
            intro hc
            rw [hc] at h
            exact h rfl
          rw [ihE d2 n2 r2 hneE]
    · -- parseLongElems
      intro dict input h
      match input with
      | [] => rfl
      | b :: rest =>
        rw [parseLongElems_cons_eq] at h
        rw [parseLongElems_cons_eq, parseLongElems_cons_eq]
        by_cases hb : b = 0
        · simp only [if_pos hb] at h ⊢
        · simp only [if_neg hb] at h ⊢
          have hneC : parseC f dict (b :: rest) ≠ PRes.out := by
            intro hc
            rw [hc] at h
            exact h rfl
          rw [ihC dict (b :: rest) hneC]
          cases hv : parseC f dict (b :: rest) with
          | out => exact absurd hv hneC
          | err e => rfl
          | ok x =>
            obtain ⟨v2, r2, d2⟩ := x
            rw [hv] at h
            dsimp only at h ⊢
            have hneL : parseLongElems f d2 r2 ≠ PRes.out := by
              intro hc
              rw [hc] at h
              exact h rfl
            rw [ihL d2 r2 hneL]

theorem parseC_mono_ge {f g : Nat} (hfg : f ≤ g) (dict : Dict) (input : List Nat)
    (h : parseC f dict input ≠ PRes.out) :
    parseC g dict input = parseC f dict input := by
  induction g with
  | zero =>
    obtain rfl : f = 0 := by omega
    rfl
  | succ g ihg =>
    by_cases hf : f = g + 1
    · subst hf; rfl
    · have hle : f ≤ g := by omega
      have he := ihg hle
      rw [← he] at h
      rw [(parse_mono g).1 dict input h, he]


/-! ## One-step unfoldings of the encoder (general fuel) -/

theorem encElemsF_cons (f : Nat) (x : JSON) (l : List JSON)
    (m : List (List Nat × Nat)) (u : List (List Nat)) :
    encElemsF (f + 1) (x :: l) m u =
      ((encCF f x m u).1 ++ (encElemsF f l m (encCF f x m u).2).1,
       (encElemsF f l m (encCF f x m u).2).2) := by
  simp only [encElemsF]

theorem encPairsF_cons (f : Nat) (k : List Nat) (v : JSON)
    (l : List (List Nat × JSON)) (m : List (List Nat × Nat)) (u : List (List Nat)) :
    encPairsF (f + 1) ((k, v) :: l) m u =
      ((encCF f v m u).1 ++ (encPairsF f l m (encCF f v m u).2).1,
       (encPairsF f l m (encCF f v m u).2).2) := by
  simp only [encPairsF]

theorem encCF_arr_short (f : Nat) (elems : List JSON) (m : List (List Nat × Nat))
    (u : List (List Nat)) (hlen : elems.length < CondensedInfo.MAX_SHORT_ARRAY_SIZE) :
    encCF (f + 1) (.arr elems) m u =
      ((CondensedInfo.SHORT_ARRAY ||| elems.length) :: (encElemsF f elems m u).1,
       (encElemsF f elems m u).2) := by
  simp only [encCF]
  rw [if_pos hlen]

theorem encCF_obj_mapped_gen (f : Nat) (entries : List (List Nat × JSON))
    (m : List (List Nat × Nat)) (u : List (List Nat)) (dd : List Nat) (idx : Nat)
    (hne : entries ≠ []) (hg : getDescriptor entries = some dd)
    (hmc : mlookup m dd = some idx) :
    encCF (f + 1) (.obj entries) m u =
      (idRef idx ++ (if dd ∈ u then [] else dd ++ [CondensedInfo.TERMINATOR]) ++
        (encPairsF f (sortPairs entries) m (if dd ∈ u then u else dd :: u)).1,
       (encPairsF f (sortPairs entries) m (if dd ∈ u then u else dd :: u)).2) := by
  have hdne : dd ≠ [] := getDescriptor_ne_nil hne hg
  match entries, hne with
  | x :: xs, _ =>
    simp only [encCF, List.isEmpty_cons, Bool.false_eq_true, if_false]
    rw [hg]
    dsimp only
    rw [hmc]
    dsimp only
    by_cases hu : dd ∈ u
    · have hnn : ¬ dd ∉ u := by simp [hu]
      simp only [hnn, if_false]
      simp only [if_pos hu]
      try simp
    · simp only [hu, not_false_iff, if_true, ne_eq, hdne, if_false]
      try rw [if_pos (show dd ≠ [] from hdne)]
      try simp only [if_neg hu]

theorem encCF_obj_unmapped_small (f : Nat) (entries : List (List Nat × JSON))
    (m : List (List Nat × Nat)) (u : List (List Nat)) (dd : List Nat)
    (hne : entries ≠ []) (hg : getDescriptor entries = some dd)
    (hmc : mlookup m dd = none)
    (hlen : entries.length < CondensedInfo.MAX_SMALL_UNIQUE_OBJECT_SIZE) :
    encCF (f + 1) (.obj entries) m u =
      ((CondensedInfo.SMALL_UNIQUE_OBJECT ||| entries.length) ::
        (dd ++ (encPairsF f (sortPairs entries) m u).1),
       (encPairsF f (sortPairs entries) m u).2) := by
  match entries, hne with
  | x :: xs, _ =>
    simp only [encCF, List.isEmpty_cons, Bool.false_eq_true, if_false]
    rw [hg]
    dsimp only
    rw [hmc]
    dsimp only
    rw [if_pos hlen]

theorem encCF_obj_unmapped_large (f : Nat) (entries : List (List Nat × JSON))
    (m : List (List Nat × Nat)) (u : List (List Nat)) (dd : List Nat)
    (hne : entries ≠ []) (hg : getDescriptor entries = some dd)
    (hmc : mlookup m dd = none)
    (hlen : ¬ entries.length < CondensedInfo.MAX_SMALL_UNIQUE_OBJECT_SIZE) :
    encCF (f + 1) (.obj entries) m u =
      (CondensedInfo.LARGE_UNIQUE_OBJECT ::
        (dd ++ [CondensedInfo.TERMINATOR] ++ (encPairsF f (sortPairs entries) m u).1),
       (encPairsF f (sortPairs entries) m u).2) := by
  match entries, hne with
  | x :: xs, _ =>
    simp only [encCF, List.isEmpty_cons, Bool.false_eq_true, if_false]
    rw [hg]
    dsimp only
    rw [hmc]
    dsimp only
    rw [if_neg hlen]


theorem parseObjTag_succ_eq (f : Nat) (dict : Dict) (idx : Nat) (input : List Nat) :
    parseObjTag (f + 1) dict idx input =
      (match dictGet (dictGrow dict (idx + 1)) idx with
       | some ks =>
         (match parsePairs f (dictGrow dict (idx + 1)) ks input with
          | .out => .out
          | .err e => .err e
          | .ok (es, r3, d3) => .ok (.obj es, r3, d3))
       | none =>
         match readKeyList input with
         | none => .err .unexpectedEnd
         | some (ks, r2) =>
           match parsePairs f (dictSet (dictGrow dict (idx + 1)) idx ks) ks r2 with
           | .out => .out
           | .err e => .err e
           | .ok (es, r3, d3) => .ok (.obj es, r3, d3)) := rfl

set_option maxHeartbeats 8000000 in
/-- The binary round trip, by strong induction on structural size: for a
well-formed value, a mapping with distinct common-range ids, and an encoder
used-set agreeing with the decoder dictionary, decoding the encoded bytes
returns the key-sorted form of the value, consumes exactly those bytes, and
preserves the agreement. -/
theorem rt_all : ∀ n : Nat,
    (∀ v m used dict F rest, jsizeV v ≤ n → wfB v = true → MapOK m →
      Inv m used dict → 2 * jsizeV v + 1 ≤ F →
      ∃ dict2, parseC F dict ((encCF (jsizeV v) v m used).1 ++ rest) =
          .ok (csort v, rest, dict2) ∧ Inv m (encCF (jsizeV v) v m used).2 dict2) ∧
    (∀ l m used dict F rest, jsizeL l ≤ n → wfBL l = true → MapOK m →
      Inv m used dict → 2 * jsizeL l + 1 ≤ F →
      ∃ dict2, parseElems F dict l.length
          ((encElemsF (jsizeL l) l m used).1 ++ rest) =
          .ok (csortL (jsizeL l) l, rest, dict2) ∧
        Inv m (encElemsF (jsizeL l) l m used).2 dict2) ∧
    (∀ l m used dict F rest, jsizeP l ≤ n → wfBP l = true → MapOK m →
      Inv m used dict → 2 * jsizeP l + 1 ≤ F →
      ∃ dict2, parsePairs F dict (l.map Prod.fst)
          ((encPairsF (jsizeP l) l m used).1 ++ rest) =
          .ok (csortP (jsizeP l) l, rest, dict2) ∧
        Inv m (encPairsF (jsizeP l) l m used).2 dict2) := by
  intro n
  induction n with
  | zero =>
    refine ⟨?_, ?_, ?_⟩
    · intro v m used dict F rest hn _ _ _ _
      have := jsizeV_pos v
      omega
    · intro l m used dict F rest hn hw hM hI hF
      obtain rfl := jsizeL_eq_zero (show jsizeL l = 0 by omega)
      obtain ⟨F1, rfl⟩ : ∃ F1, F = F1 + 1 := ⟨F - 1, by omega⟩
      exact ⟨dict, rfl, hI⟩
    · intro l m used dict F rest hn hw hM hI hF
      obtain rfl := jsizeP_eq_zero (show jsizeP l = 0 by omega)
      obtain ⟨F1, rfl⟩ : ∃ F1, F = F1 + 1 := ⟨F - 1, by omega⟩
      exact ⟨dict, rfl, hI⟩
  | succ n ih =>
    obtain ⟨ihV, ihL, ihP⟩ := ih
    have stepL : ∀ l m used dict F rest, jsizeL l ≤ n + 1 → wfBL l = true → MapOK m →
        Inv m used dict → 2 * jsizeL l + 1 ≤ F →
        ∃ dict2, parseElems F dict l.length
            ((encElemsF (jsizeL l) l m used).1 ++ rest) =
            .ok (csortL (jsizeL l) l, rest, dict2) ∧
          Inv m (encElemsF (jsizeL l) l m used).2 dict2 := by
      intro l m used dict F rest hn hw hM hI hF
      match l with
      | [] =>
        obtain ⟨F1, rfl⟩ : ∃ F1, F = F1 + 1 := ⟨F - 1, by omega⟩
        exact ⟨dict, rfl, hI⟩
      | x :: l2 =>
        have hx := jsizeV_pos x
        simp only [wfBL, Bool.and_eq_true] at hw
        simp only [jsizeL] at hn hF
        have hjz : jsizeL (x :: l2) = (jsizeV x + jsizeL l2) + 1 := by
          simp only [jsizeL]
          omega
        rw [hjz, encElemsF_cons]
        rw [(encCF_irrel (jsizeV x)).1 x m used (jsizeV x + jsizeL l2) (jsizeV x)
          le_rfl (by omega) le_rfl]
        rw [(encCF_irrel (jsizeL l2)).2.1 l2 m (encCF (jsizeV x) x m used).2
          (jsizeV x + jsizeL l2) (jsizeL l2) le_rfl (by omega) le_rfl]
        rw [show csortL ((jsizeV x + jsizeL l2) + 1) (x :: l2) =
          csortF (jsizeV x + jsizeL l2) x :: csortL (jsizeV x + jsizeL l2) l2 from rfl]
        rw [csortF_eq_csort x _ (by omega)]
        rw [(csortF_irrel (jsizeL l2)).2.1 l2 (jsizeV x + jsizeL l2) (jsizeL l2)
          le_rfl (by omega) le_rfl]
        obtain ⟨F1, rfl⟩ : ∃ F1, F = F1 + 1 := ⟨F - 1, by omega⟩
        rw [show (x :: l2).length = l2.length + 1 from rfl]
        rw [parseElems_succ_eq]
        rw [List.append_assoc]
        obtain ⟨dict2a, hpa, hIa⟩ := ihV x m used dict F1
          ((encElemsF (jsizeL l2) l2 m (encCF (jsizeV x) x m used).2).1 ++ rest)
          (by omega) hw.1 hM hI (by omega)
        rw [hpa]
        obtain ⟨dict2b, hpb, hIb⟩ := ihL l2 m (encCF (jsizeV x) x m used).2 dict2a F1
          rest (by omega) hw.2 hM hIa (by omega)
        dsimp only
        rw [hpb]
        exact ⟨dict2b, rfl, hIb⟩
    have stepP : ∀ l m used dict F rest, jsizeP l ≤ n + 1 → wfBP l = true → MapOK m →
        Inv m used dict → 2 * jsizeP l + 1 ≤ F →
        ∃ dict2, parsePairs F dict (l.map Prod.fst)
            ((encPairsF (jsizeP l) l m used).1 ++ rest) =
            .ok (csortP (jsizeP l) l, rest, dict2) ∧
          Inv m (encPairsF (jsizeP l) l m used).2 dict2 := by
      intro l m used dict F rest hn hw hM hI hF
      match l with
      | [] =>
        obtain ⟨F1, rfl⟩ : ∃ F1, F = F1 + 1 := ⟨F - 1, by omega⟩
        exact ⟨dict, rfl, hI⟩
      | (k, v) :: l2 =>
        have hx := jsizeV_pos v
        simp only [wfBP, Bool.and_eq_true] at hw
        simp only [jsizeP] at hn hF
        have hjz : jsizeP ((k, v) :: l2) = (jsizeV v + jsizeP l2) + 1 := by
          simp only [jsizeP]
          omega
        rw [hjz, encPairsF_cons]
        rw [(encCF_irrel (jsizeV v)).1 v m used (jsizeV v + jsizeP l2) (jsizeV v)
          le_rfl (by omega) le_rfl]
        rw [(encCF_irrel (jsizeP l2)).2.2 l2 m (encCF (jsizeV v) v m used).2
          (jsizeV v + jsizeP l2) (jsizeP l2) le_rfl (by omega) le_rfl]
        rw [show csortP ((jsizeV v + jsizeP l2) + 1) ((k, v) :: l2) =
          (k, csortF (jsizeV v + jsizeP l2) v) :: csortP (jsizeV v + jsizeP l2) l2
          from rfl]
        rw [csortF_eq_csort v _ (by omega)]
        rw [(csortF_irrel (jsizeP l2)).2.2 l2 (jsizeV v + jsizeP l2) (jsizeP l2)
          le_rfl (by omega) le_rfl]
        obtain ⟨F1, rfl⟩ : ∃ F1, F = F1 + 1 := ⟨F - 1, by omega⟩
        rw [show ((k, v) :: l2).map Prod.fst = k :: l2.map Prod.fst from rfl]
        rw [parsePairs_cons_eq]
        rw [List.append_assoc]
        obtain ⟨dict2a, hpa, hIa⟩ := ihV v m used dict F1
          ((encPairsF (jsizeP l2) l2 m (encCF (jsizeV v) v m used).2).1 ++ rest)
          (by omega) hw.1 hM hI (by omega)
        rw [hpa]
        obtain ⟨dict2b, hpb, hIb⟩ := ihP l2 m (encCF (jsizeV v) v m used).2 dict2a F1
          rest (by omega) hw.2 hM hIa (by omega)
        dsimp only
        rw [hpb]
        exact ⟨dict2b, rfl, hIb⟩
    refine ⟨?_, stepL, stepP⟩
    intro v m used dict F rest hn hwf hM hI hF
    have hv1 := jsizeV_pos v
    match v with
    | .nil =>
      obtain ⟨F1, rfl⟩ : ∃ F1, F = F1 + 1 := ⟨F - 1, by omega⟩
      exact ⟨dict, rfl, hI⟩
    | .bool b =>
      obtain ⟨F1, rfl⟩ : ∃ F1, F = F1 + 1 := ⟨F - 1, by omega⟩
      cases b
      · exact ⟨dict, rfl, hI⟩
      · exact ⟨dict, rfl, hI⟩
    | .int i =>
      simp only [wfB, Bool.and_eq_true, decide_eq_true_eq] at hwf
      obtain ⟨F1, rfl⟩ : ∃ F1, F = F1 + 1 := ⟨F - 1, by omega⟩
      exact ⟨dict, parse_encInt i hwf.1 hwf.2 F1 dict rest, hI⟩
    | .double bits hint => simp [wfB] at hwf
    | .str str =>
      simp only [wfB, Bool.and_eq_true] at hwf
      obtain ⟨F1, rfl⟩ : ∃ F1, F = F1 + 1 := ⟨F - 1, by omega⟩
      exact ⟨dict, parse_encStr str hwf.1 F1 dict rest, hI⟩
    | .arr elems =>
      simp only [wfB, Bool.and_eq_true, decide_eq_true_eq] at hwf
      obtain ⟨hlen13, hwl⟩ := hwf
      simp only [jsizeV] at hn hF
      simp only [csort]
      rw [show jsizeV (JSON.arr elems) = jsizeL elems + 1 from by
        simp only [jsizeV]; omega]
      rw [encCF_arr_short (jsizeL elems) elems m used
        (by simp only [CondensedInfo.MAX_SHORT_ARRAY_SIZE]; omega)]
      rw [show csortF (jsizeL elems + 1) (JSON.arr elems) =
        JSON.arr (csortL (jsizeL elems) elems) from rfl]
      rw [or_short_array (show elems.length < 16 by omega)]
      obtain ⟨F1, rfl⟩ : ∃ F1, F = F1 + 1 := ⟨F - 1, by omega⟩
      rw [List.cons_append, parseC_step_sarr (by omega) (by omega)]
      rw [and15_add32 (by omega)]
      obtain ⟨dict2, hp, hI2⟩ := stepL elems m used dict F1 rest (by omega) hwl hM hI
        (by omega)
      rw [show (encElemsF (jsizeL elems) elems m used).1 ++ rest =
        (encElemsF (jsizeL elems) elems m used).1 ++ rest from rfl] at hp
      rw [show elems.length = elems.length from rfl] at hp
      rw [hp]
      exact ⟨dict2, rfl, hI2⟩
    | .obj entries =>
      simp only [wfB, Bool.and_eq_true] at hwf
      obtain ⟨⟨hdk, hkv⟩, hwp⟩ := hwf
      simp only [jsizeV] at hn hF
      simp only [csort]
      rw [show jsizeV (JSON.obj entries) = jsizeP entries + 1 from by
        simp only [jsizeV]; omega]
      by_cases hemp : entries.isEmpty
      · have he : entries = [] := by
          cases entries with
          | nil => rfl
          | cons a b => simp [List.isEmpty] at hemp
        subst he
        obtain ⟨F2, rfl⟩ : ∃ F2, F = F2 + 2 := ⟨F - 2, by omega⟩
        exact ⟨dict, rfl, hI⟩
      · have hne : entries ≠ [] := by
          cases entries with
          | nil => exact absurd rfl hemp
          | cons a b => simp
        have hg : getDescriptor entries = some (descOf ((sortPairs entries).map Prod.fst)) :=
          getDescriptor_of_valid entries hkv
        have hksv : ((sortPairs entries).map Prod.fst).all keyValid = true := sortPairs_keys_valid hkv
        have hwps : wfBP (sortPairs entries) = true := wfBP_sortPairs hwp
        have hkslen : ((sortPairs entries).map Prod.fst).length = entries.length := by
          rw [List.length_map, sortPairs_length]
        have hfuelP : jsizeP (sortPairs entries) = jsizeP entries := jsizeP_sortPairs entries
        rw [show csortF (jsizeP entries + 1) (JSON.obj entries) =
          JSON.obj (csortP (jsizeP entries) (sortPairs entries)) from rfl]
        rw [show csortP (jsizeP entries) (sortPairs entries) = csortP (jsizeP (sortPairs entries)) (sortPairs entries) from by
          rw [hfuelP]]
        cases hmc : mlookup m (descOf ((sortPairs entries).map Prod.fst)) with
        | some idx =>
          have hidx : idx ≤ 4 := hM.1 _ idx hmc
          rw [encCF_obj_mapped_gen (jsizeP entries) entries m used (descOf ((sortPairs entries).map Prod.fst)) idx
            hne hg hmc]
          rw [show encPairsF (jsizeP entries) (sortPairs entries) m
              (if descOf ((sortPairs entries).map Prod.fst) ∈ used then used else descOf ((sortPairs entries).map Prod.fst) :: used) =
            encPairsF (jsizeP (sortPairs entries)) (sortPairs entries) m
              (if descOf ((sortPairs entries).map Prod.fst) ∈ used then used else descOf ((sortPairs entries).map Prod.fst) :: used) from by rw [hfuelP]]
          rw [show idRef idx = [CondensedInfo.COMMON_OBJECT ||| idx] from by
            unfold idRef
            rw [if_pos (show idx ≤ CondensedInfo.MAX_COMMON_OBJECT_ID by
              simp only [CondensedInfo.MAX_COMMON_OBJECT_ID]; omega)]]
          rw [or_common (by omega)]
          obtain ⟨F2, rfl⟩ : ∃ F2, F = F2 + 2 := ⟨F - 2, by omega⟩
          by_cases hu : (descOf ((sortPairs entries).map Prod.fst)) ∈ used
          · rw [if_pos hu, if_pos hu]
            rw [List.append_nil, List.singleton_append, List.cons_append]
            rw [parseC_step_common (by omega) (by omega)]
            rw [and7_add56 hidx]
            rw [parseObjTag_succ_eq]
            obtain ⟨i0, ks0, hm0, hg0, hdesc0, hval0⟩ := hI.1 _ hu
            have hieq : i0 = idx := by
              rw [hm0] at hmc
              injection hmc
            subst hieq
            have hks0 : ks0 = ((sortPairs entries).map Prod.fst) := descOf_inj hval0 hksv hdesc0
            subst hks0
            rw [show dictGet (dictGrow dict (i0 + 1)) i0 = some (((sortPairs entries).map Prod.fst)) from by
              rw [dictGet_grow]; exact hg0]
            dsimp only
            obtain ⟨dict2, hp, hI2⟩ := stepP (sortPairs entries) m used (dictGrow dict (i0 + 1)) F2
              rest (by omega) hwps hM (Inv_grow hI (i0 + 1)) (by omega)
            rw [hp]
            exact ⟨dict2, rfl, hI2⟩
          · rw [if_neg hu, if_neg hu]
            rw [List.singleton_append]
            simp only [CondensedInfo.TERMINATOR, List.cons_append, List.append_assoc,
              List.nil_append]
            rw [parseC_step_common (by omega) (by omega)]
            rw [and7_add56 hidx]
            rw [parseObjTag_succ_eq]
            have hlenD : idx < (dictGrow dict (idx + 1)).length := by
              have := dictGrow_length_ge dict (idx + 1)
              omega
            have hnone : dictGet (dictGrow dict (idx + 1)) idx = none := by
              cases hg2 : dictGet (dictGrow dict (idx + 1)) idx with
              | none => rfl
              | some ks0 =>
                rw [dictGet_grow] at hg2
                obtain ⟨hmem, hml⟩ := hI.2 idx ks0 hg2
                have hde : descOf ks0 = descOf ((sortPairs entries).map Prod.fst) := hM.2 _ _ _ hml hmc
                rw [hde] at hmem
                exact absurd hmem hu
            rw [hnone]
            dsimp only
            have hkl := readKeyList_desc (((sortPairs entries).map Prod.fst)) hksv
              ((encPairsF (jsizeP (sortPairs entries)) (sortPairs entries) m (descOf ((sortPairs entries).map Prod.fst) :: used)).1 ++ rest)
            simp only [List.append_assoc, List.cons_append, List.nil_append] at hkl
            rw [hkl]
            dsimp only
            have hInv2 : Inv m (descOf ((sortPairs entries).map Prod.fst) :: used)
                (dictSet (dictGrow dict (idx + 1)) idx (((sortPairs entries).map Prod.fst))) := by
              constructor
              · intro d0 hd0
                rcases List.mem_cons.mp hd0 with rfl | hd0
                · exact ⟨idx, ((sortPairs entries).map Prod.fst), hmc,
                    by rw [dictGet_set_self _ _ _ hlenD], rfl, hksv⟩
                · obtain ⟨i0, ks0, hm0, hg0, hdesc0, hval0⟩ := hI.1 d0 hd0
                  have hne0 : idx ≠ i0 := by
                    intro he
                    subst he
                    have hdd0 : d0 = descOf ((sortPairs entries).map Prod.fst) := hM.2 _ _ _ hm0 hmc
                    subst hdd0
                    exact hu hd0
                  exact ⟨i0, ks0, hm0,
                    by rw [dictGet_set_ne _ _ _ _ hne0, dictGet_grow]; exact hg0,
                    hdesc0, hval0⟩
              · intro i0 ks0 hg0
                by_cases hi0 : idx = i0
                · subst hi0
                  rw [dictGet_set_self _ _ _ hlenD] at hg0
                  have hks0 : ((sortPairs entries).map Prod.fst) = ks0 := by
                    injection hg0
                  subst hks0
                  exact ⟨List.mem_cons_self _ _, hmc⟩
                · rw [dictGet_set_ne _ _ _ _ hi0, dictGet_grow] at hg0
                  obtain ⟨hmem0, hml0⟩ := hI.2 i0 ks0 hg0
                  exact ⟨List.mem_cons_of_mem _ hmem0, hml0⟩
            obtain ⟨dict2, hp, hI2⟩ := stepP (sortPairs entries) m (descOf ((sortPairs entries).map Prod.fst) :: used)
              (dictSet (dictGrow dict (idx + 1)) idx (((sortPairs entries).map Prod.fst))) F2 rest
              (by omega) hwps hM hInv2 (by omega)
            rw [hp]
            exact ⟨dict2, rfl, hI2⟩
        | none =>
          by_cases hlen6 : entries.length < CondensedInfo.MAX_SMALL_UNIQUE_OBJECT_SIZE
          · rw [encCF_obj_unmapped_small (jsizeP entries) entries m used (descOf ((sortPairs entries).map Prod.fst))
              hne hg hmc hlen6]
            rw [show encPairsF (jsizeP entries) (sortPairs entries) m used =
              encPairsF (jsizeP (sortPairs entries)) (sortPairs entries) m used from by rw [hfuelP]]
            simp only [CondensedInfo.MAX_SMALL_UNIQUE_OBJECT_SIZE] at hlen6
            rw [or_small_unique (by omega)]
            obtain ⟨F1, rfl⟩ : ∃ F1, F = F1 + 1 := ⟨F - 1, by omega⟩
            rw [List.cons_append, parseC_step_small (by omega) (by omega)]
            rw [and7_add48 (by omega)]
            rw [List.append_assoc]
            have hnk := readNKeys_desc (((sortPairs entries).map Prod.fst)) hksv
              ((encPairsF (jsizeP (sortPairs entries)) (sortPairs entries) m used).1 ++ rest)
            rw [hkslen] at hnk
            rw [hnk]
            dsimp only
            obtain ⟨dict2, hp, hI2⟩ := stepP (sortPairs entries) m used dict F1 rest
              (by omega) hwps hM hI (by omega)
            rw [hp]
            exact ⟨dict2, rfl, hI2⟩
          · rw [encCF_obj_unmapped_large (jsizeP entries) entries m used (descOf ((sortPairs entries).map Prod.fst))
              hne hg hmc hlen6]
            rw [show encPairsF (jsizeP entries) (sortPairs entries) m used =
              encPairsF (jsizeP (sortPairs entries)) (sortPairs entries) m used from by rw [hfuelP]]
            obtain ⟨F1, rfl⟩ : ∃ F1, F = F1 + 1 := ⟨F - 1, by omega⟩
            rw [List.cons_append, parseC_step_large]
            simp only [CondensedInfo.TERMINATOR, List.append_assoc, List.cons_append,
              List.nil_append]
            have hkl := readKeyList_desc (((sortPairs entries).map Prod.fst)) hksv
              ((encPairsF (jsizeP (sortPairs entries)) (sortPairs entries) m used).1 ++ rest)
            simp only [List.append_assoc, List.cons_append, List.nil_append] at hkl
            rw [hkl]
            dsimp only
            obtain ⟨dict2, hp, hI2⟩ := stepP (sortPairs entries) m used dict F1 rest
              (by omega) hwps hM hI (by omega)
            rw [hp]
            exact ⟨dict2, rfl, hI2⟩


/-- C1 counterexample: the value 0.0 (a finite double) does not survive the
binary round trip.  `updateCondensedSizeHint` picks the 15-bit half form for
0.0, whose exponent field cannot encode the zero exponent (the bias 0x3e0
underflows through the unsigned-char tag byte), so the emitted bytes 0xA0 0x00
decode to the double 2.0 (bits 0x4000000000000000). -/
theorem c1_double_counterexample :
    condensed (.double 0 Hint.ABSENT) = [0xA0, 0x00] ∧
    parseCondensedTop [0xA0, 0x00] =
      .ok (.double 0x4000000000000000 Hint.HALF_PRECISION, [], []) ∧
    jeqv (.double 0 Hint.ABSENT) (.double 0x4000000000000000 Hint.HALF_PRECISION)
      = false :=
  ⟨rfl, rfl, rfl⟩

/-- C1 (amended): binary round trip on the class `wfB` (the six JSON kinds
with numbers held as non-extreme integers — doubles are excluded by the
half-float defect exhibited in the counterexample — short or NUL-free strings,
arrays of at most 13 elements, objects with distinct descriptor-valid keys),
under the hypothesis that the generated object mapping stays in the common-id
range 0–4: decoding the condensed encoding yields exactly the key-sorted form
of the value with no bytes left over, and that form is semantically equal to
the original in the specification sense (`jeqv`: recursive structural equality
ignoring object entry order). -/
theorem c1_binary_round_trip (v : JSON) (hwf : wfB v = true)
    (hsmall : mapSmall (generateObjectMapping v) = true) :
    (∃ d, parseCondensedTop (condensed v) = .ok (csort v, [], d)) ∧
    jeqv v (csort v) = true := by
  constructor
  · have hM := mapOK_of_small v hsmall
    have hI := Inv_empty (generateObjectMapping v)
    obtain ⟨dict2, hp, _⟩ := (rt_all (jsizeV v)).1 v (generateObjectMapping v) [] []
      (2 * jsizeV v + 1) [] le_rfl hwf hM hI le_rfl
    rw [List.append_nil] at hp
    refine ⟨dict2, ?_⟩
    unfold parseCondensedTop
    have hne : parseC (2 * jsizeV v + 1) []
        ((encCF (jsizeV v) v (generateObjectMapping v) []).1) ≠ PRes.out := by
      rw [hp]
      intro hc
      exact PRes.noConfusion hc
    rcases le_or_lt (2 * jsizeV v + 1) (3 * (condensed v).length + 4) with hle | hlt
    · rw [parseC_mono_ge hle [] (condensed v) hne]
      exact hp
    · have hne2 : parseC (3 * (condensed v).length + 4) [] (condensed v) ≠ PRes.out :=
        (parse_total _).1 [] (condensed v) (by omega)
      have hmg := parseC_mono_ge (le_of_lt hlt) [] (condensed v) hne2
      rw [← hmg]
      exact hp
  · exact jeqv_csort v hwf

/-- Closed instance of the amended C1 round trip: an array of two objects
sharing the key set {"k"} (so the shape is mapped, id 0, and the dictionary
definition is emitted once), a string, and boundary integers. -/
theorem c1_binary_round_trip_witness :
    wfB (.arr [.obj [([107], .int 1)], .obj [([107], .bool true)],
      .str [104, 105], .int (-16), .int 2047]) = true ∧
    mapSmall (generateObjectMapping (.arr [.obj [([107], .int 1)],
      .obj [([107], .bool true)], .str [104, 105], .int (-16), .int 2047])) = true ∧
    ((∃ d, parseCondensedTop (condensed (.arr [.obj [([107], .int 1)],
        .obj [([107], .bool true)], .str [104, 105], .int (-16), .int 2047])) =
      .ok (csort (.arr [.obj [([107], .int 1)], .obj [([107], .bool true)],
        .str [104, 105], .int (-16), .int 2047]), [], d)) ∧
     jeqv (.arr [.obj [([107], .int 1)], .obj [([107], .bool true)],
        .str [104, 105], .int (-16), .int 2047])
       (csort (.arr [.obj [([107], .int 1)], .obj [([107], .bool true)],
        .str [104, 105], .int (-16), .int 2047])) = true) :=
  ⟨rfl, rfl, c1_binary_round_trip _ rfl rfl⟩


/-! ## Truncated-input lemmas for the readers -/

theorem readBytes_short : ∀ (n : Nat) (input : List Nat), input.length < n →
    readBytes n input = none := by
  intro n
  induction n with
  | zero => intro input h; omega
  | succ n ih =>
    intro input h
    match input with
    | [] => rfl
    | b :: rest =>
      simp only [List.length_cons] at h
      simp only [readBytes, ih rest (by omega)]
      rfl

theorem readLongStr_nonul (s : List Nat)
    (hs : s.all (fun b => decide (b ≠ 0)) = true) : readLongStr s = none := by
  induction s with
  | nil => rfl
  | cons b rest ih =>
    simp only [List.all_cons, Bool.and_eq_true, decide_eq_true_eq] at hs
    simp only [readLongStr, if_neg hs.1, ih hs.2]
    rfl

theorem readCodeStrAux_low (p : List Nat) (h : ∀ b ∈ p, b < 0x80) :
    readCodeStrAux p = none := by
  induction p with
  | nil => rfl
  | cons b rest ih =>
    simp only [readCodeStrAux, if_pos (h b (List.mem_cons_self b rest)),
      ih (fun x hx => h x (List.mem_cons_of_mem b hx))]
    rfl

theorem markLast_prefix_low : ∀ (k : List Nat), keyValid k = true →
    ∀ p q, p ++ q = markLast k → q ≠ [] → ∀ b ∈ p, b < 0x80 := by
  intro k
  induction k with
  | nil =>
    intro _ p q hpq hq b hb
    match p, hpq with
    | [], _ => exact absurd hb (List.not_mem_nil b)
  | cons c k2 ih =>
    intro hk p q hpq hq b hb
    simp only [keyValid, List.all_cons, Bool.and_eq_true, decide_eq_true_eq] at hk
    match k2 with
    | [] =>
      match p, q, hpq with
      | [], _, _ => exact absurd hb (List.not_mem_nil b)
      | [x], q, hpq =>
        simp only [markLast, List.cons_append, List.nil_append, List.cons.injEq] at hpq
        exact absurd hpq.2 hq
      | x :: y :: p2, q, hpq =>
        simp only [markLast, List.cons_append, List.cons.injEq] at hpq
        exact absurd hpq.2 (by simp)
    | c2 :: k3 =>
      match p, hpq with
      | [], _ => exact absurd hb (List.not_mem_nil b)
      | x :: p2, hpq =>
        have hml : markLast (c :: c2 :: k3) = c :: markLast (c2 :: k3) := rfl
        rw [hml] at hpq
        simp only [List.cons_append, List.cons.injEq] at hpq
        rcases List.mem_cons.mp hb with rfl | hb2
        · rw [hpq.1]; omega
        · exact ih hk.2 p2 q hpq.2 hq b hb2

theorem readCodeStr_trunc (k : List Nat) (hk : keyValid k = true) :
    ∀ p q, p ++ q = descOfKey k → q ≠ [] → readCodeStr p = none := by
  intro p q hpq hq
  match k with
  | [] =>
    match p, q, hpq with
    | [], _, _ => rfl
    | [x], q, hpq =>
      simp only [descOfKey, List.cons_append, List.nil_append, List.cons.injEq] at hpq
      exact absurd hpq.2 hq
    | x :: y :: p2, q, hpq =>
      simp only [descOfKey, List.cons_append, List.cons.injEq] at hpq
      exact absurd hpq.2 (by simp)
  | c :: k2 =>
    have hd : descOfKey (c :: k2) = markLast (c :: k2) := rfl
    rw [hd] at hpq
    have hlow := markLast_prefix_low (c :: k2) hk p q hpq hq
    match p with
    | [] => rfl
    | b :: p2 =>
      have hb : b < 0x80 := hlow b (List.mem_cons_self b p2)
      simp only [readCodeStr]
      rw [if_neg (by omega)]
      exact readCodeStrAux_low (b :: p2) hlow


theorem readKeyListF_nil (f : Nat) : readKeyListF f [] = none := by
  cases f <;> rfl

theorem prefix_of_singleton {x : Nat} {p q : List Nat} (h : [x] = p ++ q)
    (hq : q ≠ []) : p = [] := by
  cases p with
  | nil => rfl
  | cons a p2 =>
    simp only [List.cons_append, List.cons.injEq] at h
    rcases List.append_eq_nil.mp h.2.symm with ⟨-, rfl⟩
    exact absurd rfl hq

theorem prefix_of_pair {x y : Nat} {p q : List Nat} (h : [x, y] = p ++ q)
    (hq : q ≠ []) : p = [] ∨ p = [x] := by
  cases p with
  | nil => exact Or.inl rfl
  | cons a p2 =>
    simp only [List.cons_append, List.cons.injEq] at h
    obtain ⟨rfl, h2⟩ := h
    cases p2 with
    | nil => exact Or.inr rfl
    | cons b p3 =>
      simp only [List.cons_append, List.cons.injEq] at h2
      obtain ⟨rfl, h3⟩ := h2
      rcases List.append_eq_nil.mp h3.symm with ⟨-, rfl⟩
      exact absurd rfl hq

theorem prefix_of_cons {x : Nat} {body p q : List Nat} (h : x :: body = p ++ q) :
    p = [] ∨ ∃ p2, p = x :: p2 ∧ body = p2 ++ q := by
  cases p with
  | nil => exact Or.inl rfl
  | cons a p2 =>
    simp only [List.cons_append, List.cons.injEq] at h
    obtain ⟨rfl, h2⟩ := h
    exact Or.inr ⟨p2, rfl, h2⟩

theorem prefix_length_lt {s p q : List Nat} (h : s = p ++ q) (hq : q ≠ []) :
    p.length < s.length := by
  have hl := congrArg List.length h
  simp only [List.length_append] at hl
  have := List.length_pos.mpr hq
  omega

theorem parseC_vshort_nil {b : Nat} (h1 : 16 ≤ b) (h2 : b < 32) (f : Nat)
    (dict : Dict) : parseC (f + 1) dict [b] = .err .unexpectedEnd := by
  interval_cases b <;> rfl

theorem readKeyListF_cons_eq (f : Nat) (b : Nat) (rest : List Nat) :
    readKeyListF (f + 1) (b :: rest) =
      (if b = 0 then some ([], rest)
       else match readCodeStr (b :: rest) with
         | none => none
         | some (k, r) => (readKeyListF f r).map fun (ks, r2) => (k :: ks, r2)) := rfl

theorem readNKeys_succ_eq (n : Nat) (input : List Nat) :
    readNKeys (n + 1) input =
      (match readCodeStr input with
       | none => none
       | some (k, r) => (readNKeys n r).map fun (ks, r2) => (k :: ks, r2)) := rfl

/-- A proper prefix of a shape-definition section (descriptor bytes plus the
closing zero) makes the key-list loop fail, at every fuel. -/
theorem readKeyListF_trunc : ∀ (ks : List (List Nat)), ks.all keyValid = true →
    ∀ p q, p ++ q = descOf ks ++ [0] → q ≠ [] → ∀ f, readKeyListF f p = none := by
  intro ks
  induction ks with
  | nil =>
    intro _ p q hpq hq f
    simp only [descOf, List.flatMap_nil, List.nil_append] at hpq
    rw [prefix_of_singleton hpq.symm hq]
    exact readKeyListF_nil f
  | cons k ks2 ih =>
    intro hks p q hpq hq f
    simp only [List.all_cons, Bool.and_eq_true] at hks
    have hstep : descOf (k :: ks2) ++ [(0:Nat)] =
        descOfKey k ++ (descOf ks2 ++ [(0:Nat)]) := by
      simp only [descOf, List.flatMap_cons, List.append_assoc]
    rw [hstep] at hpq
    obtain ⟨hd, tl, hdesc, hhd⟩ := descOfKey_head_pos k hks.1
    have hcont : ∀ p2, p = descOfKey k ++ p2 →
        descOf ks2 ++ [(0:Nat)] = p2 ++ q → readKeyListF f p = none := by
      intro p2 hp hrest
      subst hp
      match f with
      | 0 => rfl
      | f1 + 1 =>
        rw [hdesc, List.cons_append, readKeyListF_cons_eq, if_neg hhd]
        have hcode : readCodeStr (descOfKey k ++ p2) = some (k, p2) :=
          readCodeStr_desc k hks.1 p2
        rw [hdesc, List.cons_append] at hcode
        rw [hcode]
        dsimp only
        rw [ih hks.2 p2 q hrest.symm hq f1]
        rfl
    rcases List.append_eq_append_iff.mp hpq with ⟨a, ha1, ha2⟩ | ⟨c, hc1, hc2⟩
    · cases a with
      | nil =>
        rw [List.append_nil] at ha1
        rw [List.nil_append] at ha2
        exact hcont [] (by rw [ha1, List.append_nil]) (by rw [ha2, List.nil_append])
      | cons a0 a2 =>
        cases p with
        | nil => exact readKeyListF_nil f
        | cons b p2 =>
          have ha1c := ha1
          rw [hdesc] at ha1c
          simp only [List.cons_append, List.cons.injEq] at ha1c
          match f with
          | 0 => rfl
          | f1 + 1 =>
            rw [readKeyListF_cons_eq, if_neg (ha1c.1 ▸ hhd)]
            rw [readCodeStr_trunc k hks.1 (b :: p2) (a0 :: a2) ha1.symm (by simp)]
    · exact hcont c hc1 hc2

/-- A proper prefix of a small-object descriptor (a fixed count of code
strings) makes the counted key reader fail. -/
theorem readNKeys_trunc : ∀ (ks : List (List Nat)), ks.all keyValid = true →
    ∀ p q, p ++ q = descOf ks → q ≠ [] → readNKeys ks.length p = none := by
  intro ks
  induction ks with
  | nil =>
    intro _ p q hpq hq
    simp only [descOf, List.flatMap_nil] at hpq
    rcases List.append_eq_nil.mp hpq with ⟨-, rfl⟩
    exact absurd rfl hq
  | cons k ks2 ih =>
    intro hks p q hpq hq
    simp only [List.all_cons, Bool.and_eq_true] at hks
    have hstep : descOf (k :: ks2) = descOfKey k ++ descOf ks2 := by
      simp only [descOf, List.flatMap_cons]
    rw [hstep] at hpq
    rw [show (k :: ks2).length = ks2.length + 1 from rfl, readNKeys_succ_eq]
    rcases List.append_eq_append_iff.mp hpq with ⟨a, ha1, ha2⟩ | ⟨c, hc1, hc2⟩
    · cases a with
      | nil =>
        rw [List.append_nil] at ha1
        rw [List.nil_append] at ha2
        have hcs : readCodeStr p = some (k, []) := by
          have hc := readCodeStr_desc k hks.1 []
          rw [List.append_nil] at hc
          rw [ha1] at hc
          exact hc
        rw [hcs]
        dsimp only
        rw [ih hks.2 [] q (by rw [List.nil_append, ha2]) hq]
        rfl
      | cons a0 a2 =>
        rw [readCodeStr_trunc k hks.1 p (a0 :: a2) ha1.symm (by simp)]
    · rw [hc1, readCodeStr_desc k hks.1 c]
      dsimp only
      rw [ih hks.2 c q hc2.symm hq]
      rfl

/-- Any proper prefix of an integer encoding hits the unexpected-end error. -/
theorem encInt_trunc (i : Int) (f : Nat) (dict : Dict) :
    ∀ p q, encInt i = p ++ q → q ≠ [] →
      parseC (f + 1) dict p = .err .unexpectedEnd := by
  intro p q hpq hq
  unfold encInt at hpq
  by_cases h1 : i ≤ 15 ∧ -16 ≤ i
  · rw [if_pos h1] at hpq
    rw [prefix_of_singleton hpq hq]
    rfl
  · rw [if_neg h1] at hpq
    by_cases h2 : i ≤ 2047 ∧ -2048 ≤ i
    · rw [if_pos h2] at hpq
      have hn : (((i.emod 4096).toNat &&& 0xf00) >>> 8) < 16 := by
        have hle : (i.emod 4096).toNat &&& 0xf00 ≤ 0xf00 := Nat.and_le_right
        have hdiv : ((i.emod 4096).toNat &&& 0xf00) >>> 8 ≤ 0xf00 >>> 8 := by
          simp only [Nat.shiftRight_eq_div_pow]
          exact Nat.div_le_div_right hle
        have h15 : (0xf00 : Nat) >>> 8 = 15 := rfl
        omega
      rcases prefix_of_pair hpq hq with rfl | rfl
      · rfl
      · rw [show CondensedInfo.VERY_SHORT_INTEGER |||
            (((i.emod 4096).toNat &&& 0xf00) >>> 8) =
            0x10 + (((i.emod 4096).toNat &&& 0xf00) >>> 8) from or_vshort hn]
        exact parseC_vshort_nil (by omega) (by omega) f dict
    · rw [if_neg h2] at hpq
      by_cases h3 : i < 32767 ∧ -32768 < i
      · rw [if_pos h3] at hpq
        rcases prefix_of_cons hpq with rfl | ⟨p2, rfl, hbody⟩
        · rfl
        · rw [parseC_step_sshort]
          have hlt := prefix_length_lt hbody hq
          rw [leBytes_length] at hlt
          rw [readBytes_short 2 p2 hlt]
      · rw [if_neg h3] at hpq
        by_cases h4 : i < 65535 ∧ 0 < i
        · rw [if_pos h4] at hpq
          rcases prefix_of_cons hpq with rfl | ⟨p2, rfl, hbody⟩
          · rfl
          · rw [parseC_step_ushort]
            have hlt := prefix_length_lt hbody hq
            rw [leBytes_length] at hlt
            rw [readBytes_short 2 p2 hlt]
        · rw [if_neg h4] at hpq
          by_cases h5 : i < 2147483647 ∧ -2147483648 < i
          · rw [if_pos h5] at hpq
            rcases prefix_of_cons hpq with rfl | ⟨p2, rfl, hbody⟩
            · rfl
            · rw [parseC_step_sint]
              have hlt := prefix_length_lt hbody hq
              rw [leBytes_length] at hlt
              rw [readBytes_short 4 p2 hlt]
          · rw [if_neg h5] at hpq
            by_cases h6 : i < 4294967295 ∧ 0 < i
            · rw [if_pos h6] at hpq
              rcases prefix_of_cons hpq with rfl | ⟨p2, rfl, hbody⟩
              · rfl
              · rw [parseC_step_uint]
                have hlt := prefix_length_lt hbody hq
                rw [leBytes_length] at hlt
                rw [readBytes_short 4 p2 hlt]
            · rw [if_neg h6] at hpq
              by_cases h7 : i < 9223372036854775807 ∧ -9223372036854775808 < i
              · rw [if_pos h7] at hpq
                rcases prefix_of_cons hpq with rfl | ⟨p2, rfl, hbody⟩
                · rfl
                · rw [parseC_step_slong]
                  have hlt := prefix_length_lt hbody hq
                  rw [leBytes_length] at hlt
                  rw [readBytes_short 8 p2 hlt]
              · rw [if_neg h7] at hpq
                rcases List.append_eq_nil.mp hpq.symm with ⟨-, rfl⟩
                exact absurd rfl hq

/-- Any proper prefix of a string encoding (short or NUL-free long) hits the
unexpected-end error. -/
theorem encStr_trunc (s : List Nat)
    (hwf : (decide (s.length < 30) || s.all fun b => decide (b ≠ 0)) = true)
    (f : Nat) (dict : Dict) :
    ∀ p q, encStr s = p ++ q → q ≠ [] →
      parseC (f + 1) dict p = .err .unexpectedEnd := by
  intro p q hpq hq
  unfold encStr at hpq
  by_cases hlen : s.length < CondensedInfo.MAX_SHORT_STRING_SIZE
  · rw [if_pos hlen] at hpq
    simp only [CondensedInfo.MAX_SHORT_STRING_SIZE] at hlen
    rcases prefix_of_cons hpq with rfl | ⟨p2, rfl, hbody⟩
    · rfl
    · rw [parseC_step_sstr (show 0x60 ≤ CondensedInfo.SHORT_STRING + s.length by
          simp only [CondensedInfo.SHORT_STRING]; omega)
        (show CondensedInfo.SHORT_STRING + s.length ≤ 0x7d by
          simp only [CondensedInfo.SHORT_STRING]; omega)]
      have hmask : (CondensedInfo.SHORT_STRING + s.length) &&& 0x1f = s.length := by
        have h31 := Nat.and_pow_two_sub_one_eq_mod
          (CondensedInfo.SHORT_STRING + s.length) 5
        norm_num at h31
        simp only [CondensedInfo.SHORT_STRING] at h31 ⊢
        rw [h31]
        omega
      rw [hmask]
      rw [readBytes_short s.length p2 (prefix_length_lt hbody hq)]
  · rw [if_neg hlen] at hpq
    simp only [CondensedInfo.MAX_SHORT_STRING_SIZE] at hlen
    have hnz : (s.all fun b => decide (b ≠ 0)) = true := by
      cases hd : decide (s.length < 30) with
      | true => simp only [decide_eq_true_eq] at hd; omega
      | false => rw [hd] at hwf; simpa using hwf
    rcases prefix_of_cons hpq with rfl | ⟨p2, rfl, hbody⟩
    · rfl
    · rw [parseC_step_longstr]
      simp only [CondensedInfo.TERMINATOR] at hbody
      have hall : p2.all (fun b => decide (b ≠ 0)) = true := by
        rcases List.append_eq_append_iff.mp hbody with ⟨a, ha1, ha2⟩ | ⟨c, hc1, hc2⟩
        · rw [prefix_of_singleton ha2 hq, List.append_nil] at ha1
          rw [ha1]
          exact hnz
        · rw [hc1, List.all_append, Bool.and_eq_true] at hnz
          exact hnz.1
      rw [readLongStr_nonul p2 hall]


set_option maxHeartbeats 8000000 in
/-- Truncation, by strong induction on structural size, mirroring the
round-trip induction: a PROPER prefix of the encoding of a well-formed value
(under the same mapping/dictionary invariant) makes the decoder throw the
unexpected-end error, at every sufficient fuel. -/
theorem trunc_all : ∀ n : Nat,
    (∀ v m used dict F p q, jsizeV v ≤ n → wfB v = true → MapOK m →
      Inv m used dict → 2 * jsizeV v + 1 ≤ F →
      (encCF (jsizeV v) v m used).1 = p ++ q → q ≠ [] →
      parseC F dict p = .err .unexpectedEnd) ∧
    (∀ l m used dict F p q, jsizeL l ≤ n → wfBL l = true → MapOK m →
      Inv m used dict → 2 * jsizeL l + 1 ≤ F →
      (encElemsF (jsizeL l) l m used).1 = p ++ q → q ≠ [] →
      parseElems F dict l.length p = .err .unexpectedEnd) ∧
    (∀ l m used dict F p q, jsizeP l ≤ n → wfBP l = true → MapOK m →
      Inv m used dict → 2 * jsizeP l + 1 ≤ F →
      (encPairsF (jsizeP l) l m used).1 = p ++ q → q ≠ [] →
      parsePairs F dict (l.map Prod.fst) p = .err .unexpectedEnd) := by
  intro n
  induction n with
  | zero =>
    refine ⟨?_, ?_, ?_⟩
    · intro v m used dict F p q hn _ _ _ _ _ _
      have := jsizeV_pos v
      omega
    · intro l m used dict F p q hn hw hM hI hF hpq hq
      obtain rfl := jsizeL_eq_zero (show jsizeL l = 0 by omega)
      have he : (encElemsF (jsizeL ([] : List JSON)) ([] : List JSON) m used).1
          = [] := rfl
      rw [he] at hpq
      rcases List.append_eq_nil.mp hpq.symm with ⟨-, rfl⟩
      exact absurd rfl hq
    · intro l m used dict F p q hn hw hM hI hF hpq hq
      obtain rfl := jsizeP_eq_zero (show jsizeP l = 0 by omega)
      have he : (encPairsF (jsizeP ([] : List (List Nat × JSON)))
          ([] : List (List Nat × JSON)) m used).1 = [] := rfl
      rw [he] at hpq
      rcases List.append_eq_nil.mp hpq.symm with ⟨-, rfl⟩
      exact absurd rfl hq
  | succ n ih =>
    obtain ⟨ihV, ihL, ihP⟩ := ih
    have stepL : ∀ l m used dict F p q, jsizeL l ≤ n + 1 → wfBL l = true → MapOK m →
        Inv m used dict → 2 * jsizeL l + 1 ≤ F →
        (encElemsF (jsizeL l) l m used).1 = p ++ q → q ≠ [] →
        parseElems F dict l.length p = .err .unexpectedEnd := by
      intro l m used dict F p q hn hw hM hI hF hpq hq
      match l with
      | [] =>
        have he : (encElemsF (jsizeL ([] : List JSON)) ([] : List JSON) m used).1
            = [] := rfl
        rw [he] at hpq
        rcases List.append_eq_nil.mp hpq.symm with ⟨-, rfl⟩
        exact absurd rfl hq
      | x :: l2 =>
        have hx := jsizeV_pos x
        simp only [wfBL, Bool.and_eq_true] at hw
        simp only [jsizeL] at hn hF
        have hjz : jsizeL (x :: l2) = (jsizeV x + jsizeL l2) + 1 := by
          simp only [jsizeL]; omega
        rw [hjz, encElemsF_cons] at hpq
        rw [(encCF_irrel (jsizeV x)).1 x m used (jsizeV x + jsizeL l2) (jsizeV x)
          le_rfl (by omega) le_rfl] at hpq
        rw [(encCF_irrel (jsizeL l2)).2.1 l2 m (encCF (jsizeV x) x m used).2
          (jsizeV x + jsizeL l2) (jsizeL l2) le_rfl (by omega) le_rfl] at hpq
        dsimp only at hpq
        obtain ⟨F1, rfl⟩ : ∃ F1, F = F1 + 1 := ⟨F - 1, by omega⟩
        rw [show (x :: l2).length = l2.length + 1 from rfl, parseElems_succ_eq]
        rcases List.append_eq_append_iff.mp hpq with ⟨a, ha1, ha2⟩ | ⟨c, hc1, hc2⟩
        · subst ha1
          obtain ⟨dict2, hok, hI2⟩ := (rt_all (jsizeV x)).1 x m used dict F1 a
            le_rfl hw.1 hM hI (by omega)
          rw [hok]
          dsimp only
          rw [ihL l2 m (encCF (jsizeV x) x m used).2 dict2 F1 a q (by omega)
            hw.2 hM hI2 (by omega) ha2 hq]
        · cases c with
          | nil =>
            rw [List.append_nil] at hc1
            rw [List.nil_append] at hc2
            subst hc1
            obtain ⟨dict2, hok, hI2⟩ := (rt_all (jsizeV x)).1 x m used dict F1 []
              le_rfl hw.1 hM hI (by omega)
            rw [List.append_nil] at hok
            rw [hok]
            dsimp only
            rw [ihL l2 m (encCF (jsizeV x) x m used).2 dict2 F1 [] q (by omega)
              hw.2 hM hI2 (by omega) (by rw [List.nil_append, hc2]) hq]
          | cons c0 c2 =>
            rw [ihV x m used dict F1 p (c0 :: c2) (by omega) hw.1 hM hI (by omega)
              hc1 (by simp)]
    have stepP : ∀ l m used dict F p q, jsizeP l ≤ n + 1 → wfBP l = true → MapOK m →
        Inv m used dict → 2 * jsizeP l + 1 ≤ F →
        (encPairsF (jsizeP l) l m used).1 = p ++ q → q ≠ [] →
        parsePairs F dict (l.map Prod.fst) p = .err .unexpectedEnd := by
      intro l m used dict F p q hn hw hM hI hF hpq hq
      match l with
      | [] =>
        have he : (encPairsF (jsizeP ([] : List (List Nat × JSON)))
            ([] : List (List Nat × JSON)) m used).1 = [] := rfl
        rw [he] at hpq
        rcases List.append_eq_nil.mp hpq.symm with ⟨-, rfl⟩
        exact absurd rfl hq
      | (k, v) :: l2 =>
        have hx := jsizeV_pos v
        simp only [wfBP, Bool.and_eq_true] at hw
        simp only [jsizeP] at hn hF
        have hjz : jsizeP ((k, v) :: l2) = (jsizeV v + jsizeP l2) + 1 := by
          simp only [jsizeP]; omega
        rw [hjz, encPairsF_cons] at hpq
        rw [(encCF_irrel (jsizeV v)).1 v m used (jsizeV v + jsizeP l2) (jsizeV v)
          le_rfl (by omega) le_rfl] at hpq
        rw [(encCF_irrel (jsizeP l2)).2.2 l2 m (encCF (jsizeV v) v m used).2
          (jsizeV v + jsizeP l2) (jsizeP l2) le_rfl (by omega) le_rfl] at hpq
        dsimp only at hpq
        obtain ⟨F1, rfl⟩ : ∃ F1, F = F1 + 1 := ⟨F - 1, by omega⟩
        rw [show ((k, v) :: l2).map Prod.fst = k :: l2.map Prod.fst from rfl,
          parsePairs_cons_eq]
        rcases List.append_eq_append_iff.mp hpq with ⟨a, ha1, ha2⟩ | ⟨c, hc1, hc2⟩
        · subst ha1
          obtain ⟨dict2, hok, hI2⟩ := (rt_all (jsizeV v)).1 v m used dict F1 a
            le_rfl hw.1 hM hI (by omega)
          rw [hok]
          dsimp only
          rw [ihP l2 m (encCF (jsizeV v) v m used).2 dict2 F1 a q (by omega)
            hw.2 hM hI2 (by omega) ha2 hq]
        · cases c with
          | nil =>
            rw [List.append_nil] at hc1
            rw [List.nil_append] at hc2
            subst hc1
            obtain ⟨dict2, hok, hI2⟩ := (rt_all (jsizeV v)).1 v m used dict F1 []
              le_rfl hw.1 hM hI (by omega)
            rw [List.append_nil] at hok
            rw [hok]
            dsimp only
            rw [ihP l2 m (encCF (jsizeV v) v m used).2 dict2 F1 [] q (by omega)
              hw.2 hM hI2 (by omega) (by rw [List.nil_append, hc2]) hq]
          | cons c0 c2 =>
            rw [ihV v m used dict F1 p (c0 :: c2) (by omega) hw.1 hM hI (by omega)
              hc1 (by simp)]
    refine ⟨?_, stepL, stepP⟩
    intro v m used dict F p q hn hwf hM hI hF hpq hq
    have hv1 := jsizeV_pos v
    obtain ⟨F1, rfl⟩ : ∃ F1, F = F1 + 1 := ⟨F - 1, by omega⟩
    match v with
    | .nil =>
      have he : (encCF (jsizeV JSON.nil) JSON.nil m used).1 =
          [CondensedInfo.NIL] := rfl
      rw [he] at hpq
      rw [prefix_of_singleton hpq hq]
      rfl
    | .bool b =>
      cases b
      · have he : (encCF (jsizeV (JSON.bool false)) (JSON.bool false) m used).1 =
            [CondensedInfo.FALSE] := rfl
        rw [he] at hpq
        rw [prefix_of_singleton hpq hq]
        rfl
      · have he : (encCF (jsizeV (JSON.bool true)) (JSON.bool true) m used).1 =
            [CondensedInfo.TRUE] := rfl
        rw [he] at hpq
        rw [prefix_of_singleton hpq hq]
        rfl
    | .int i =>
      have he : (encCF (jsizeV (JSON.int i)) (JSON.int i) m used).1 =
          encInt i := rfl
      rw [he] at hpq
      exact encInt_trunc i F1 dict p q hpq hq
    | .double bits hint => simp [wfB] at hwf
    | .str str =>
      simp only [wfB, Bool.and_eq_true] at hwf
      have he : (encCF (jsizeV (JSON.str str)) (JSON.str str) m used).1 =
          encStr str := rfl
      rw [he] at hpq
      exact encStr_trunc str hwf.1 F1 dict p q hpq hq
    | .arr elems =>
      simp only [wfB, Bool.and_eq_true, decide_eq_true_eq] at hwf
      obtain ⟨hlen13, hwl⟩ := hwf
      simp only [jsizeV] at hn hF
      rw [show jsizeV (JSON.arr elems) = jsizeL elems + 1 from by
        simp only [jsizeV]; omega] at hpq
      rw [encCF_arr_short (jsizeL elems) elems m used
        (by simp only [CondensedInfo.MAX_SHORT_ARRAY_SIZE]; omega)] at hpq
      dsimp only at hpq
      rw [or_short_array (show elems.length < 16 by omega)] at hpq
      rcases prefix_of_cons hpq with rfl | ⟨p2, rfl, hbody⟩
      · rfl
      · rw [parseC_step_sarr (by omega) (by omega), and15_add32 (by omega)]
        rw [stepL elems m used dict F1 p2 q (by omega) hwl hM hI (by omega)
          hbody hq]
    | .obj entries =>
      simp only [wfB, Bool.and_eq_true] at hwf
      obtain ⟨⟨hdk, hkv⟩, hwp⟩ := hwf
      simp only [jsizeV] at hn hF
      rw [show jsizeV (JSON.obj entries) = jsizeP entries + 1 from by
        simp only [jsizeV]; omega] at hpq
      by_cases hemp : entries.isEmpty
      · have he : entries = [] := by
          cases entries with
          | nil => rfl
          | cons a b => simp [List.isEmpty] at hemp
        subst he
        have he2 : (encCF (jsizeP ([] : List (List Nat × JSON)) + 1)
            (JSON.obj []) m used).1 = [CondensedInfo.SMALL_UNIQUE_OBJECT] := rfl
        rw [he2] at hpq
        rw [prefix_of_singleton hpq hq]
        rfl
      · have hne : entries ≠ [] := by
          cases entries with
          | nil => exact absurd rfl hemp
          | cons a b => simp
        have hg : getDescriptor entries = some (descOf ((sortPairs entries).map Prod.fst)) :=
          getDescriptor_of_valid entries hkv
        have hksv : ((sortPairs entries).map Prod.fst).all keyValid = true := sortPairs_keys_valid hkv
        have hwps : wfBP (sortPairs entries) = true := wfBP_sortPairs hwp
        have hkslen : ((sortPairs entries).map Prod.fst).length = entries.length := by
          rw [List.length_map, sortPairs_length]
        have hfuelP : jsizeP (sortPairs entries) = jsizeP entries := jsizeP_sortPairs entries
        cases hmc : mlookup m (descOf ((sortPairs entries).map Prod.fst)) with
        | some idx =>
          have hidx : idx ≤ 4 := hM.1 _ idx hmc
          rw [encCF_obj_mapped_gen (jsizeP entries) entries m used (descOf ((sortPairs entries).map Prod.fst)) idx
            hne hg hmc] at hpq
          dsimp only at hpq
          rw [show encPairsF (jsizeP entries) (sortPairs entries) m
              (if (descOf ((sortPairs entries).map Prod.fst)) ∈ used then used else (descOf ((sortPairs entries).map Prod.fst)) :: used) =
            encPairsF (jsizeP (sortPairs entries)) (sortPairs entries) m
              (if (descOf ((sortPairs entries).map Prod.fst)) ∈ used then used else (descOf ((sortPairs entries).map Prod.fst)) :: used) from by
            rw [hfuelP]] at hpq
          rw [show idRef idx = [CondensedInfo.COMMON_OBJECT ||| idx] from by
            unfold idRef
            rw [if_pos (show idx ≤ CondensedInfo.MAX_COMMON_OBJECT_ID by
              simp only [CondensedInfo.MAX_COMMON_OBJECT_ID]; omega)]] at hpq
          rw [or_common (by omega)] at hpq
          obtain ⟨F2, rfl⟩ : ∃ F2, F1 = F2 + 1 := ⟨F1 - 1, by omega⟩
          by_cases hu : (descOf ((sortPairs entries).map Prod.fst)) ∈ used
          · rw [if_pos hu, if_pos hu] at hpq
            rw [List.append_nil, List.singleton_append] at hpq
            rcases prefix_of_cons hpq with rfl | ⟨p2, rfl, hbody⟩
            · rfl
            · rw [parseC_step_common (by omega) (by omega), and7_add56 hidx,
                parseObjTag_succ_eq]
              obtain ⟨i0, ks0, hm0, hg0, hdesc0, hval0⟩ := hI.1 _ hu
              have hieq : i0 = idx := by
                rw [hm0] at hmc
                injection hmc
              subst hieq
              have hks0 : ks0 = ((sortPairs entries).map Prod.fst) := descOf_inj hval0 hksv hdesc0
              subst hks0
              rw [show dictGet (dictGrow dict (i0 + 1)) i0 = some ((sortPairs entries).map Prod.fst) from by
                rw [dictGet_grow]; exact hg0]
              dsimp only
              rw [stepP (sortPairs entries) m used (dictGrow dict (i0 + 1)) F2 p2 q (by omega)
                hwps hM (Inv_grow hI (i0 + 1)) (by omega) hbody hq]
          · rw [if_neg hu, if_neg hu] at hpq
            rw [List.singleton_append] at hpq
            simp only [CondensedInfo.TERMINATOR, List.cons_append,
              List.append_assoc, List.nil_append] at hpq
            rcases prefix_of_cons hpq with rfl | ⟨p2, rfl, hbody⟩
            · rfl
            · rw [parseC_step_common (by omega) (by omega), and7_add56 hidx,
                parseObjTag_succ_eq]
              have hlenD : idx < (dictGrow dict (idx + 1)).length := by
                have := dictGrow_length_ge dict (idx + 1)
                omega
              have hnone : dictGet (dictGrow dict (idx + 1)) idx = none := by
                cases hg2 : dictGet (dictGrow dict (idx + 1)) idx with
                | none => rfl
                | some ks0 =>
                  rw [dictGet_grow] at hg2
                  obtain ⟨hmem, hml⟩ := hI.2 idx ks0 hg2
                  have hde : descOf ks0 = (descOf ((sortPairs entries).map Prod.fst)) := hM.2 _ _ _ hml hmc
                  rw [hde] at hmem
                  exact absurd hmem hu
              rw [hnone]
              dsimp only
              have hInv2 : Inv m ((descOf ((sortPairs entries).map Prod.fst)) :: used)
                  (dictSet (dictGrow dict (idx + 1)) idx ((sortPairs entries).map Prod.fst)) := by
                constructor
                · intro d0 hd0
                  rcases List.mem_cons.mp hd0 with rfl | hd0
                  · exact ⟨idx, ((sortPairs entries).map Prod.fst), hmc,
                      by rw [dictGet_set_self _ _ _ hlenD], rfl, hksv⟩
                  · obtain ⟨i0, ks0, hm0, hg0, hdesc0, hval0⟩ := hI.1 d0 hd0
                    have hne0 : idx ≠ i0 := by
                      intro he
                      subst he
                      have hdd0 : d0 = (descOf ((sortPairs entries).map Prod.fst)) := hM.2 _ _ _ hm0 hmc
                      subst hdd0
                      exact hu hd0
                    exact ⟨i0, ks0, hm0,
                      by rw [dictGet_set_ne _ _ _ _ hne0, dictGet_grow]; exact hg0,
                      hdesc0, hval0⟩
                · intro i0 ks0 hg0
                  by_cases hi0 : idx = i0
                  · subst hi0
                    rw [dictGet_set_self _ _ _ hlenD] at hg0
                    have hks0 : ((sortPairs entries).map Prod.fst) = ks0 := by
                      injection hg0
                    subst hks0
                    exact ⟨List.mem_cons_self _ _, hmc⟩
                  · rw [dictGet_set_ne _ _ _ _ hi0, dictGet_grow] at hg0
                    obtain ⟨hmem0, hml0⟩ := hI.2 i0 ks0 hg0
                    exact ⟨List.mem_cons_of_mem _ hmem0, hml0⟩
              have hbody2 : ((descOf ((sortPairs entries).map Prod.fst)) ++ [(0:Nat)]) ++
                  (encPairsF (jsizeP (sortPairs entries)) (sortPairs entries) m ((descOf ((sortPairs entries).map Prod.fst)) :: used)).1 = p2 ++ q := by
                simp only [List.append_assoc, List.cons_append, List.nil_append]
                exact hbody
              rcases List.append_eq_append_iff.mp hbody2 with ⟨a, ha1, ha2⟩ | ⟨c, hc1, hc2⟩
              · -- p2 extends past the inline definition
                subst ha1
                have hkl := readKeyList_desc ((sortPairs entries).map Prod.fst) hksv a
                rw [hkl]
                dsimp only
                rw [stepP (sortPairs entries) m ((descOf ((sortPairs entries).map Prod.fst)) :: used)
                  (dictSet (dictGrow dict (idx + 1)) idx ((sortPairs entries).map Prod.fst)) F2 a q (by omega)
                  hwps hM hInv2 (by omega) ha2 hq]
              · cases c with
                | nil =>
                  rw [List.append_nil] at hc1
                  rw [List.nil_append] at hc2
                  subst hc1
                  have hkl := readKeyList_desc ((sortPairs entries).map Prod.fst) hksv []
                  rw [List.append_nil] at hkl
                  rw [hkl]
                  dsimp only
                  rw [stepP (sortPairs entries) m ((descOf ((sortPairs entries).map Prod.fst)) :: used)
                    (dictSet (dictGrow dict (idx + 1)) idx ((sortPairs entries).map Prod.fst)) F2 [] q (by omega)
                    hwps hM hInv2 (by omega) (by rw [List.nil_append, hc2]) hq]
                | cons c0 c2 =>
                  have htr : readKeyList p2 = none := by
                    unfold readKeyList
                    exact readKeyListF_trunc ((sortPairs entries).map Prod.fst) hksv p2 (c0 :: c2) hc1.symm
                      (by simp) (p2.length + 1)
                  rw [htr]
        | none =>
          by_cases hlen6 : entries.length < CondensedInfo.MAX_SMALL_UNIQUE_OBJECT_SIZE
          · rw [encCF_obj_unmapped_small (jsizeP entries) entries m used (descOf ((sortPairs entries).map Prod.fst))
              hne hg hmc hlen6] at hpq
            dsimp only at hpq
            rw [show encPairsF (jsizeP entries) (sortPairs entries) m used =
              encPairsF (jsizeP (sortPairs entries)) (sortPairs entries) m used from by rw [hfuelP]] at hpq
            simp only [CondensedInfo.MAX_SMALL_UNIQUE_OBJECT_SIZE] at hlen6
            rw [or_small_unique (by omega)] at hpq
            rcases prefix_of_cons hpq with rfl | ⟨p2, rfl, hbody⟩
            · rfl
            · rw [parseC_step_small (by omega) (by omega), and7_add48 (by omega)]
              rcases List.append_eq_append_iff.mp hbody with ⟨a, ha1, ha2⟩ | ⟨c, hc1, hc2⟩
              · subst ha1
                have hnk := readNKeys_desc ((sortPairs entries).map Prod.fst) hksv a
                rw [hkslen] at hnk
                rw [hnk]
                dsimp only
                rw [stepP (sortPairs entries) m used dict F1 a q (by omega) hwps hM hI
                  (by omega) ha2 hq]
              · cases c with
                | nil =>
                  rw [List.append_nil] at hc1
                  rw [List.nil_append] at hc2
                  subst hc1
                  have hnk := readNKeys_desc ((sortPairs entries).map Prod.fst) hksv []
                  rw [List.append_nil, hkslen] at hnk
                  rw [hnk]
                  dsimp only
                  rw [stepP (sortPairs entries) m used dict F1 [] q (by omega) hwps hM hI
                    (by omega) (by rw [List.nil_append, hc2]) hq]
                | cons c0 c2 =>
                  have htr := readNKeys_trunc ((sortPairs entries).map Prod.fst) hksv p2 (c0 :: c2) hc1.symm
                    (by simp)
                  rw [hkslen] at htr
                  rw [htr]
          · rw [encCF_obj_unmapped_large (jsizeP entries) entries m used (descOf ((sortPairs entries).map Prod.fst))
              hne hg hmc hlen6] at hpq
            dsimp only at hpq
            rw [show encPairsF (jsizeP entries) (sortPairs entries) m used =
              encPairsF (jsizeP (sortPairs entries)) (sortPairs entries) m used from by rw [hfuelP]] at hpq
            simp only [CondensedInfo.TERMINATOR] at hpq
            rcases prefix_of_cons hpq with rfl | ⟨p2, rfl, hbody⟩
            · rfl
            · rw [parseC_step_large]
              rcases List.append_eq_append_iff.mp hbody with ⟨a, ha1, ha2⟩ | ⟨c, hc1, hc2⟩
              · subst ha1
                have hkl := readKeyList_desc ((sortPairs entries).map Prod.fst) hksv a
                rw [hkl]
                dsimp only
                rw [stepP (sortPairs entries) m used dict F1 a q (by omega) hwps hM hI
                  (by omega) ha2 hq]
              · cases c with
                | nil =>
                  rw [List.append_nil] at hc1
                  rw [List.nil_append] at hc2
                  subst hc1
                  have hkl := readKeyList_desc ((sortPairs entries).map Prod.fst) hksv []
                  rw [List.append_nil] at hkl
                  rw [hkl]
                  dsimp only
                  rw [stepP (sortPairs entries) m used dict F1 [] q (by omega) hwps hM hI
                    (by omega) (by rw [List.nil_append, hc2]) hq]
                | cons c0 c2 =>
                  have htr : readKeyList p2 = none := by
                    unfold readKeyList
                    exact readKeyListF_trunc ((sortPairs entries).map Prod.fst) hksv p2 (c0 :: c2) hc1.symm
                      (by simp) (p2.length + 1)
                  rw [htr]


/-- C8: truncated binary input fails.  For every proper prefix `p` of a valid
condensed encoding (the encoding of a value in the round-trip class `wfB`,
with the generated object mapping in the common-id range), `parseCondensed`
throws the unexpected-end error — in the model, the public overload returns
`.err .unexpectedEnd`, never a value; determinism in the input holds by
construction, the decoder being a function of the byte vector. -/
theorem c8_truncated_input_fails (v : JSON) (hwf : wfB v = true)
    (hsmall : mapSmall (generateObjectMapping v) = true)
    (p q : List Nat) (hpq : condensed v = p ++ q) (hq : q ≠ []) :
    parseCondensedTop p = .err .unexpectedEnd := by
  have hM := mapOK_of_small v hsmall
  have hI := Inv_empty (generateObjectMapping v)
  have herr := (trunc_all (jsizeV v)).1 v (generateObjectMapping v) [] []
    (2 * jsizeV v + 1) p q le_rfl hwf hM hI le_rfl hpq hq
  have hne : parseC (2 * jsizeV v + 1) [] p ≠ PRes.out := by
    rw [herr]
    intro hc
    exact PRes.noConfusion hc
  unfold parseCondensedTop
  rcases le_or_lt (2 * jsizeV v + 1) (3 * p.length + 4) with hle | hlt
  · rw [parseC_mono_ge hle [] p hne]
    exact herr
  · have hne2 : parseC (3 * p.length + 4) [] p ≠ PRes.out :=
      (parse_total _).1 [] p (by omega)
    have hmg := parseC_mono_ge (le_of_lt hlt) [] p hne2
    rw [← hmg]
    exact herr

/-- Closed instance of C8: the encoding of the one-entry object {"k": 1} is
0x31 0xEB 0x41; cutting it after two bytes (inside the value list) and after
zero bytes (the empty vector) both yield the unexpected-end error. -/
theorem c8_truncated_input_fails_witness :
    wfB (.obj [([107], .int 1)]) = true ∧
    mapSmall (generateObjectMapping (.obj [([107], .int 1)])) = true ∧
    condensed (.obj [([107], .int 1)]) = [0x31, 0xEB] ++ [0x41] ∧
    condensed (.obj [([107], .int 1)]) = [] ++ [0x31, 0xEB, 0x41] ∧
    parseCondensedTop [0x31, 0xEB] = .err .unexpectedEnd ∧
    parseCondensedTop [] = .err .unexpectedEnd :=
  ⟨rfl, rfl, rfl, rfl,
    c8_truncated_input_fails (.obj [([107], .int 1)]) rfl rfl [0x31, 0xEB] [0x41]
      rfl (by simp),
    c8_truncated_input_fails (.obj [([107], .int 1)]) rfl rfl [] [0x31, 0xEB, 0x41]
      rfl (by simp)⟩


/-- C8 counterexample: the claim fails without a restriction on the encoded
value.  A 30-byte string starting with 0x00 is encoded in the LONG_STRING
form 0x7F <bytes> 0x00; the 2-byte PROPER prefix 0x7F 0x00 of that valid
encoding does not raise unexpected-end: the interior NUL is taken for the
terminator and the prefix parses successfully to the empty string. -/
theorem c8_prefix_parses_counterexample :
    condensed (.str (0 :: List.replicate 29 65)) =
      [0x7f, 0] ++ (List.replicate 29 65 ++ [0]) ∧
    (List.replicate 29 65 ++ [(0 : Nat)]) ≠ [] ∧
    parseCondensedTop [0x7f, 0] = .ok (.str [], [], []) :=
  ⟨rfl, by simp, rfl⟩


/-! ## Claim C4: shape deduplication, globally over the whole encoder -/

/-- Count lookup in the `addToObjectList` accumulator (`list[d]`, a missing
key reading as 0). -/
def clookup (acc : List (List Nat × Nat)) (d : List Nat) : Nat :=
  match acc with
  | [] => 0
  | (d2, c) :: rest => if d2 = d then c else clookup rest d

mutual

/-- Number of objects inside a value whose shape descriptor is `d`: the
nonempty objects with a valid descriptor equal to `d`, counted through the
same traversal as `addToObjectList` (empty objects return without recursing,
as the source does). -/
def shapeCount (d : List Nat) : JSON → Nat
  | .obj entries =>
    if entries.isEmpty then 0
    else
      (match getDescriptor entries with
       | some d2 => if d2 = d then 1 else 0
       | none => 0) + shapeCountPairs d entries
  | .arr elems => shapeCountElems d elems
  | _ => 0

/-- Occurrence count over an array's elements. -/
def shapeCountElems (d : List Nat) : List JSON → Nat
  | [] => 0
  | x :: rest => shapeCount d x + shapeCountElems d rest

/-- Occurrence count over an object's values. -/
def shapeCountPairs (d : List Nat) : List (List Nat × JSON) → Nat
  | [] => 0
  | (_, v) :: rest => shapeCount d v + shapeCountPairs d rest

end

theorem clookup_bumpCount_self (d : List Nat) :
    ∀ acc, clookup (bumpCount d acc) d = clookup acc d + 1 := by
  intro acc
  induction acc with
  | nil => simp [bumpCount, clookup]
  | cons p rest ih =>
    cases p with
    | mk d2 c =>
      by_cases h : d2 = d
      · subst h
        simp [bumpCount, clookup]
      · simp only [bumpCount, if_neg h, clookup, ih]

theorem clookup_bumpCount_ne (d d2 : List Nat) (hne : d ≠ d2) :
    ∀ acc, clookup (bumpCount d acc) d2 = clookup acc d2 := by
  intro acc
  induction acc with
  | nil => simp [bumpCount, clookup, if_neg hne]
  | cons p rest ih =>
    cases p with
    | mk d3 c =>
      by_cases h : d3 = d
      · subst h
        simp only [bumpCount, if_pos rfl, clookup]
        rw [if_neg hne, if_neg hne]
      · simp only [bumpCount, if_neg h, clookup, ih]

/-- `addToObjectList` adds to each descriptor's count exactly the number of
occurrences of that shape in the walked value. -/
theorem clookup_addToObjectList (d : List Nat) : ∀ n : Nat,
    (∀ v acc, jsizeV v ≤ n →
      clookup (addToObjectList v acc) d = clookup acc d + shapeCount d v) ∧
    (∀ l acc, jsizeL l ≤ n →
      clookup (addToObjectListElems l acc) d = clookup acc d + shapeCountElems d l) ∧
    (∀ l acc, jsizeP l ≤ n →
      clookup (addToObjectListPairs l acc) d = clookup acc d + shapeCountPairs d l) := by
  intro n
  induction n with
  | zero =>
    refine ⟨?_, ?_, ?_⟩
    · intro v acc hn; have := jsizeV_pos v; omega
    · intro l acc hn
      obtain rfl := jsizeL_eq_zero (show jsizeL l = 0 by omega)
      simp [addToObjectListElems, shapeCountElems]
    · intro l acc hn
      obtain rfl := jsizeP_eq_zero (show jsizeP l = 0 by omega)
      simp [addToObjectListPairs, shapeCountPairs]
  | succ n ih =>
    obtain ⟨ihV, ihL, ihP⟩ := ih
    refine ⟨?_, ?_, ?_⟩
    · intro v acc hn
      match v with
      | .nil => simp [addToObjectList, shapeCount]
      | .bool b => simp [addToObjectList, shapeCount]
      | .int i => simp [addToObjectList, shapeCount]
      | .double bits hint => simp [addToObjectList, shapeCount]
      | .str str => simp [addToObjectList, shapeCount]
      | .arr elems =>
        simp only [jsizeV] at hn
        have h1 : addToObjectList (.arr elems) acc = addToObjectListElems elems acc := rfl
        have h2 : shapeCount d (.arr elems) = shapeCountElems d elems := rfl
        rw [h1, h2]
        exact ihL elems acc (by omega)
      | .obj entries =>
        simp only [jsizeV] at hn
        have h1 : addToObjectList (.obj entries) acc =
            if entries.isEmpty then acc
            else addToObjectListPairs entries
              (match getDescriptor entries with
               | some d2 => bumpCount d2 acc
               | none => acc) := rfl
        have h2 : shapeCount d (.obj entries) =
            if entries.isEmpty then 0
            else
              (match getDescriptor entries with
               | some d2 => if d2 = d then 1 else 0
               | none => 0) + shapeCountPairs d entries := rfl
        rw [h1, h2]
        by_cases hemp : entries.isEmpty
        · rw [if_pos hemp, if_pos hemp]
          omega
        · rw [if_neg hemp, if_neg hemp]
          cases hg : getDescriptor entries with
          | none =>
            dsimp only
            rw [ihP entries acc (by omega)]
            omega
          | some d2 =>
            dsimp only
            rw [ihP entries (bumpCount d2 acc) (by omega)]
            by_cases hd2 : d2 = d
            · subst hd2
              rw [if_pos rfl, clookup_bumpCount_self]
              omega
            · rw [if_neg hd2, clookup_bumpCount_ne d2 d hd2]
              omega
    · intro l acc hn
      match l with
      | [] => simp [addToObjectListElems, shapeCountElems]
      | x :: rest =>
        simp only [jsizeL] at hn
        have h1 : addToObjectListElems (x :: rest) acc =
            addToObjectListElems rest (addToObjectList x acc) := rfl
        have h2 : shapeCountElems d (x :: rest) =
            shapeCount d x + shapeCountElems d rest := rfl
        rw [h1, h2, ihL rest (addToObjectList x acc) (by omega), ihV x acc (by omega)]
        omega
    · intro l acc hn
      match l with
      | [] => simp [addToObjectListPairs, shapeCountPairs]
      | (k, v) :: rest =>
        simp only [jsizeP] at hn
        have h1 : addToObjectListPairs ((k, v) :: rest) acc =
            addToObjectListPairs rest (addToObjectList v acc) := rfl
        have h2 : shapeCountPairs d ((k, v) :: rest) =
            shapeCount d v + shapeCountPairs d rest := rfl
        rw [h1, h2, ihP rest (addToObjectList v acc) (by omega), ihV v acc (by omega)]
        omega

theorem clookup_mem : ∀ (acc : List (List Nat × Nat)) (d : List Nat),
    1 ≤ clookup acc d → (d, clookup acc d) ∈ acc := by
  intro acc
  induction acc with
  | nil => intro d h; simp [clookup] at h
  | cons p rest ih =>
    intro d h
    cases p with
    | mk d2 c =>
      by_cases he : d2 = d
      · subst he
        simp only [clookup, if_pos rfl] at h ⊢
        exact List.mem_cons_self _ _
      · simp only [clookup, if_neg he] at h ⊢
        exact List.mem_cons_of_mem _ (ih d h)

theorem pairwise_insertBy_desc (p : List Nat × Nat) :
    ∀ l : List (List Nat × Nat), List.Pairwise (fun a b => b.2 ≤ a.2) l →
      List.Pairwise (fun a b => b.2 ≤ a.2)
        (insertBy (fun a b => decide (b.2 < a.2)) p l) := by
  intro l
  induction l with
  | nil =>
    intro _
    simp [insertBy]
  | cons x rest ih =>
    intro hp
    rw [List.pairwise_cons] at hp
    obtain ⟨hx, hrest⟩ := hp
    simp only [insertBy]
    by_cases hc : decide (x.2 < p.2) = true
    · rw [if_pos hc]
      simp only [decide_eq_true_eq] at hc
      refine List.Pairwise.cons ?_ (List.Pairwise.cons hx hrest)
      intro b hb
      rcases List.mem_cons.mp hb with rfl | hb2
      · omega
      · have := hx b hb2
        omega
    · rw [if_neg hc]
      simp only [decide_eq_true_eq, not_lt] at hc
      refine List.Pairwise.cons ?_ (ih hrest)
      intro b hb
      have hmem := (perm_insertBy _ p rest).mem_iff.mp hb
      rcases List.mem_cons.mp hmem with rfl | hb2
      · exact hc
      · exact hx b hb2

theorem pairwise_sortBy_desc : ∀ l : List (List Nat × Nat),
    List.Pairwise (fun a b => b.2 ≤ a.2)
      (sortBy (fun a b => decide (b.2 < a.2)) l) := by
  intro l
  induction l with
  | nil => exact List.Pairwise.nil
  | cons p rest ih =>
    simp only [sortBy]
    exact pairwise_insertBy_desc p _ ih

/-- The id-assignment loop finds every repeated shape, as long as the sorted
count list respects the source's cap (`i > 0xffff + MAX_UNCOMMON_OBJECT_ID`
breaks the loop). -/
theorem assignIds_mem_of_sorted : ∀ (l : List (List Nat × Nat)) (j : Nat),
    List.Pairwise (fun a b => b.2 ≤ a.2) l →
    j + l.length ≤ 65797 →
    ∀ d c, (d, c) ∈ l → 2 ≤ c → ∃ i, mlookup (assignIds l j) d = some i := by
  intro l
  induction l with
  | nil =>
    intro j _ _ d c hmem _
    exact absurd hmem (List.not_mem_nil _)
  | cons p rest ih =>
    intro j hs hcap d c hmem hc
    cases p with
    | mk d0 c0 =>
      rw [List.pairwise_cons] at hs
      obtain ⟨hall, hrest⟩ := hs
      have hc0 : 2 ≤ c0 := by
        rcases List.mem_cons.mp hmem with heq | hmem2
        · have : c = c0 := (Prod.mk.injEq .. ▸ heq).2
          omega
        · have := hall (d, c) hmem2
          simp only at this
          omega
      simp only [List.length_cons] at hcap
      have h1 : assignIds ((d0, c0) :: rest) j = (d0, j) :: assignIds rest (j + 1) := by
        simp only [assignIds]
        rw [if_neg (by omega), if_neg (by omega)]
      rw [h1]
      by_cases hd : d0 = d
      · exact ⟨j, by simp [mlookup, hd]⟩
      · have hmem2 : (d, c) ∈ rest := by
          rcases List.mem_cons.mp hmem with heq | hmem2
          · exact absurd ((Prod.mk.injEq .. ▸ heq).1).symm hd
          · exact hmem2
        obtain ⟨i, hi⟩ := ih (j + 1) hrest (by omega) d c hmem2 hc
        exact ⟨i, by simp only [mlookup, if_neg hd]; exact hi⟩

/-- A shape occurring at least twice is assigned an id by
`generateObjectMapping` (under the source's batching cap). -/
theorem mapped_of_repeated (v : JSON) (d : List Nat)
    (h2 : 2 ≤ shapeCount d v)
    (hcap : (addToObjectList v []).length ≤ 65797) :
    ∃ idx, mlookup (generateObjectMapping v) d = some idx := by
  have hcl : clookup (addToObjectList v []) d = shapeCount d v := by
    have h := (clookup_addToObjectList d (jsizeV v)).1 v [] le_rfl
    simpa [clookup] using h
  have hmem : (d, clookup (addToObjectList v []) d) ∈ addToObjectList v [] :=
    clookup_mem _ d (by omega)
  have hgen : generateObjectMapping v =
      assignIds (sortBy (fun p q => decide (q.2 < p.2)) (addToObjectList v [])) 0 := rfl
  rw [hgen]
  have hperm := perm_sortBy (fun p q => decide (q.2 < p.2)) (addToObjectList v [])
  refine assignIds_mem_of_sorted _ 0 (pairwise_sortBy_desc _) ?_ d
    (clookup (addToObjectList v []) d) (hperm.mem_iff.mpr hmem) (by omega)
  rw [hperm.length_eq]
  simpa using hcap


/-- The hashtable branch of `JSONobject::writeCondensed`, as a pair equation
(companion to `encCF_obj_mapped_gen` and the unmapped lemmas). -/
theorem encCF_obj_hash (f : Nat) (entries : List (List Nat × JSON))
    (m : List (List Nat × Nat)) (u : List (List Nat))
    (hne : entries ≠ []) (hg : getDescriptor entries = none) :
    encCF (f + 1) (.obj entries) m u =
      (CondensedInfo.HASHTABLE ::
        ((entries.filter (fun kv => !kv.1.isEmpty)).flatMap
            (fun kv => kv.1 ++ [CondensedInfo.TERMINATOR]) ++
          (if (entries.filter (fun kv => kv.1.isEmpty)).isEmpty then []
           else [CondensedInfo.TERMINATOR]) ++
          [CondensedInfo.TERMINATOR] ++ (encPairsF f (hashOrder entries) m u).1),
       (encPairsF f (hashOrder entries) m u).2) := by
  match entries, hne with
  | x :: xs, _ =>
    simp only [encCF, List.isEmpty_cons, Bool.false_eq_true, if_false]
    rw [hg]

/-- The empty-object branch of the encoder: one tag byte, no state change. -/
theorem encCF_obj_empty (f : Nat) (m : List (List Nat × Nat)) (u : List (List Nat)) :
    encCF (f + 1) (.obj []) m u = ([CondensedInfo.SMALL_UNIQUE_OBJECT], u) := rfl

/-- The encoder's `used` set only grows (the source never clears the `used`
flag of an `ObjectMapEntry`). -/
theorem encCF_used_mono : ∀ f : Nat,
    (∀ v m used, ∀ e ∈ used, e ∈ (encCF f v m used).2) ∧
    (∀ l m used, ∀ e ∈ used, e ∈ (encElemsF f l m used).2) ∧
    (∀ l m used, ∀ e ∈ used, e ∈ (encPairsF f l m used).2) := by
  intro f
  induction f with
  | zero =>
    exact ⟨fun v m used e he => he, fun l m used e he => he,
      fun l m used e he => he⟩
  | succ f ih =>
    obtain ⟨ihV, ihL, ihP⟩ := ih
    refine ⟨?_, ?_, ?_⟩
    · intro v m used e he
      match v with
      | .nil => exact he
      | .bool b => cases b <;> exact he
      | .int i => exact he
      | .double bits hint => exact he
      | .str str => exact he
      | .arr elems =>
        by_cases hlen : elems.length < CondensedInfo.MAX_SHORT_ARRAY_SIZE
        · have h2 : (encCF (f + 1) (.arr elems) m used).2 =
              (encElemsF f elems m used).2 := by
            simp only [encCF]
            rw [if_pos hlen]
          rw [h2]
          exact ihL elems m used e he
        · have h2 : (encCF (f + 1) (.arr elems) m used).2 =
              (encElemsF f elems m used).2 := by
            simp only [encCF]
            rw [if_neg hlen]
          rw [h2]
          exact ihL elems m used e he
      | .obj entries =>
        by_cases hemp : entries.isEmpty
        · have he2 : entries = [] := by
            cases entries with
            | nil => rfl
            | cons a b => simp [List.isEmpty] at hemp
          subst he2
          rw [encCF_obj_empty]
          exact he
        · have hne : entries ≠ [] := by
            cases entries with
            | nil => exact absurd rfl hemp
            | cons a b => simp
          cases hg : getDescriptor entries with
          | none =>
            rw [encCF_obj_hash f entries m used hne hg]
            exact ihP _ m used e he
          | some dd =>
            cases hmc : mlookup m dd with
            | some idx =>
              rw [encCF_obj_mapped_gen f entries m used dd idx hne hg hmc]
              refine ihP _ m _ e ?_
              by_cases hu : dd ∈ used
              · rw [if_pos hu]; exact he
              · rw [if_neg hu]; exact List.mem_cons_of_mem _ he
            | none =>
              by_cases hlen : entries.length < CondensedInfo.MAX_SMALL_UNIQUE_OBJECT_SIZE
              · rw [encCF_obj_unmapped_small f entries m used dd hne hg hmc hlen]
                exact ihP _ m used e he
              · rw [encCF_obj_unmapped_large f entries m used dd hne hg hmc hlen]
                exact ihP _ m used e he
    · intro l m used e he
      match l with
      | [] => exact he
      | x :: rest =>
        rw [encElemsF_cons]
        exact ihL rest m _ e (ihV x m used e he)
    · intro l m used e he
      match l with
      | [] => exact he
      | (k, v) :: rest =>
        rw [encPairsF_cons]
        exact ihP rest m _ e (ihV v m used e he)

mutual

/-- Ghost instrumentation of `writeCondensed` for a fixed descriptor `d0`:
the number of times the run pushes the inline definition block of `d0`
(descriptor bytes followed by TERMINATOR) — i.e. how often the source takes
the `!mapping->second.used` branch for `d0` and sets the flag (part_001
lines 447-453).  The branch structure and the threading of the `used` set
mirror `encCF` byte for byte. -/
def defEmits (d0 : List Nat) (fuel : Nat) (v : JSON) (m : List (List Nat × Nat))
    (used : List (List Nat)) : Nat :=
  match fuel with
  | 0 => 0
  | f + 1 =>
    match v with
    | .arr elems => defEmitsL d0 f elems m used
    | .obj entries =>
      if entries.isEmpty then 0
      else
        match getDescriptor entries with
        | some d =>
          match mlookup m d with
          | some _ =>
            (if d = d0 ∧ d ∉ used ∧ d ≠ [] then 1 else 0) +
              defEmitsP d0 f (sortPairs entries) m
                (if d ∉ used then (if d ≠ [] then d :: used else used) else used)
          | none => defEmitsP d0 f (sortPairs entries) m used
        | none => defEmitsP d0 f (hashOrder entries) m used
    | _ => 0

/-- Emission count over an array's elements, threading the encoder state. -/
def defEmitsL (d0 : List Nat) (fuel : Nat) (l : List JSON)
    (m : List (List Nat × Nat)) (used : List (List Nat)) : Nat :=
  match fuel with
  | 0 => 0
  | f + 1 =>
    match l with
    | [] => 0
    | x :: rest =>
      defEmits d0 f x m used + defEmitsL d0 f rest m (encCF f x m used).2

/-- Emission count over an object's (ordered) values. -/
def defEmitsP (d0 : List Nat) (fuel : Nat) (l : List (List Nat × JSON))
    (m : List (List Nat × Nat)) (used : List (List Nat)) : Nat :=
  match fuel with
  | 0 => 0
  | f + 1 =>
    match l with
    | [] => 0
    | (_, v) :: rest =>
      defEmits d0 f v m used + defEmitsP d0 f rest m (encCF f v m used).2

end

/-- 0/1 indicator of membership in the `used` set. -/
def indUsed (d0 : List Nat) (used : List (List Nat)) : Nat :=
  if d0 ∈ used then 1 else 0

theorem defEmits_obj_mapped (d0 : List Nat) (f : Nat)
    (entries : List (List Nat × JSON)) (m : List (List Nat × Nat))
    (u : List (List Nat)) (dd : List Nat) (idx : Nat)
    (hne : entries ≠ []) (hg : getDescriptor entries = some dd)
    (hmc : mlookup m dd = some idx) :
    defEmits d0 (f + 1) (.obj entries) m u =
      (if dd = d0 ∧ dd ∉ u then 1 else 0) +
        defEmitsP d0 f (sortPairs entries) m (if dd ∈ u then u else dd :: u) := by
  have hdne : dd ≠ [] := getDescriptor_ne_nil hne hg
  match entries, hne with
  | x :: xs, _ =>
    simp only [defEmits, List.isEmpty_cons, Bool.false_eq_true, if_false]
    rw [hg]
    dsimp only
    rw [hmc]
    dsimp only
    congr 1
    · have hiff : (dd = d0 ∧ dd ∉ u ∧ dd ≠ []) ↔ (dd = d0 ∧ dd ∉ u) := by
        constructor
        · rintro ⟨a, b, -⟩
          exact ⟨a, b⟩
        · rintro ⟨a, b⟩
          exact ⟨a, b, hdne⟩
      rw [if_congr hiff rfl rfl]
    · congr 1
      by_cases hu : dd ∈ u
      · rw [if_neg (by simpa using hu), if_pos hu]
      · rw [if_pos hu, if_pos hdne, if_neg hu]

theorem defEmits_obj_unmapped (d0 : List Nat) (f : Nat)
    (entries : List (List Nat × JSON)) (m : List (List Nat × Nat))
    (u : List (List Nat)) (dd : List Nat)
    (hne : entries ≠ []) (hg : getDescriptor entries = some dd)
    (hmc : mlookup m dd = none) :
    defEmits d0 (f + 1) (.obj entries) m u =
      defEmitsP d0 f (sortPairs entries) m u := by
  match entries, hne with
  | x :: xs, _ =>
    simp only [defEmits, List.isEmpty_cons, Bool.false_eq_true, if_false]
    rw [hg]
    dsimp only
    rw [hmc]

theorem defEmits_obj_hash (d0 : List Nat) (f : Nat)
    (entries : List (List Nat × JSON)) (m : List (List Nat × Nat))
    (u : List (List Nat)) (hne : entries ≠ [])
    (hg : getDescriptor entries = none) :
    defEmits d0 (f + 1) (.obj entries) m u =
      defEmitsP d0 f (hashOrder entries) m u := by
  match entries, hne with
  | x :: xs, _ =>
    simp only [defEmits, List.isEmpty_cons, Bool.false_eq_true, if_false]
    rw [hg]

theorem indUsed_cons_ne (d0 dd : List Nat) (u : List (List Nat)) (h : dd ≠ d0) :
    indUsed d0 (dd :: u) = indUsed d0 u := by
  unfold indUsed
  by_cases hm : d0 ∈ u
  · rw [if_pos hm, if_pos (List.mem_cons_of_mem _ hm)]
  · rw [if_neg hm, if_neg (by
      intro hc
      rcases List.mem_cons.mp hc with rfl | hc2
      · exact h rfl
      · exact hm hc2)]

/-- The central accounting identity: across any encoder run, the number of
pushes of `d0`'s definition block equals the change of the 0/1 indicator of
`d0`'s membership in the `used` set.  In particular a block already marked
used is never pushed again, and any run pushes it at most once. -/
theorem defEmits_eq_indUsed (d0 : List Nat) : ∀ f : Nat,
    (∀ v m used, jsizeV v ≤ f →
      defEmits d0 f v m used + indUsed d0 used =
        indUsed d0 (encCF f v m used).2) ∧
    (∀ l m used, jsizeL l ≤ f →
      defEmitsL d0 f l m used + indUsed d0 used =
        indUsed d0 (encElemsF f l m used).2) ∧
    (∀ l m used, jsizeP l ≤ f →
      defEmitsP d0 f l m used + indUsed d0 used =
        indUsed d0 (encPairsF f l m used).2) := by
  intro f
  induction f with
  | zero =>
    refine ⟨?_, ?_, ?_⟩
    · intro v m used hn
      have := jsizeV_pos v
      omega
    · intro l m used _
      exact Nat.zero_add (indUsed d0 used)
    · intro l m used _
      exact Nat.zero_add (indUsed d0 used)
  | succ f ih =>
    obtain ⟨ihV, ihL, ihP⟩ := ih
    refine ⟨?_, ?_, ?_⟩
    · intro v m used hn
      match v with
      | .nil => exact Nat.zero_add (indUsed d0 used)
      | .bool b => cases b <;> exact Nat.zero_add (indUsed d0 used)
      | .int i => exact Nat.zero_add (indUsed d0 used)
      | .double bits hint => exact Nat.zero_add (indUsed d0 used)
      | .str str => exact Nat.zero_add (indUsed d0 used)
      | .arr elems =>
        simp only [jsizeV] at hn
        have hd : defEmits d0 (f + 1) (.arr elems) m used =
            defEmitsL d0 f elems m used := rfl
        rw [hd]
        by_cases hlen : elems.length < CondensedInfo.MAX_SHORT_ARRAY_SIZE
        · have h2 : (encCF (f + 1) (.arr elems) m used).2 =
              (encElemsF f elems m used).2 := by
            simp only [encCF]
            rw [if_pos hlen]
          rw [h2]
          exact ihL elems m used (by omega)
        · have h2 : (encCF (f + 1) (.arr elems) m used).2 =
              (encElemsF f elems m used).2 := by
            simp only [encCF]
            rw [if_neg hlen]
          rw [h2]
          exact ihL elems m used (by omega)
      | .obj entries =>
        simp only [jsizeV] at hn
        by_cases hemp : entries.isEmpty
        · have he2 : entries = [] := by
            cases entries with
            | nil => rfl
            | cons a b => simp [List.isEmpty] at hemp
          subst he2
          rw [encCF_obj_empty]
          exact Nat.zero_add (indUsed d0 used)
        · have hne : entries ≠ [] := by
            cases entries with
            | nil => exact absurd rfl hemp
            | cons a b => simp
          have hsz : jsizeP (sortPairs entries) ≤ f := by
            rw [jsizeP_sortPairs]
            omega
          cases hg : getDescriptor entries with
          | none =>
            rw [encCF_obj_hash f entries m used hne hg,
              defEmits_obj_hash d0 f entries m used hne hg]
            dsimp only
            refine ihP _ m used ?_
            rw [jsizeP_hashOrder]
            omega
          | some dd =>
            cases hmc : mlookup m dd with
            | some idx =>
              rw [encCF_obj_mapped_gen f entries m used dd idx hne hg hmc,
                defEmits_obj_mapped d0 f entries m used dd idx hne hg hmc]
              dsimp only
              by_cases hu : dd ∈ used
              · simp only [if_pos hu]
                rw [if_neg (by
                  rintro ⟨-, hb⟩
                  exact hb hu)]
                have h := ihP (sortPairs entries) m used hsz
                omega
              · simp only [if_neg hu]
                by_cases hd0 : dd = d0
                · subst hd0
                  rw [if_pos ⟨rfl, hu⟩]
                  have h := ihP (sortPairs entries) m (dd :: used) hsz
                  have h1 : indUsed dd (dd :: used) = 1 := by
                    unfold indUsed
                    rw [if_pos (List.mem_cons_self _ _)]
                  have h0 : indUsed dd used = 0 := by
                    unfold indUsed
                    rw [if_neg hu]
                  omega
                · rw [if_neg (by
                    rintro ⟨h1, -⟩
                    exact hd0 h1)]
                  have h := ihP (sortPairs entries) m (dd :: used) hsz
                  have h1 := indUsed_cons_ne d0 dd used hd0
                  omega
            | none =>
              rw [defEmits_obj_unmapped d0 f entries m used dd hne hg hmc]
              by_cases hlen : entries.length < CondensedInfo.MAX_SMALL_UNIQUE_OBJECT_SIZE
              · rw [encCF_obj_unmapped_small f entries m used dd hne hg hmc hlen]
                dsimp only
                exact ihP _ m used hsz
              · rw [encCF_obj_unmapped_large f entries m used dd hne hg hmc hlen]
                dsimp only
                exact ihP _ m used hsz
    · intro l m used hn
      match l with
      | [] => exact Nat.zero_add (indUsed d0 used)
      | x :: rest =>
        simp only [jsizeL] at hn
        have hd : defEmitsL d0 (f + 1) (x :: rest) m used =
            defEmits d0 f x m used +
              defEmitsL d0 f rest m (encCF f x m used).2 := rfl
        rw [hd, encElemsF_cons]
        dsimp only
        have h1 := ihV x m used (by omega)
        have h2 := ihL rest m (encCF f x m used).2 (by omega)
        omega
    · intro l m used hn
      match l with
      | [] => exact Nat.zero_add (indUsed d0 used)
      | (k, v) :: rest =>
        simp only [jsizeP] at hn
        have hd : defEmitsP d0 (f + 1) ((k, v) :: rest) m used =
            defEmits d0 f v m used +
              defEmitsP d0 f rest m (encCF f v m used).2 := rfl
        rw [hd, encPairsF_cons]
        dsimp only
        have h1 := ihV v m used (by omega)
        have h2 := ihP rest m (encCF f v m used).2 (by omega)
        omega


theorem shapeCountPairs_eq_sum (d : List Nat) : ∀ l : List (List Nat × JSON),
    shapeCountPairs d l = (l.map fun kv => shapeCount d kv.2).sum := by
  intro l
  induction l with
  | nil => rfl
  | cons p rest ih =>
    cases p with
    | mk k v =>
      simp only [shapeCountPairs, List.map_cons, List.sum_cons, ih]

theorem shapeCountPairs_perm {a b : List (List Nat × JSON)} (h : a.Perm b)
    (d : List Nat) : shapeCountPairs d a = shapeCountPairs d b := by
  rw [shapeCountPairs_eq_sum, shapeCountPairs_eq_sum]
  exact List.Perm.sum_eq (h.map _)

theorem perm_hashOrder (entries : List (List Nat × JSON)) :
    (hashOrder entries).Perm entries := by
  unfold hashOrder
  have h := List.filter_append_perm (fun kv => !kv.1.isEmpty) entries
  have h2 : entries.filter (fun kv => !!kv.1.isEmpty) =
      entries.filter (fun kv => kv.1.isEmpty) := by
    apply List.filter_congr
    intro x _
    simp
  rw [← h2]
  exact h

/-- Once some object of (mapped, nonempty) shape `d0` occurs in the encoded
value, `d0` is marked used by the end of the run. -/
theorem shape_in_used (d0 : List Nat) : ∀ f : Nat,
    (∀ v m used, jsizeV v ≤ f → 1 ≤ shapeCount d0 v → mlookup m d0 ≠ none →
      d0 ∈ (encCF f v m used).2) ∧
    (∀ l m used, jsizeL l ≤ f → 1 ≤ shapeCountElems d0 l → mlookup m d0 ≠ none →
      d0 ∈ (encElemsF f l m used).2) ∧
    (∀ l m used, jsizeP l ≤ f → 1 ≤ shapeCountPairs d0 l → mlookup m d0 ≠ none →
      d0 ∈ (encPairsF f l m used).2) := by
  intro f
  induction f with
  | zero =>
    refine ⟨?_, ?_, ?_⟩
    · intro v m used hn _ _
      have := jsizeV_pos v
      omega
    · intro l m used hn hc _
      obtain rfl := jsizeL_eq_zero (show jsizeL l = 0 by omega)
      simp [shapeCountElems] at hc
    · intro l m used hn hc _
      obtain rfl := jsizeP_eq_zero (show jsizeP l = 0 by omega)
      simp [shapeCountPairs] at hc
  | succ f ih =>
    obtain ⟨ihV, ihL, ihP⟩ := ih
    refine ⟨?_, ?_, ?_⟩
    · intro v m used hn hc hm
      match v with
      | .nil => simp [shapeCount] at hc
      | .bool b => simp [shapeCount] at hc
      | .int i => simp [shapeCount] at hc
      | .double bits hint => simp [shapeCount] at hc
      | .str str => simp [shapeCount] at hc
      | .arr elems =>
        simp only [jsizeV] at hn
        have hce : 1 ≤ shapeCountElems d0 elems := hc
        by_cases hlen : elems.length < CondensedInfo.MAX_SHORT_ARRAY_SIZE
        · have h2 : (encCF (f + 1) (.arr elems) m used).2 =
              (encElemsF f elems m used).2 := by
            simp only [encCF]
            rw [if_pos hlen]
          rw [h2]
          exact ihL elems m used (by omega) hce hm
        · have h2 : (encCF (f + 1) (.arr elems) m used).2 =
              (encElemsF f elems m used).2 := by
            simp only [encCF]
            rw [if_neg hlen]
          rw [h2]
          exact ihL elems m used (by omega) hce hm
      | .obj entries =>
        simp only [jsizeV] at hn
        have hsc : shapeCount d0 (.obj entries) =
            if entries.isEmpty then 0
            else
              (match getDescriptor entries with
               | some d2 => if d2 = d0 then 1 else 0
               | none => 0) + shapeCountPairs d0 entries := rfl
        rw [hsc] at hc
        by_cases hemp : entries.isEmpty
        · rw [if_pos hemp] at hc
          omega
        · rw [if_neg hemp] at hc
          have hne : entries ≠ [] := by
            cases entries with
            | nil => exact absurd rfl hemp
            | cons a b => simp
          have hsz : jsizeP (sortPairs entries) ≤ f := by
            rw [jsizeP_sortPairs]
            omega
          have hscp : shapeCountPairs d0 (sortPairs entries) =
              shapeCountPairs d0 entries :=
            shapeCountPairs_perm (perm_sortPairs entries) d0
          cases hg : getDescriptor entries with
          | none =>
            rw [hg] at hc
            dsimp only at hc
            rw [encCF_obj_hash f entries m used hne hg]
            dsimp only
            refine ihP _ m used ?_ ?_ hm
            · rw [jsizeP_hashOrder]
              omega
            · rw [shapeCountPairs_perm (perm_hashOrder entries) d0]
              omega
          | some dd =>
            rw [hg] at hc
            dsimp only at hc
            by_cases hd0 : dd = d0
            · subst hd0
              obtain ⟨idx, hmc⟩ : ∃ i, mlookup m dd = some i := by
                cases hmm : mlookup m dd with
                | none => exact absurd hmm hm
                | some i => exact ⟨i, rfl⟩
              rw [encCF_obj_mapped_gen f entries m used dd idx hne hg hmc]
              dsimp only
              refine (encCF_used_mono f).2.2 _ m _ dd ?_
              by_cases hu : dd ∈ used
              · rw [if_pos hu]
                exact hu
              · rw [if_neg hu]
                exact List.mem_cons_self _ _
            · rw [if_neg hd0] at hc
              have hcp : 1 ≤ shapeCountPairs d0 (sortPairs entries) := by
                rw [hscp]
                omega
              cases hmc : mlookup m dd with
              | some idx =>
                rw [encCF_obj_mapped_gen f entries m used dd idx hne hg hmc]
                dsimp only
                exact ihP _ m _ hsz hcp hm
              | none =>
                by_cases hlen : entries.length < CondensedInfo.MAX_SMALL_UNIQUE_OBJECT_SIZE
                · rw [encCF_obj_unmapped_small f entries m used dd hne hg hmc hlen]
                  dsimp only
                  exact ihP _ m used hsz hcp hm
                · rw [encCF_obj_unmapped_large f entries m used dd hne hg hmc hlen]
                  dsimp only
                  exact ihP _ m used hsz hcp hm
    · intro l m used hn hc hm
      match l with
      | [] => simp [shapeCountElems] at hc
      | x :: rest =>
        simp only [jsizeL] at hn
        have hce : shapeCountElems d0 (x :: rest) =
            shapeCount d0 x + shapeCountElems d0 rest := rfl
        rw [hce] at hc
        rw [encElemsF_cons]
        dsimp only
        by_cases hx : 1 ≤ shapeCount d0 x
        · have hmem := ihV x m used (by omega) hx hm
          exact (encCF_used_mono f).2.1 rest m _ d0 hmem
        · exact ihL rest m _ (by omega) (by omega) hm
    · intro l m used hn hc hm
      match l with
      | [] => simp [shapeCountPairs] at hc
      | (k, v) :: rest =>
        simp only [jsizeP] at hn
        have hce : shapeCountPairs d0 ((k, v) :: rest) =
            shapeCount d0 v + shapeCountPairs d0 rest := rfl
        rw [hce] at hc
        rw [encPairsF_cons]
        dsimp only
        by_cases hx : 1 ≤ shapeCount d0 v
        · have hmem := ihV v m used (by omega) hx hm
          exact (encCF_used_mono f).2.2 rest m _ d0 hmem
        · exact ihP rest m _ (by omega) (by omega) hm

theorem idRef_length (i : Nat) : 1 ≤ (idRef i).length ∧ (idRef i).length ≤ 3 := by
  unfold idRef
  split_ifs <;> simp

/-- C4: shape deduplication, for every Value and every shape descriptor.
(i) a key-set shared by at least two (nonempty, descriptor-valid) objects
anywhere inside `v` — nested, object-valued or side by side — is assigned a
dictionary id by `generateObjectMapping` (under the source's documented cap
of `0xffff + MAX_UNCOMMON_OBJECT_ID + 1` batched shapes, part_001 line 721);
(ii) across the whole run of `condensed v` (mapping generated, `used` flags
initially clear) the inline definition block of the shape — descriptor bytes
followed by 0x00 — is pushed exactly once; (iii) every occurrence of the
shape is encoded as the id reference, then the definition exactly when the
shape is not yet marked used, then the values of the ASCII-key-sorted
entries, and the id reference is 1 to 3 bytes long; (iv) with distinct keys
the entry order used for the values is genuinely ASCII-ascending. -/
theorem c4_shape_dedup (v : JSON) (d : List Nat) :
    (2 ≤ shapeCount d v → (addToObjectList v []).length ≤ 65797 →
      ∃ idx, mlookup (generateObjectMapping v) d = some idx) ∧
    (∀ idx, mlookup (generateObjectMapping v) d = some idx →
      1 ≤ shapeCount d v →
      defEmits d (jsizeV v) v (generateObjectMapping v) [] = 1) ∧
    (∀ idx entries m used, entries ≠ [] → getDescriptor entries = some d →
      mlookup m d = some idx →
      encCF (jsizeP entries + 1) (.obj entries) m used =
        (idRef idx ++ (if d ∈ used then [] else d ++ [CondensedInfo.TERMINATOR]) ++
          (encPairsF (jsizeP entries) (sortPairs entries) m
            (if d ∈ used then used else d :: used)).1,
         (encPairsF (jsizeP entries) (sortPairs entries) m
           (if d ∈ used then used else d :: used)).2) ∧
      1 ≤ (idRef idx).length ∧ (idRef idx).length ≤ 3) ∧
    (∀ entries : List (List Nat × JSON),
      distinctKeys (entries.map Prod.fst) = true →
      sortedKeys ((sortPairs entries).map Prod.fst) = true) := by
  refine ⟨mapped_of_repeated v d, ?_, ?_, ?_⟩
  · intro idx hm h1
    have hE := (defEmits_eq_indUsed d (jsizeV v)).1 v (generateObjectMapping v) []
      le_rfl
    have hO := (shape_in_used d (jsizeV v)).1 v (generateObjectMapping v) []
      le_rfl h1 (by rw [hm]; exact fun hc => Option.noConfusion hc)
    have h0 : indUsed d ([] : List (List Nat)) = 0 := rfl
    have h2 : indUsed d (encCF (jsizeV v) v (generateObjectMapping v) []).2 = 1 := by
      unfold indUsed
      rw [if_pos hO]
    omega
  · intro idx entries m used hne hg hmc
    exact ⟨encCF_obj_mapped_gen (jsizeP entries) entries m used d idx hne hg hmc,
      idRef_length idx⟩
  · intro entries hdk
    rw [map_fst_sortPairs]
    exact sortedKeys_sortBy _ ((distinctKeys_iff_nodup _).mp hdk)

/-- Closed instance of C4: the array of the two objects `{"k": 1}` and
`{"k": true}`.  The shared key-set {"k"} (descriptor 0xEB) occurs twice, is
assigned id 0, and the whole-run emission count of its definition block under
the generated mapping is exactly 1. -/
theorem c4_shape_dedup_witness :
    2 ≤ shapeCount [0xeb]
      (.arr [.obj [([0x6b], .int 1)], .obj [([0x6b], .bool true)]]) ∧
    (addToObjectList
      (.arr [.obj [([0x6b], .int 1)], .obj [([0x6b], .bool true)]]) []).length
        ≤ 65797 ∧
    (∃ idx, mlookup (generateObjectMapping
      (.arr [.obj [([0x6b], .int 1)], .obj [([0x6b], .bool true)]])) [0xeb] =
        some idx) ∧
    defEmits [0xeb]
      (jsizeV (.arr [.obj [([0x6b], .int 1)], .obj [([0x6b], .bool true)]]))
      (.arr [.obj [([0x6b], .int 1)], .obj [([0x6b], .bool true)]])
      (generateObjectMapping
        (.arr [.obj [([0x6b], .int 1)], .obj [([0x6b], .bool true)]])) [] = 1 :=
  ⟨by decide, by decide,
    (c4_shape_dedup
      (.arr [.obj [([0x6b], .int 1)], .obj [([0x6b], .bool true)]]) [0xeb]).1
      (by decide) (by decide),
    (c4_shape_dedup
      (.arr [.obj [([0x6b], .int 1)], .obj [([0x6b], .bool true)]]) [0xeb]).2.1
      0 (by decide) (by decide)⟩


/-! ## Claim C2: the text round trip (lemma layer) -/

/-- The continuations the text writer places after a value: end of input, a
newline, or a comma followed by a newline. -/
def restShape (rest : List Nat) : Prop :=
  rest = [] ∨ (∃ r2, rest = 10 :: r2) ∨ (∃ r2, rest = 44 :: 10 :: r2)

theorem readWs_ws {w : Nat} (hw : w = 32 ∨ w = 9 ∨ w = 10 ∨ w = 44)
    (r : List Nat) : readWs (w :: r) = readWs r := by
  rcases hw with rfl | rfl | rfl | rfl <;> rfl

theorem readWs_tabs (k : Nat) : ∀ r : List Nat,
    readWs (List.replicate k 9 ++ r) = readWs r := by
  induction k with
  | zero => intro r; rfl
  | succ k ih =>
    intro r
    rw [List.replicate_succ, List.cons_append, readWs_ws (Or.inr (Or.inl rfl))]
    exact ih r

theorem sgn8_low {b : Nat} (hb : b < 128) : sgn8 b = (b : Int) := by
  unfold sgn8
  rw [if_pos hb]

theorem readWs_nonws {b : Nat} (hb : b < 128) (h32 : b ≠ 32) (h9 : b ≠ 9)
    (h10 : b ≠ 10) (h44 : b ≠ 44) (r : List Nat) :
    readWs (b :: r) = ((b : Int), some b, r) := by
  have hc := sgn8_low hb
  show (if sgn8 b = 32 ∨ sgn8 b = 9 ∨ sgn8 b = 10 ∨ sgn8 b = 44
    then readWs r else (sgn8 b, some b, r)) = ((b : Int), some b, r)
  rw [hc, if_neg (by omega)]

theorem parseT_succ_eq (f : Nat) (s2d : List Nat → Nat) (input : List Nat) :
    parseT (f + 1) s2d input =
      (match readWs input with
       | (c, _, r) =>
        if c = 0 ∨ c = -1 then .ok (.nil, r)
        else if c = 34 then
          match readTStr r with
          | none => .err .stuck
          | some (str, r2) => .ok (.str str, r2)
        else if c = 116 then
          match tget r with
          | (c1, r1) =>
            if c1 = 114 then
              match tget r1 with
              | (c2, r2) =>
                if c2 = 117 then
                  match tget r2 with
                  | (c3, r3) =>
                    if c3 = 101 then .ok (.bool true, r3)
                    else .err .misspelledTrue
                else .err .misspelledTrue
            else .err .misspelledTrue
        else if c = 102 then
          match tget r with
          | (c1, r1) =>
            if c1 = 97 then
              match tget r1 with
              | (c2, r2) =>
                if c2 = 108 then
                  match tget r2 with
                  | (c3, r3) =>
                    if c3 = 115 then
                      match tget r3 with
                      | (c4, r4) =>
                        if c4 = 101 then .ok (.bool false, r4)
                        else .err .misspelledFalse
                    else .err .misspelledFalse
                else .err .misspelledFalse
            else .err .misspelledFalse
        else if c = 110 then
          match tget r with
          | (c1, r1) =>
            if c1 = 117 then
              match tget r1 with
              | (c2, r2) =>
                if c2 = 108 then
                  match tget r2 with
                  | (c3, r3) =>
                    if c3 = 108 then .ok (.nil, r3)
                    else .err .misspelledNull
                else .err .misspelledNull
            else .err .misspelledNull
        else if c = 45 ∨ (48 ≤ c ∧ c ≤ 57) then
          match numLoop r false with
          | (cs, hasDec, rem) =>
            if hasDec then .ok (.double (s2d (c.toNat :: cs)) Hint.ABSENT, rem)
            else .ok (.int (ssInt (c.toNat :: cs)), rem)
        else if c = 123 then
          match objLoop f s2d [] r with
          | .out => .out
          | .err e => .err e
          | .ok (entries, r2) => .ok (.obj entries, r2)
        else if c = 91 then
          match arrLoop f s2d [] r with
          | .out => .out
          | .err e => .err e
          | .ok (elems, r2) => .ok (.arr elems, r2)
        else .err (.unexpectedChar c)) := rfl

theorem parseT_ws (F : Nat) (s2d : List Nat → Nat) {w : Nat}
    (hw : w = 32 ∨ w = 9 ∨ w = 10 ∨ w = 44) (i : List Nat) :
    parseT F s2d (w :: i) = parseT F s2d i := by
  cases F with
  | zero => rfl
  | succ f =>
    rw [parseT_succ_eq, parseT_succ_eq, readWs_ws hw]

theorem arrLoop_succ_eq (f : Nat) (s2d : List Nat → Nat) (acc : List JSON)
    (input : List Nat) :
    arrLoop (f + 1) s2d acc input =
      (match readWs input with
       | (c, ob, r) =>
        if c = 93 then .ok (acc, r)
        else
          match parseT f s2d (unget ob r) with
          | .out => .out
          | .err e => .err e
          | .ok (v, r2) => arrLoop f s2d (acc ++ [v]) r2) := rfl

theorem objLoop_succ_eq (f : Nat) (s2d : List Nat → Nat)
    (acc : List (List Nat × JSON)) (input : List Nat) :
    objLoop (f + 1) s2d acc input =
      (match readWs input with
       | (c, _, r) =>
        if c = 34 then
          match readTStr r with
          | none => .err .stuck
          | some (name, r2) =>
            match readWs r2 with
            | (c2, _, r3) =>
              if c2 = 58 then
                match parseT f s2d r3 with
                | .out => .out
                | .err e => .err e
                | .ok (v, r4) => objLoop f s2d (mapInsert acc name v) r4
              else .err .expectedColon
        else .ok (acc, r)) := rfl

theorem arrLoop_ws (F : Nat) (s2d : List Nat → Nat) (acc : List JSON) {w : Nat}
    (hw : w = 32 ∨ w = 9 ∨ w = 10 ∨ w = 44) (i : List Nat) :
    arrLoop F s2d acc (w :: i) = arrLoop F s2d acc i := by
  cases F with
  | zero => rfl
  | succ f => rw [arrLoop_succ_eq, arrLoop_succ_eq, readWs_ws hw]

theorem objLoop_ws (F : Nat) (s2d : List Nat → Nat)
    (acc : List (List Nat × JSON)) {w : Nat}
    (hw : w = 32 ∨ w = 9 ∨ w = 10 ∨ w = 44) (i : List Nat) :
    objLoop F s2d acc (w :: i) = objLoop F s2d acc i := by
  cases F with
  | zero => rfl
  | succ f => rw [objLoop_succ_eq, objLoop_succ_eq, readWs_ws hw]

theorem arrLoop_eq_readWs (F : Nat) (s2d : List Nat → Nat) (acc : List JSON)
    {i1 i2 : List Nat} (h : readWs i1 = readWs i2) :
    arrLoop F s2d acc i1 = arrLoop F s2d acc i2 := by
  cases F with
  | zero => rfl
  | succ f => rw [arrLoop_succ_eq, arrLoop_succ_eq, h]

theorem objLoop_eq_readWs (F : Nat) (s2d : List Nat → Nat)
    (acc : List (List Nat × JSON)) {i1 i2 : List Nat}
    (h : readWs i1 = readWs i2) :
    objLoop F s2d acc i1 = objLoop F s2d acc i2 := by
  cases F with
  | zero => rfl
  | succ f => rw [objLoop_succ_eq, objLoop_succ_eq, h]

theorem parse_null (f : Nat) (s2d : List Nat → Nat) (rest : List Nat) :
    parseT (f + 1) s2d ([110, 117, 108, 108] ++ rest) = .ok (.nil, rest) := rfl

theorem parse_true (f : Nat) (s2d : List Nat → Nat) (rest : List Nat) :
    parseT (f + 1) s2d ([116, 114, 117, 101] ++ rest) = .ok (.bool true, rest) := rfl

theorem parse_false (f : Nat) (s2d : List Nat → Nat) (rest : List Nat) :
    parseT (f + 1) s2d ([102, 97, 108, 115, 101] ++ rest) =
      .ok (.bool false, rest) := rfl

theorem parseT_step_quote (f : Nat) (s2d : List Nat → Nat) (i : List Nat) :
    parseT (f + 1) s2d (34 :: i) =
      (match readTStr i with
       | none => .err .stuck
       | some (str, r2) => .ok (.str str, r2)) := rfl

theorem parseT_step_lbrack (f : Nat) (s2d : List Nat → Nat) (i : List Nat) :
    parseT (f + 1) s2d (91 :: i) =
      (match arrLoop f s2d [] i with
       | .out => .out
       | .err e => .err e
       | .ok (elems, r2) => .ok (.arr elems, r2)) := rfl

theorem parseT_step_lbrace (f : Nat) (s2d : List Nat → Nat) (i : List Nat) :
    parseT (f + 1) s2d (123 :: i) =
      (match objLoop f s2d [] i with
       | .out => .out
       | .err e => .err e
       | .ok (entries, r2) => .ok (.obj entries, r2)) := rfl

theorem parseT_step_minus (f : Nat) (s2d : List Nat → Nat) (i : List Nat) :
    parseT (f + 1) s2d (45 :: i) =
      (match numLoop i false with
       | (cs, hasDec, rem) =>
        if hasDec then .ok (.double (s2d (45 :: cs)) Hint.ABSENT, rem)
        else .ok (.int (ssInt (45 :: cs)), rem)) := rfl

theorem parseT_step_digit {b : Nat} (h1 : 48 ≤ b) (h2 : b ≤ 57) (f : Nat)
    (s2d : List Nat → Nat) (i : List Nat) :
    parseT (f + 1) s2d (b :: i) =
      (match numLoop i false with
       | (cs, hasDec, rem) =>
        if hasDec then .ok (.double (s2d (b :: cs)) Hint.ABSENT, rem)
        else .ok (.int (ssInt (b :: cs)), rem)) := by
  interval_cases b <;> rfl

theorem escBytes_id (s : List Nat)
    (h : ∀ b ∈ s, b ≠ 34 ∧ b ≠ 10 ∧ b ≠ 92) : escBytes s = s := by
  induction s with
  | nil => rfl
  | cons b rest ih =>
    obtain ⟨h34, h10, h92⟩ := h b (List.mem_cons_self _ _)
    show ((if b = 34 then [47, 34]
      else if b = 10 then [92, 110]
      else if b = 92 then [92, 92]
      else [b]) ++ escBytes rest) = b :: rest
    rw [if_neg h34, if_neg h10, if_neg h92,
      ih (fun x hx => h x (List.mem_cons_of_mem b hx))]
    rfl

theorem readTStrF_clean : ∀ (k : List Nat) (f : Nat) (rest : List Nat),
    k.length + 1 ≤ f →
    (∀ b ∈ k, b ≠ 34 ∧ b ≠ 92 ∧ b < 256) →
    readTStrF f (k ++ 34 :: rest) = some (k, rest) := by
  intro k
  induction k with
  | nil =>
    intro f rest hf _
    obtain ⟨f1, rfl⟩ : ∃ f1, f = f1 + 1 := ⟨f - 1, by omega⟩
    rfl
  | cons b k2 ih =>
    intro f rest hf hcl
    obtain ⟨h34, h92, h256⟩ := hcl b (List.mem_cons_self _ _)
    simp only [List.length_cons] at hf
    obtain ⟨f1, rfl⟩ : ∃ f1, f = f1 + 1 := ⟨f - 1, by omega⟩
    have hs34 : sgn8 b ≠ 34 := by
      unfold sgn8
      by_cases hb : b < 128
      · rw [if_pos hb]; omega
      · rw [if_neg hb]; omega
    have hs92 : sgn8 b ≠ 92 := by
      unfold sgn8
      by_cases hb : b < 128
      · rw [if_pos hb]; omega
      · rw [if_neg hb]; omega
    show (if sgn8 b = 34 then some ([], k2 ++ 34 :: rest)
      else if sgn8 b = 92 then _ else
        (readTStrF f1 (k2 ++ 34 :: rest)).map fun (s, rr) => (b :: s, rr)) =
      some (b :: k2, rest)
    rw [if_neg hs34, if_neg hs92,
      ih f1 rest (by omega) (fun x hx => hcl x (List.mem_cons_of_mem b hx))]
    rfl

theorem readTStr_clean (k : List Nat) (rest : List Nat)
    (hcl : ∀ b ∈ k, b ≠ 34 ∧ b ≠ 92 ∧ b < 256) :
    readTStr (k ++ 34 :: rest) = some (k, rest) := by
  unfold readTStr
  refine readTStrF_clean k _ rest ?_ hcl
  simp only [List.length_append, List.length_cons]
  omega


theorem numLoop_nil (hd : Bool) : numLoop [] hd = ([255], hd, []) := rfl

theorem numLoop_nl (r : List Nat) :
    numLoop (10 :: r) false = ([10], false, 10 :: r) := rfl

theorem numLoop_comma_nl (r : List Nat) :
    numLoop (44 :: 10 :: r) false = ([44, 10], false, 10 :: r) := rfl

theorem numLoop_digit_step {d : Nat} (h1 : 48 ≤ d) (h2 : d ≤ 57)
    (t : List Nat) :
    numLoop (d :: t) false =
      (match numLoop t false with
       | (cs, hdf, rem) => (d :: cs, hdf, rem)) := by
  interval_cases d <;> rfl

theorem numLoop_digits (ds : List Nat) (hds : ∀ b ∈ ds, 48 ≤ b ∧ b ≤ 57) :
    ∀ rest : List Nat,
      numLoop (ds ++ rest) false =
        (ds ++ (numLoop rest false).1, (numLoop rest false).2.1,
          (numLoop rest false).2.2) := by
  induction ds with
  | nil =>
    intro rest
    simp only [List.nil_append]
  | cons d ds2 ih =>
    intro rest
    obtain ⟨h1, h2⟩ := hds d (List.mem_cons_self _ _)
    rw [List.cons_append, numLoop_digit_step h1 h2,
      ih (fun x hx => hds x (List.mem_cons_of_mem d hx)) rest]
    rfl

theorem natDecAux_spec : ∀ (f n : Nat), n < 10 ^ f → 1 ≤ f →
    (∀ b ∈ natDecAux f n, 48 ≤ b ∧ b ≤ 57) ∧
    natDecAux f n ≠ [] ∧
    (∀ acc : Nat, (natDecAux f n).foldl (fun a d => a * 10 + (d - 48)) acc =
      acc * 10 ^ (natDecAux f n).length + n) := by
  intro f
  induction f with
  | zero => intro n _ hf; omega
  | succ f ih =>
    intro n hn _
    by_cases h10 : n < 10
    · have he : natDecAux (f + 1) n = [48 + n] := by
        show (if n < 10 then [48 + n] else _) = [48 + n]
        rw [if_pos h10]
      rw [he]
      refine ⟨?_, by simp, ?_⟩
      · intro b hb
        simp only [List.mem_singleton] at hb
        omega
      · intro acc
        have hl : ([48 + n] : List Nat).length = 1 := rfl
        rw [hl, pow_one]
        simp only [List.foldl_cons, List.foldl_nil]
        omega
    · have he : natDecAux (f + 1) n =
          natDecAux f (n / 10) ++ [48 + n % 10] := by
        show (if n < 10 then [48 + n] else natDecAux f (n / 10) ++ [48 + n % 10]) = _
        rw [if_neg h10]
      have hdiv : n / 10 < 10 ^ f := by
        rw [Nat.div_lt_iff_lt_mul (by omega)]
        calc n < 10 ^ (f + 1) := hn
        _ = 10 ^ f * 10 := by rw [pow_succ]
      have hf1 : 1 ≤ f := by
        by_contra hc
        have : f = 0 := by omega
        subst this
        simp only [pow_zero] at hdiv
        omega
      obtain ⟨ihd, ihne, ihval⟩ := ih (n / 10) hdiv hf1
      rw [he]
      refine ⟨?_, by simp, ?_⟩
      · intro b hb
        rcases List.mem_append.mp hb with hb1 | hb2
        · exact ihd b hb1
        · simp only [List.mem_singleton] at hb2
          have := Nat.mod_lt n (show 0 < 10 by omega)
          omega
      · intro acc
        rw [List.foldl_append, ihval acc]
        simp only [List.foldl_cons, List.foldl_nil, List.length_append,
          List.length_cons, List.length_nil]
        have hp : 10 ^ ((natDecAux f (n / 10)).length + (0 + 1)) =
            10 ^ (natDecAux f (n / 10)).length * 10 := by
          rw [Nat.zero_add, pow_succ]
        rw [hp]
        have hmul : acc * (10 ^ (natDecAux f (n / 10)).length * 10) =
            acc * 10 ^ (natDecAux f (n / 10)).length * 10 :=
          (mul_assoc acc _ 10).symm
        rw [hmul]
        have hdm := Nat.div_add_mod n 10
        have hm := Nat.mod_lt n (show 0 < 10 by omega)
        omega

theorem natDec_spec (n : Nat) (hn : n ≤ 9223372036854775808) :
    (∀ b ∈ natDec n, 48 ≤ b ∧ b ≤ 57) ∧
    natDec n ≠ [] ∧
    (natDec n).foldl (fun a d => a * 10 + (d - 48)) 0 = n := by
  have h := natDecAux_spec 20 n (by norm_num; omega) (by omega)
  obtain ⟨h1, h2, h3⟩ := h
  refine ⟨h1, h2, ?_⟩
  have := h3 0
  simpa using this

/-- Numeric value of a digit string, as `stringstream >> int64_t` folds it. -/
def digVal (ds : List Nat) : Nat :=
  ds.foldl (fun a d => a * 10 + (d - 48)) 0

theorem takeWhile_digits_append (ds : List Nat)
    (hds : ∀ b ∈ ds, 48 ≤ b ∧ b ≤ 57) (b0 : Nat) (r0 : List Nat)
    (hb0 : b0 < 48 ∨ 57 < b0) :
    (ds ++ b0 :: r0).takeWhile
        (fun b => decide (48 ≤ b) && decide (b ≤ 57)) = ds := by
  induction ds with
  | nil =>
    simp only [List.nil_append, List.takeWhile_cons]
    rw [if_neg (by
      simp only [Bool.and_eq_true, decide_eq_true_eq]
      omega)]
  | cons d ds2 ih =>
    obtain ⟨h1, h2⟩ := hds d (List.mem_cons_self _ _)
    simp only [List.cons_append, List.takeWhile_cons]
    rw [if_pos (by
      simp only [Bool.and_eq_true, decide_eq_true_eq]
      omega)]
    rw [ih (fun x hx => hds x (List.mem_cons_of_mem d hx))]

theorem ssInt_digits (ds : List Nat) (hne : ds ≠ [])
    (hds : ∀ b ∈ ds, 48 ≤ b ∧ b ≤ 57)
    (b0 : Nat) (r0 : List Nat) (hb0 : b0 < 48 ∨ 57 < b0)
    (hbound : digVal ds ≤ 9223372036854775807) :
    ssInt (ds ++ b0 :: r0) = (digVal ds : Int) := by
  match ds, hne with
  | d :: ds2, _ =>
    obtain ⟨hd1, hd2⟩ := hds d (List.mem_cons_self _ _)
    unfold ssInt
    split
    next neg rest heq =>
      split at heq
      · next r heq2 =>
        exfalso
        rw [List.cons_append] at heq2
        have hd45 : d = 45 := (List.cons.injEq .. ▸ heq2).1
        omega
      · injection heq with h1 h2
        subst h1
        subst h2
        dsimp only
        rw [if_neg Bool.false_ne_true]
        rw [takeWhile_digits_append (d :: ds2) hds b0 r0 hb0]
        rw [show ∀ l : List Nat,
          l.foldl (fun acc x => acc * 10 + (x - 48)) 0 = digVal l from fun l => rfl]
        rw [if_neg (by omega), if_neg (by omega)]

theorem ssInt_neg_digits (ds : List Nat) (hne : ds ≠ [])
    (hds : ∀ b ∈ ds, 48 ≤ b ∧ b ≤ 57)
    (b0 : Nat) (r0 : List Nat) (hb0 : b0 < 48 ∨ 57 < b0)
    (hbound : digVal ds ≤ 9223372036854775808) :
    ssInt (45 :: (ds ++ b0 :: r0)) = -(digVal ds : Int) := by
  unfold ssInt
  split
  next neg rest heq =>
    split at heq
    · next r heq2 =>
      have hr : ds ++ b0 :: r0 = r := (List.cons.injEq .. ▸ heq2).2
      injection heq with h1 h2
      subst h1
      subst h2
      subst hr
      dsimp only
      rw [if_pos rfl]
      rw [takeWhile_digits_append ds hds b0 r0 hb0]
      rw [show ∀ l : List Nat,
        l.foldl (fun acc x => acc * 10 + (x - 48)) 0 = digVal l from fun l => rfl]
      rw [if_neg (by omega), if_neg (by omega)]
    · next hno =>
      exact absurd rfl (hno (ds ++ b0 :: r0))


theorem digVal_natDec (n : Nat) (hn : n ≤ 9223372036854775808) :
    digVal (natDec n) = n :=
  (natDec_spec n hn).2.2

/-- Parsing the decimal image of an `int64_t`, followed by one of the
writer's continuations: the token scanner absorbs a following comma, leaving
the newline, and `stringstream` recovers exactly the value. -/
theorem parse_intDec (i : Int) (h1 : -9223372036854775808 ≤ i)
    (h2 : i < 9223372036854775808) (f : Nat) (s2d : List Nat → Nat)
    (rest : List Nat) (hr : restShape rest) :
    ∃ rem, parseT (f + 1) s2d (intDec i ++ rest) = .ok (.int i, rem) ∧
      readWs rem = readWs rest ∧ (rest = [] → rem = []) := by
  by_cases hneg : i < 0
  · -- negative: minus sign, then the digits of (-i).toNat
    have hie : intDec i = 45 :: natDec (-i).toNat := by
      unfold intDec
      rw [if_pos hneg]
    obtain ⟨hdig, hne, -⟩ := natDec_spec (-i).toNat (by omega)
    have hval : digVal (natDec (-i).toNat) = (-i).toNat :=
      digVal_natDec _ (by omega)
    have hi : -((-i).toNat : Int) = i := by omega
    rw [hie, List.cons_append, parseT_step_minus]
    rcases hr with rfl | ⟨r2, rfl⟩ | ⟨r2, rfl⟩
    · rw [show (natDec (-i).toNat ++ ([] : List Nat)) = natDec (-i).toNat
        from List.append_nil _]
      rw [show natDec (-i).toNat = natDec (-i).toNat ++ [] from
        (List.append_nil _).symm, numLoop_digits _ hdig [], numLoop_nil]
      dsimp only
      refine ⟨[], ?_, rfl, fun _ => rfl⟩
      rw [show natDec (-i).toNat ++ [255] = natDec (-i).toNat ++ 255 :: []
        from rfl]
      rw [ssInt_neg_digits _ hne hdig 255 [] (by omega) (by omega), hval, hi]
      rfl
    · rw [numLoop_digits _ hdig (10 :: r2), numLoop_nl]
      dsimp only
      refine ⟨10 :: r2, ?_, rfl, by simp⟩
      rw [show natDec (-i).toNat ++ [10] = natDec (-i).toNat ++ 10 :: []
        from rfl]
      rw [ssInt_neg_digits _ hne hdig 10 [] (by omega) (by omega), hval, hi]
      rfl
    · rw [numLoop_digits _ hdig (44 :: 10 :: r2), numLoop_comma_nl]
      dsimp only
      refine ⟨10 :: r2, ?_, by rw [readWs_ws (Or.inr (Or.inr (Or.inr rfl)))],
        by simp⟩
      rw [show natDec (-i).toNat ++ [44, 10] = natDec (-i).toNat ++ 44 :: [10]
        from rfl]
      rw [ssInt_neg_digits _ hne hdig 44 [10] (by omega) (by omega), hval, hi]
      rfl
  · -- nonnegative: just the digits of i.toNat
    have hie : intDec i = natDec i.toNat := by
      unfold intDec
      rw [if_neg hneg]
    obtain ⟨hdig, hne, -⟩ := natDec_spec i.toNat (by omega)
    have hval : digVal (natDec i.toNat) = i.toNat := digVal_natDec _ (by omega)
    have hi : (i.toNat : Int) = i := Int.toNat_of_nonneg (by omega)
    match hnd : natDec i.toNat with
    | [] => exact absurd hnd hne
    | d0 :: ds2 =>
      obtain ⟨hd1, hd2⟩ := hdig d0 (by rw [hnd]; exact List.mem_cons_self _ _)
      have hdig2 : ∀ b ∈ d0 :: ds2, 48 ≤ b ∧ b ≤ 57 := by
        rw [← hnd]; exact hdig
      have hne2 : (d0 :: ds2 : List Nat) ≠ [] := by simp
      have hval2 : digVal (d0 :: ds2) = i.toNat := by rw [← hnd]; exact hval
      rw [hie, hnd, List.cons_append, parseT_step_digit hd1 hd2]
      rcases hr with rfl | ⟨r2, rfl⟩ | ⟨r2, rfl⟩
      · rw [show (ds2 ++ ([] : List Nat)) = ds2 from List.append_nil _]
        rw [show ds2 = ds2 ++ [] from (List.append_nil _).symm,
          numLoop_digits _ (fun b hb => hdig2 b (List.mem_cons_of_mem d0 hb)) [],
          numLoop_nil]
        dsimp only
        refine ⟨[], ?_, rfl, fun _ => rfl⟩
        rw [show d0 :: (ds2 ++ [255]) = (d0 :: ds2) ++ 255 :: [] from rfl]
        rw [ssInt_digits _ hne2 hdig2 255 [] (by omega) (by omega), hval2, hi]
        rfl
      · rw [numLoop_digits _ (fun b hb => hdig2 b (List.mem_cons_of_mem d0 hb))
          (10 :: r2), numLoop_nl]
        dsimp only
        refine ⟨10 :: r2, ?_, rfl, by simp⟩
        rw [show d0 :: (ds2 ++ [10]) = (d0 :: ds2) ++ 10 :: [] from rfl]
        rw [ssInt_digits _ hne2 hdig2 10 [] (by omega) (by omega), hval2, hi]
        rfl
      · rw [numLoop_digits _ (fun b hb => hdig2 b (List.mem_cons_of_mem d0 hb))
          (44 :: 10 :: r2), numLoop_comma_nl]
        dsimp only
        refine ⟨10 :: r2, ?_,
          by rw [readWs_ws (Or.inr (Or.inr (Or.inr rfl)))], by simp⟩
        rw [show d0 :: (ds2 ++ [44, 10]) = (d0 :: ds2) ++ 44 :: [10] from rfl]
        rw [ssInt_digits _ hne2 hdig2 44 [10] (by omega) (by omega), hval2, hi]
        rfl

theorem mapInsert_append (acc : List (List Nat × JSON)) (k : List Nat) (v : JSON)
    (h : ∀ k2 ∈ acc.map Prod.fst, k2 ≠ k) :
    mapInsert acc k v = acc ++ [(k, v)] := by
  induction acc with
  | nil => rfl
  | cons p rest ih =>
    cases p with
    | mk k2 v2 =>
      have hk2 : k2 ≠ k := h k2 (by simp)
      show (if k2 = k then (k2, v) :: rest else (k2, v2) :: mapInsert rest k v) = _
      rw [if_neg hk2, ih (fun x hx => h x (List.mem_cons_of_mem _ hx))]
      rfl

/-! ## C2: the textual round trip on the escape-free class -/

theorem natDecAux_ne_nil (f n : Nat) : natDecAux (f + 1) n ≠ [] := by
  show (if n < 10 then [48 + n] else natDecAux f (n / 10) ++ [48 + n % 10]) ≠ []
  split
  · exact List.cons_ne_nil _ _
  · simp

theorem natDec_ne_nil (n : Nat) : natDec n ≠ [] := natDecAux_ne_nil 19 n

theorem wfT_int_elim {v : Int} (h : wfT (.int v) = true) :
    -9223372036854775808 ≤ v ∧ v < 9223372036854775808 := by
  have h' : (decide (-9223372036854775808 ≤ v) &&
      decide (v < 9223372036854775808)) = true := h
  rw [Bool.and_eq_true, decide_eq_true_eq, decide_eq_true_eq] at h'
  exact h'

theorem wfT_str_elim {s : List Nat} (h : wfT (.str s) = true) :
    ∀ b ∈ s, b ≠ 34 ∧ b ≠ 10 ∧ b ≠ 92 ∧ b < 256 := by
  intro b hb
  have h2 := List.all_eq_true.mp h b hb
  simp only [Bool.and_eq_true, decide_eq_true_eq] at h2
  exact ⟨h2.1.1.1, h2.1.1.2, h2.1.2, h2.2⟩

theorem wfT_obj_elim {l : List (List Nat × JSON)} (h : wfT (.obj l) = true) :
    distinctKeys (l.map Prod.fst) = true ∧
    (∀ k ∈ l.map Prod.fst, ∀ b ∈ k, b ≠ 34 ∧ b ≠ 10 ∧ b ≠ 92 ∧ b < 256) ∧
    wfTP l = true := by
  have h' : (distinctKeys (l.map Prod.fst) &&
      ((l.map Prod.fst).all fun k =>
        k.all fun b => decide (b ≠ 34) && decide (b ≠ 10) && decide (b ≠ 92) &&
          decide (b < 256)) &&
      wfTP l) = true := h
  rw [Bool.and_eq_true, Bool.and_eq_true] at h'
  refine ⟨h'.1.1, ?_, h'.2⟩
  intro k hk b hb
  have h2 := List.all_eq_true.mp h'.1.2 k hk
  have h3 := List.all_eq_true.mp h2 b hb
  simp only [Bool.and_eq_true, decide_eq_true_eq] at h3
  exact ⟨h3.1.1.1, h3.1.1.2, h3.1.2, h3.2⟩

theorem distinctKeys_cons_elim {k : List Nat} {ks : List (List Nat)}
    (h : distinctKeys (k :: ks) = true) : k ∉ ks ∧ distinctKeys ks = true := by
  have h' : (!(ks.contains k) && distinctKeys ks) = true := h
  rw [Bool.and_eq_true, Bool.not_eq_true'] at h'
  obtain ⟨h1, h2⟩ := h'
  refine ⟨fun hm => ?_, h2⟩
  rw [show ks.contains k = true from List.elem_iff.mpr hm] at h1
  exact absurd h1 (by decide)

/-- The first byte written for any escape-free value: never whitespace, never a
comma, never a closing bracket, always an unsigned `char`. -/
theorem wT_head (d2s : Nat → List Nat) (v : JSON) (hwf : wfT v = true) (dep : Nat) :
    ∃ b0 t, wT d2s v dep = b0 :: t ∧ b0 < 128 ∧ b0 ≠ 32 ∧ b0 ≠ 9 ∧ b0 ≠ 10 ∧
      b0 ≠ 44 ∧ b0 ≠ 93 := by
  cases v with
  | nil => exact ⟨110, _, rfl, by decide⟩
  | bool b =>
    cases b
    · exact ⟨102, _, rfl, by decide⟩
    · exact ⟨116, _, rfl, by decide⟩
  | int i =>
    by_cases hneg : i < 0
    · refine ⟨45, natDec (-i).toNat, ?_, by decide⟩
      show intDec i = 45 :: natDec (-i).toNat
      unfold intDec
      rw [if_pos hneg]
    · obtain ⟨h1, h2⟩ := wfT_int_elim hwf
      obtain ⟨hdig, hne, -⟩ := natDec_spec i.toNat (by omega)
      match hnd : natDec i.toNat with
      | [] => exact absurd hnd hne
      | d0 :: t =>
        obtain ⟨hd1, hd2⟩ := hdig d0 (by rw [hnd]; exact List.mem_cons_self _ _)
        refine ⟨d0, t, ?_, by omega, by omega, by omega, by omega, by omega, by omega⟩
        show intDec i = d0 :: t
        unfold intDec
        rw [if_neg hneg, hnd]
  | double bits hint =>
    simp only [wfT] at hwf
    exact absurd hwf (by decide)
  | str s => exact ⟨34, _, rfl, by decide⟩
  | arr elems =>
    cases elems with
    | nil => exact ⟨91, [93], rfl, by decide⟩
    | cons x xs => exact ⟨91, _, rfl, by decide⟩
  | obj entries =>
    cases entries with
    | nil => exact ⟨123, [125], rfl, by decide⟩
    | cons p ps => exact ⟨123, _, rfl, by decide⟩

/-- The text image of a value is at least as long as its structural size, so
`parseJSON`'s generous fuel `3 * length + 4` always covers the recursion. -/
theorem wT_len (d2s : Nat → List Nat) : ∀ n : Nat,
    (∀ v dep, jsizeV v ≤ n → jsizeV v ≤ (wT d2s v dep).length) ∧
    (∀ l dep, jsizeL l ≤ n → jsizeL l ≤ (wElems d2s l dep).length) ∧
    (∀ l dep, jsizeP l ≤ n → jsizeP l ≤ (wPairs d2s l dep).length) := by
  intro n
  induction n with
  | zero =>
    refine ⟨?_, ?_, ?_⟩
    · intro v dep hn
      have := jsizeV_pos v
      omega
    · intro l dep hn
      obtain rfl := jsizeL_eq_zero (show jsizeL l = 0 by omega)
      exact Nat.zero_le _
    · intro l dep hn
      obtain rfl := jsizeP_eq_zero (show jsizeP l = 0 by omega)
      exact Nat.zero_le _
  | succ n ih =>
    obtain ⟨ihV, ihL, ihP⟩ := ih
    refine ⟨?_, ?_, ?_⟩
    · intro v dep hn
      cases v with
      | nil => exact (by decide : (1 : Nat) ≤ 4)
      | bool b =>
        cases b
        · exact (by decide : (1 : Nat) ≤ 5)
        · exact (by decide : (1 : Nat) ≤ 4)
      | int i =>
        show jsizeV (JSON.int i) ≤ (intDec i).length
        have h1 : jsizeV (JSON.int i) = 1 := rfl
        rw [h1]
        unfold intDec
        split
        · simp
        · have h2 := List.length_pos.mpr (natDec_ne_nil i.toNat)
          omega
      | double bits hint =>
        show jsizeV (JSON.double bits hint) ≤
          (d2s bits ++ (if !((d2s bits).contains 46) && !((d2s bits).contains 101)
            then [46, 48] else [])).length
        have h1 : jsizeV (JSON.double bits hint) = 1 := rfl
        rw [h1, List.length_append]
        by_cases hm : d2s bits = []
        · rw [hm]
          decide
        · have := List.length_pos.mpr hm
          omega
      | str s =>
        show jsizeV (JSON.str s) ≤ (34 :: (escBytes s ++ [34])).length
        have h1 : jsizeV (JSON.str s) = 1 := rfl
        rw [h1]
        simp
      | arr elems =>
        cases elems with
        | nil => exact (by decide : (1 : Nat) ≤ 2)
        | cons x xs =>
          have h2 := ihL (x :: xs) (dep + 1) (by simp only [jsizeV] at hn; omega)
          show 1 + jsizeL (x :: xs) ≤
            (91 :: (wElems d2s (x :: xs) (dep + 1) ++ [10] ++ tabs dep ++ [93])).length
          simp only [List.length_cons, List.length_append]
          omega
      | obj entries =>
        cases entries with
        | nil => exact (by decide : (1 : Nat) ≤ 2)
        | cons p ps =>
          have h2 := ihP (p :: ps) (dep + 1) (by simp only [jsizeV] at hn; omega)
          show 1 + jsizeP (p :: ps) ≤
            (123 :: 10 :: (wPairs d2s (p :: ps) (dep + 1) ++ [10] ++ tabs dep ++
              [125])).length
          simp only [List.length_cons, List.length_append]
          omega
    · intro l dep hn
      cases l with
      | nil => exact Nat.zero_le _
      | cons x xs =>
        simp only [jsizeL] at hn
        have h1 := ihV x dep (by have := jsizeV_pos x; omega)
        cases xs with
        | nil =>
          show jsizeL [x] ≤ (10 :: (tabs dep ++ wT d2s x dep)).length
          simp only [jsizeL, List.length_cons, List.length_append]
          omega
        | cons y ys =>
          have h2 := ihL (y :: ys) dep (by omega)
          show jsizeL (x :: y :: ys) ≤
            (10 :: (tabs dep ++ wT d2s x dep ++ [44] ++
              wElems d2s (y :: ys) dep)).length
          simp only [jsizeL, List.length_cons, List.length_append]
          simp only [jsizeL] at h2 ⊢
          omega
    · intro l dep hn
      cases l with
      | nil => exact Nat.zero_le _
      | cons p ps =>
        obtain ⟨k, v⟩ := p
        simp only [jsizeP] at hn
        have h1 := ihV v dep (by have := jsizeV_pos v; omega)
        cases ps with
        | nil =>
          show jsizeP [(k, v)] ≤
            (tabs dep ++ wStr k ++ [58, 32] ++ wT d2s v dep).length
          simp only [jsizeP, List.length_cons, List.length_append, wStr]
          omega
        | cons q qs =>
          have h2 := ihP (q :: qs) dep (by have := jsizeV_pos v; omega)
          show jsizeP ((k, v) :: q :: qs) ≤
            (tabs dep ++ wStr k ++ [58, 32] ++ wT d2s v dep ++ [44, 10] ++
              wPairs d2s (q :: qs) dep).length
          simp only [jsizeP, List.length_cons, List.length_append, wStr]
          simp only [jsizeP] at h2 ⊢
          omega

/-- Any nonempty element list is written starting with a newline. -/
theorem wElems_cons_head (d2s : Nat → List Nat) (x : JSON) (l : List JSON)
    (dep : Nat) : ∃ w, wElems d2s (x :: l) dep = 10 :: w := by
  cases l
  · exact ⟨_, rfl⟩
  · exact ⟨_, rfl⟩

/-- The array loop on the writer's closer: newline, indent, `]`. -/
theorem arrLoop_end (F : Nat) (s2d : List Nat → Nat) (acc : List JSON)
    (t9 : Nat) (rest : List Nat) :
    arrLoop (F + 1) s2d acc (10 :: (List.replicate t9 9 ++ 93 :: rest)) =
      .ok (acc, rest) := by
  rw [arrLoop_succ_eq]
  rw [readWs_ws (Or.inr (Or.inr (Or.inl rfl))), readWs_tabs,
    readWs_nonws (show (93 : Nat) < 128 by decide) (by decide) (by decide)
      (by decide) (by decide)]
  dsimp only
  rw [if_pos (by decide)]

/-- The object loop on the writer's closer: newline, indent, a brace that is
not a quote ends the do-while. -/
theorem objLoop_end (F : Nat) (s2d : List Nat → Nat)
    (acc : List (List Nat × JSON)) (t9 : Nat) (rest : List Nat) :
    objLoop (F + 1) s2d acc (10 :: (List.replicate t9 9 ++ 125 :: rest)) =
      .ok (acc, rest) := by
  rw [objLoop_succ_eq]
  rw [readWs_ws (Or.inr (Or.inr (Or.inl rfl))), readWs_tabs,
    readWs_nonws (show (125 : Nat) < 128 by decide) (by decide) (by decide)
      (by decide) (by decide)]
  dsimp only
  rw [if_neg (by decide)]

/-- The master text round trip: on the escape-free class `wfT`, parsing the
writer's output returns the value itself, for every depth, every indentation
tail and both of the writer's separators. -/
theorem text_rt (d2s : Nat → List Nat) (s2d : List Nat → Nat) : ∀ n : Nat,
    (∀ v dep F rest, jsizeV v ≤ n → wfT v = true → 2 * jsizeV v ≤ F →
      restShape rest →
      ∃ rem, parseT (F + 1) s2d (wT d2s v dep ++ rest) = .ok (v, rem) ∧
        readWs rem = readWs rest ∧ (rest = [] → rem = [])) ∧
    (∀ l dep t9 F acc rest, jsizeL l ≤ n → wfTL l = true → 2 * jsizeL l ≤ F →
      arrLoop (F + 1) s2d acc
          (wElems d2s l dep ++ 10 :: (List.replicate t9 9 ++ 93 :: rest)) =
        .ok (acc ++ l, rest)) ∧
    (∀ l dep t9 F acc rest, jsizeP l ≤ n → wfTP l = true →
      (∀ k ∈ l.map Prod.fst, ∀ b ∈ k, b ≠ 34 ∧ b ≠ 10 ∧ b ≠ 92 ∧ b < 256) →
      distinctKeys (l.map Prod.fst) = true →
      (∀ k ∈ l.map Prod.fst, ∀ k2 ∈ acc.map Prod.fst, k2 ≠ k) →
      2 * jsizeP l ≤ F →
      objLoop (F + 1) s2d acc
          (wPairs d2s l dep ++ 10 :: (List.replicate t9 9 ++ 125 :: rest)) =
        .ok (acc ++ l, rest)) := by
  intro n
  induction n with
  | zero =>
    refine ⟨?_, ?_, ?_⟩
    · intro v dep F rest hn _ _ _
      have := jsizeV_pos v
      omega
    · intro l dep t9 F acc rest hn _ _
      obtain rfl := jsizeL_eq_zero (show jsizeL l = 0 by omega)
      rw [show wElems d2s ([] : List JSON) dep = [] from rfl, List.nil_append]
      rw [arrLoop_end F s2d acc t9 rest, List.append_nil]
    · intro l dep t9 F acc rest hn _ _ _ _ _
      obtain rfl := jsizeP_eq_zero (show jsizeP l = 0 by omega)
      rw [show wPairs d2s ([] : List (List Nat × JSON)) dep = [] from rfl,
        List.nil_append]
      rw [objLoop_end F s2d acc t9 rest, List.append_nil]
  | succ n ih =>
    obtain ⟨ihV, ihL, ihP⟩ := ih
    refine ⟨?_, ?_, ?_⟩
    · intro v dep F rest hn hwf hF hrest
      cases v with
      | nil =>
        refine ⟨rest, ?_, rfl, fun h => h⟩
        rw [show wT d2s JSON.nil dep = [110, 117, 108, 108] from rfl]
        exact parse_null F s2d rest
      | bool b =>
        cases b
        · refine ⟨rest, ?_, rfl, fun h => h⟩
          rw [show wT d2s (JSON.bool false) dep = [102, 97, 108, 115, 101] from rfl]
          exact parse_false F s2d rest
        · refine ⟨rest, ?_, rfl, fun h => h⟩
          rw [show wT d2s (JSON.bool true) dep = [116, 114, 117, 101] from rfl]
          exact parse_true F s2d rest
      | int i =>
        obtain ⟨h1, h2⟩ := wfT_int_elim hwf
        rw [show wT d2s (JSON.int i) dep = intDec i from rfl]
        exact parse_intDec i h1 h2 F s2d rest hrest
      | double bits hint =>
        simp only [wfT] at hwf
        exact absurd hwf (by decide)
      | str s =>
        have hcl := wfT_str_elim hwf
        refine ⟨rest, ?_, rfl, fun h => h⟩
        rw [show wT d2s (JSON.str s) dep = 34 :: (escBytes s ++ [34]) from rfl]
        rw [List.cons_append, List.append_assoc, List.singleton_append]
        rw [parseT_step_quote F s2d]
        rw [escBytes_id s (fun b hb => ⟨(hcl b hb).1, (hcl b hb).2.1,
          (hcl b hb).2.2.1⟩)]
        rw [readTStr_clean s rest (fun b hb => ⟨(hcl b hb).1, (hcl b hb).2.2.1,
          (hcl b hb).2.2.2⟩)]
      | arr elems =>
        cases elems with
        | nil =>
          have hF2 : 2 ≤ F := by
            have h1 : jsizeV (JSON.arr []) = 1 := rfl
            rw [h1] at hF
            omega
          obtain ⟨F2, rfl⟩ : ∃ F2, F = F2 + 1 := ⟨F - 1, by omega⟩
          refine ⟨rest, ?_, rfl, fun h => h⟩
          rw [show wT d2s (JSON.arr []) dep = [91, 93] from rfl]
          rw [show ([91, 93] : List Nat) ++ rest = 91 :: 93 :: rest from rfl]
          rw [parseT_step_lbrack]
          rw [arrLoop_succ_eq]
          rw [readWs_nonws (show (93 : Nat) < 128 by decide) (by decide)
            (by decide) (by decide) (by decide)]
          dsimp only
          rw [if_pos (by decide)]
        | cons x xs =>
          simp only [jsizeV] at hn hF
          obtain ⟨F2, rfl⟩ : ∃ F2, F = F2 + 1 := ⟨F - 1, by omega⟩
          refine ⟨rest, ?_, rfl, fun h => h⟩
          rw [show wT d2s (JSON.arr (x :: xs)) dep =
            91 :: (wElems d2s (x :: xs) (dep + 1) ++ [10] ++ tabs dep ++ [93])
            from rfl]
          rw [List.cons_append, parseT_step_lbrack]
          rw [show (wElems d2s (x :: xs) (dep + 1) ++ [10] ++ tabs dep ++ [93]) ++
              rest = wElems d2s (x :: xs) (dep + 1) ++
              (10 :: (List.replicate dep 9 ++ 93 :: rest)) from by simp [tabs]]
          rw [ihL (x :: xs) (dep + 1) dep F2 [] rest (by omega)
            (show wfTL (x :: xs) = true from hwf) (by omega)]
          rfl
      | obj entries =>
        cases entries with
        | nil =>
          have hF2 : 2 ≤ F := by
            have h1 : jsizeV (JSON.obj []) = 1 := rfl
            rw [h1] at hF
            omega
          obtain ⟨F2, rfl⟩ : ∃ F2, F = F2 + 1 := ⟨F - 1, by omega⟩
          refine ⟨rest, ?_, rfl, fun h => h⟩
          rw [show wT d2s (JSON.obj []) dep = [123, 125] from rfl]
          rw [show ([123, 125] : List Nat) ++ rest = 123 :: 125 :: rest from rfl]
          rw [parseT_step_lbrace]
          rw [objLoop_succ_eq]
          rw [readWs_nonws (show (125 : Nat) < 128 by decide) (by decide)
            (by decide) (by decide) (by decide)]
          dsimp only
          rw [if_neg (by decide)]
        | cons p ps =>
          simp only [jsizeV] at hn hF
          obtain ⟨F2, rfl⟩ : ∃ F2, F = F2 + 1 := ⟨F - 1, by omega⟩
          obtain ⟨hdk, hkeys, hwp⟩ := wfT_obj_elim hwf
          refine ⟨rest, ?_, rfl, fun h => h⟩
          rw [show wT d2s (JSON.obj (p :: ps)) dep = 123 :: 10 ::
            (wPairs d2s (p :: ps) (dep + 1) ++ [10] ++ tabs dep ++ [125])
            from rfl]
          rw [List.cons_append, List.cons_append, parseT_step_lbrace]
          rw [objLoop_ws (F2 + 1) s2d [] (Or.inr (Or.inr (Or.inl rfl)))]
          rw [show (wPairs d2s (p :: ps) (dep + 1) ++ [10] ++ tabs dep ++ [125]) ++
              rest = wPairs d2s (p :: ps) (dep + 1) ++
              (10 :: (List.replicate dep 9 ++ 125 :: rest)) from by simp [tabs]]
          rw [ihP (p :: ps) (dep + 1) dep F2 [] rest (by omega) hwp hkeys hdk
            (fun k1 _ k2 hk2 => absurd hk2 (List.not_mem_nil k2)) (by omega)]
          rfl
    · intro l dep t9 F acc rest hn hw hF
      cases l with
      | nil =>
        rw [show wElems d2s ([] : List JSON) dep = [] from rfl, List.nil_append]
        rw [arrLoop_end F s2d acc t9 rest, List.append_nil]
      | cons x xs =>
        have hw' : wfT x = true ∧ wfTL xs = true := by
          have h' : (wfT x && wfTL xs) = true := hw
          rw [Bool.and_eq_true] at h'
          exact h'
        simp only [jsizeL] at hn hF
        obtain ⟨F2, rfl⟩ : ∃ F2, F = F2 + 1 :=
          ⟨F - 1, by have := jsizeV_pos x; omega⟩
        obtain ⟨b0, t, ht, hb128, h32, h9, h10, h44, h93⟩ :=
          wT_head d2s x hw'.1 dep
        cases xs with
        | nil =>
          rw [show wElems d2s [x] dep = 10 :: (tabs dep ++ wT d2s x dep) from rfl]
          rw [List.cons_append]
          rw [arrLoop_ws (F2 + 1 + 1) s2d acc (Or.inr (Or.inr (Or.inl rfl)))]
          rw [show (tabs dep ++ wT d2s x dep) ++
              (10 :: (List.replicate t9 9 ++ 93 :: rest)) =
              List.replicate dep 9 ++ (wT d2s x dep ++
                (10 :: (List.replicate t9 9 ++ 93 :: rest))) from by simp [tabs]]
          rw [arrLoop_succ_eq]
          rw [readWs_tabs, ht, List.cons_append,
            readWs_nonws hb128 h32 h9 h10 h44]
          dsimp only
          rw [if_neg (by omega)]
          dsimp only [unget]
          rw [show b0 :: (t ++ (10 :: (List.replicate t9 9 ++ 93 :: rest))) =
            wT d2s x dep ++ (10 :: (List.replicate t9 9 ++ 93 :: rest))
            from by rw [ht, List.cons_append]]
          obtain ⟨rem, hp, hrw, -⟩ := ihV x dep F2
            (10 :: (List.replicate t9 9 ++ 93 :: rest)) (by omega) hw'.1
            (by omega) (Or.inr (Or.inl ⟨_, rfl⟩))
          rw [hp]
          dsimp only
          rw [arrLoop_eq_readWs (F2 + 1) s2d (acc ++ [x]) hrw]
          rw [arrLoop_end F2 s2d (acc ++ [x]) t9 rest]
        | cons x2 xs2 =>
          rw [show wElems d2s (x :: x2 :: xs2) dep = 10 :: (tabs dep ++
            wT d2s x dep ++ [44] ++ wElems d2s (x2 :: xs2) dep) from rfl]
          rw [List.cons_append]
          rw [arrLoop_ws (F2 + 1 + 1) s2d acc (Or.inr (Or.inr (Or.inl rfl)))]
          rw [show (tabs dep ++ wT d2s x dep ++ [44] ++
              wElems d2s (x2 :: xs2) dep) ++
              (10 :: (List.replicate t9 9 ++ 93 :: rest)) =
              List.replicate dep 9 ++ (wT d2s x dep ++
                (44 :: (wElems d2s (x2 :: xs2) dep ++
                  (10 :: (List.replicate t9 9 ++ 93 :: rest)))))
            from by simp [tabs]]
          rw [arrLoop_succ_eq]
          rw [readWs_tabs, ht, List.cons_append,
            readWs_nonws hb128 h32 h9 h10 h44]
          dsimp only
          rw [if_neg (by omega)]
          dsimp only [unget]
          rw [show b0 :: (t ++ (44 :: (wElems d2s (x2 :: xs2) dep ++
              (10 :: (List.replicate t9 9 ++ 93 :: rest))))) =
            wT d2s x dep ++ (44 :: (wElems d2s (x2 :: xs2) dep ++
              (10 :: (List.replicate t9 9 ++ 93 :: rest))))
            from by rw [ht, List.cons_append]]
          obtain ⟨w2, hw2⟩ := wElems_cons_head d2s x2 xs2 dep
          have hrs : restShape (44 :: (wElems d2s (x2 :: xs2) dep ++
              (10 :: (List.replicate t9 9 ++ 93 :: rest)))) := by
            right; right
            exact ⟨w2 ++ (10 :: (List.replicate t9 9 ++ 93 :: rest)),
              by rw [hw2, List.cons_append]⟩
          obtain ⟨rem, hp, hrw, -⟩ := ihV x dep F2 _ (by omega) hw'.1
            (by omega) hrs
          rw [hp]
          dsimp only
          rw [arrLoop_eq_readWs (F2 + 1) s2d (acc ++ [x]) hrw]
          rw [arrLoop_ws (F2 + 1) s2d (acc ++ [x])
            (Or.inr (Or.inr (Or.inr rfl)))]
          rw [ihL (x2 :: xs2) dep t9 F2 (acc ++ [x]) rest (by omega) hw'.2
            (by omega)]
          rw [List.append_assoc, List.singleton_append]
    · intro l dep t9 F acc rest hn hw hkeys hdk hdisj hF
      cases l with
      | nil =>
        rw [show wPairs d2s ([] : List (List Nat × JSON)) dep = [] from rfl,
          List.nil_append]
        rw [objLoop_end F s2d acc t9 rest, List.append_nil]
      | cons p ps =>
        obtain ⟨k, v⟩ := p
        have hw' : wfT v = true ∧ wfTP ps = true := by
          have h' : (wfT v && wfTP ps) = true := hw
          rw [Bool.and_eq_true] at h'
          exact h'
        have hkh : ∀ b ∈ k, b ≠ 34 ∧ b ≠ 10 ∧ b ≠ 92 ∧ b < 256 :=
          fun b hb => hkeys k (by simp) b hb
        have hdk' : distinctKeys (k :: ps.map Prod.fst) = true := hdk
        have hdke := distinctKeys_cons_elim hdk'
        simp only [jsizeP] at hn hF
        obtain ⟨F2, rfl⟩ : ∃ F2, F = F2 + 1 :=
          ⟨F - 1, by have := jsizeV_pos v; omega⟩
        cases ps with
        | nil =>
          rw [show wPairs d2s [(k, v)] dep =
            tabs dep ++ wStr k ++ [58, 32] ++ wT d2s v dep from rfl]
          rw [show (tabs dep ++ wStr k ++ [58, 32] ++ wT d2s v dep) ++
              (10 :: (List.replicate t9 9 ++ 125 :: rest)) =
              List.replicate dep 9 ++ (34 :: (escBytes k ++ (34 :: (58 :: (32 ::
                (wT d2s v dep ++ (10 :: (List.replicate t9 9 ++ 125 :: rest))))))))
            from by simp [tabs, wStr]]
          rw [objLoop_succ_eq]
          rw [readWs_tabs, readWs_nonws (show (34 : Nat) < 128 by decide)
            (by decide) (by decide) (by decide) (by decide)]
          dsimp only
          rw [if_pos (by decide)]
          rw [escBytes_id k (fun b hb => ⟨(hkh b hb).1, (hkh b hb).2.1,
            (hkh b hb).2.2.1⟩)]
          rw [readTStr_clean k _ (fun b hb => ⟨(hkh b hb).1, (hkh b hb).2.2.1,
            (hkh b hb).2.2.2⟩)]
          dsimp only
          rw [readWs_nonws (show (58 : Nat) < 128 by decide) (by decide)
            (by decide) (by decide) (by decide)]
          dsimp only
          rw [if_pos (by decide)]
          rw [parseT_ws (F2 + 1) s2d (Or.inl rfl)]
          obtain ⟨rem, hp, hrw, -⟩ := ihV v dep F2
            (10 :: (List.replicate t9 9 ++ 125 :: rest)) (by omega) hw'.1
            (by omega) (Or.inr (Or.inl ⟨_, rfl⟩))
          rw [hp]
          dsimp only
          rw [mapInsert_append acc k v (hdisj k (by simp))]
          rw [objLoop_eq_readWs (F2 + 1) s2d (acc ++ [(k, v)]) hrw]
          rw [objLoop_end F2 s2d (acc ++ [(k, v)]) t9 rest]
        | cons q qs =>
          obtain ⟨k2, v2⟩ := q
          rw [show wPairs d2s ((k, v) :: (k2, v2) :: qs) dep =
            tabs dep ++ wStr k ++ [58, 32] ++ wT d2s v dep ++ [44, 10] ++
              wPairs d2s ((k2, v2) :: qs) dep from rfl]
          rw [show (tabs dep ++ wStr k ++ [58, 32] ++ wT d2s v dep ++ [44, 10] ++
              wPairs d2s ((k2, v2) :: qs) dep) ++
              (10 :: (List.replicate t9 9 ++ 125 :: rest)) =
              List.replicate dep 9 ++ (34 :: (escBytes k ++ (34 :: (58 :: (32 ::
                (wT d2s v dep ++ (44 :: (10 ::
                  (wPairs d2s ((k2, v2) :: qs) dep ++
                    (10 :: (List.replicate t9 9 ++ 125 :: rest)))))))))))
            from by simp [tabs, wStr]]
          rw [objLoop_succ_eq]
          rw [readWs_tabs, readWs_nonws (show (34 : Nat) < 128 by decide)
            (by decide) (by decide) (by decide) (by decide)]
          dsimp only
          rw [if_pos (by decide)]
          rw [escBytes_id k (fun b hb => ⟨(hkh b hb).1, (hkh b hb).2.1,
            (hkh b hb).2.2.1⟩)]
          rw [readTStr_clean k _ (fun b hb => ⟨(hkh b hb).1, (hkh b hb).2.2.1,
            (hkh b hb).2.2.2⟩)]
          dsimp only
          rw [readWs_nonws (show (58 : Nat) < 128 by decide) (by decide)
            (by decide) (by decide) (by decide)]
          dsimp only
          rw [if_pos (by decide)]
          rw [parseT_ws (F2 + 1) s2d (Or.inl rfl)]
          have hrs : restShape (44 :: (10 ::
              (wPairs d2s ((k2, v2) :: qs) dep ++
                (10 :: (List.replicate t9 9 ++ 125 :: rest))))) :=
            Or.inr (Or.inr ⟨_, rfl⟩)
          obtain ⟨rem, hp, hrw, -⟩ := ihV v dep F2 _ (by omega) hw'.1
            (by omega) hrs
          rw [hp]
          dsimp only
          rw [mapInsert_append acc k v (hdisj k (by simp))]
          rw [objLoop_eq_readWs (F2 + 1) s2d (acc ++ [(k, v)]) hrw]
          rw [objLoop_ws (F2 + 1) s2d (acc ++ [(k, v)])
            (Or.inr (Or.inr (Or.inr rfl)))]
          rw [objLoop_ws (F2 + 1) s2d (acc ++ [(k, v)])
            (Or.inr (Or.inr (Or.inl rfl)))]
          rw [ihP ((k2, v2) :: qs) dep t9 F2 (acc ++ [(k, v)]) rest (by omega)
            hw'.2
            (fun k1 hk1 b hb => hkeys k1 (List.mem_cons_of_mem k hk1) b hb)
            hdke.2
            (by
              intro k1 hk1 kk hkk
              rw [List.map_append] at hkk
              rcases List.mem_append.mp hkk with h | h
              · exact hdisj k1 (List.mem_cons_of_mem k hk1) kk h
              · have hkkk : kk = k := by simpa using h
                rw [hkkk]
                intro heq
                exact hdke.1 (by rw [heq]; exact hk1))
            (by omega)]
          rw [List.append_assoc, List.singleton_append]

/-- C2: corrected text round trip.  On the escape-free class `wfT` (no
doubles, `int64_t`-ranged integers, strings and keys free of the quote,
newline and backslash bytes and under 256, distinct keys), deserialising the
exact textual output of `Serialisable::serialise` returns exactly the value
itself with no input left over - kind and content equal on
null/bool/number/string and structurally equal on arrays and objects, with
even the object iteration order preserved.  (The unrestricted claim fails on
the escaped characters; see the counterexample.) -/
theorem c2_text_round_trip (v : JSON) (hwf : wfT v = true)
    (d2s : Nat → List Nat) (s2d : List Nat → Nat) :
    parseTextTop s2d (writeText d2s v) = .ok (v, []) := by
  unfold parseTextTop writeText
  have hlen := (wT_len d2s (jsizeV v)).1 v 0 le_rfl
  obtain ⟨F, hF⟩ : ∃ F, 3 * (wT d2s v 0).length + 4 = F + 1 :=
    ⟨3 * (wT d2s v 0).length + 3, rfl⟩
  rw [hF]
  obtain ⟨rem, hp, -, hnil⟩ := (text_rt d2s s2d (jsizeV v)).1 v 0 F []
    le_rfl hwf (by omega) (Or.inl rfl)
  rw [List.append_nil] at hp
  rw [hp, hnil rfl]

/-- C2 witness: a concrete three-kind value (array of an integer, a string
and a one-pair object) satisfies `wfT`, and the theorem instantiates on it. -/
theorem c2_text_round_trip_witness :
    wfT (.arr [.int 1, .str [104], .obj [([107], .bool true)]]) = true ∧
    parseTextTop (fun _ => 0)
        (writeText (fun _ => []) (.arr [.int 1, .str [104],
          .obj [([107], .bool true)]])) =
      .ok (.arr [.int 1, .str [104], .obj [([107], .bool true)]], []) :=
  ⟨by decide, c2_text_round_trip _ (by decide) (fun _ => []) (fun _ => 0)⟩

end Serialisable

